import Mathlib

/-!
# monkey-go: the lexer state machine

A shallow embedding of `lexer/golex.go`.  A Go `string` is a sequence of bytes and
is modelled by `List Nat` (one number per byte); a `rune` and an `int` are modelled
by `Int`.  Go code that can panic (a slice expression out of range) or block for ever
(a send on a full channel with no receiver) returns `Except.error`, as does a loop of
the model that runs out of fuel.
-/

deriving instance DecidableEq for Except

namespace Monkey

/-- The ways in which a call of the embedded lexer can fail to return. -/
inductive Fault where
  /-- a slice expression `s[i:j]` with bounds out of range (a Go panic) -/
  | sliceBounds
  /-- a send on the token channel while it already holds its capacity of two -/
  | sendBlocked
  /-- `backup` called without a read immediately before it -/
  | backupWithoutRead
  /-- a loop of the model used up its fuel -/
  | outOfFuel
deriving DecidableEq, Repr

/-- The bytes of an ASCII string literal. -/
def str (s : String) : List Nat := s.toList.map Char.toNat

/-- The slice expression `s[i:j]` of a Go string; it panics unless `0 ≤ i ≤ j ≤ len(s)`. -/
def slice (s : List Nat) (i j : Int) : Except Fault (List Nat) :=
  if 0 ≤ i ∧ i ≤ j ∧ j ≤ (s.length : Int) then
    .ok ((s.drop i.toNat).take (j - i).toNat)
  else
    .error .sliceBounds

/-! ## The parts of the Go standard library the lexer calls -/

namespace utf8

/-- The rune `utf8.RuneError`, U+FFFD. -/
def RuneError : Int := 0xFFFD

/-- The function `utf8.ValidRune`: a code point that is not a surrogate half. -/
def ValidRune (r : Int) : Bool :=
  (0 ≤ r && r < 0xD800) || (0xDFFF < r && r ≤ 0x10FFFF)

/-- The function `utf8.DecodeRuneInString`: the first rune of `s` and its width in bytes;
`(RuneError, 0)` for the empty string and `(RuneError, 1)` for an invalid encoding.
The masks and shifts of the Go code are written with `%` and `*`. -/
def DecodeRuneInString : List Nat → Int × Int
  | [] => (RuneError, 0)
  | s0 :: t =>
    if s0 < 0x80 then ((s0 : Int), 1)
    else if s0 < 0xC2 then (RuneError, 1)
    else if s0 < 0xE0 then
      match t with
      | s1 :: _ =>
        if 0x80 ≤ s1 ∧ s1 ≤ 0xBF then ((((s0 % 32) * 64 + s1 % 64 : Nat) : Int), 2)
        else (RuneError, 1)
      | _ => (RuneError, 1)
    else if s0 < 0xF0 then
      match t with
      | s1 :: s2 :: _ =>
        if (if s0 = 0xE0 then 0xA0 else 0x80) ≤ s1 ∧ s1 ≤ (if s0 = 0xED then 0x9F else 0xBF)
            ∧ 0x80 ≤ s2 ∧ s2 ≤ 0xBF then
          ((((s0 % 16) * 4096 + (s1 % 64) * 64 + s2 % 64 : Nat) : Int), 3)
        else (RuneError, 1)
      | _ => (RuneError, 1)
    else if s0 < 0xF5 then
      match t with
      | s1 :: s2 :: s3 :: _ =>
        if (if s0 = 0xF0 then 0x90 else 0x80) ≤ s1 ∧ s1 ≤ (if s0 = 0xF4 then 0x8F else 0xBF)
            ∧ 0x80 ≤ s2 ∧ s2 ≤ 0xBF ∧ 0x80 ≤ s3 ∧ s3 ≤ 0xBF then
          ((((s0 % 8) * 262144 + (s1 % 64) * 4096 + (s2 % 64) * 64 + s3 % 64 : Nat) : Int), 4)
        else (RuneError, 1)
      | _ => (RuneError, 1)
    else (RuneError, 1)

/-- The function `utf8.AppendRune` on an empty buffer: the UTF-8 encoding of `r`
(that of `RuneError` for a surrogate half or a value out of range). -/
def AppendRune (r : Int) : List Nat :=
  let i := r.toNat
  if 0 ≤ r ∧ r ≤ 0x7F then [i]
  else if 0 ≤ r ∧ r ≤ 0x7FF then [0xC0 + i / 64, 0x80 + i % 64]
  else if ¬ ValidRune r then [0xEF, 0xBF, 0xBD]
  else if r ≤ 0xFFFF then [0xE0 + i / 4096, 0x80 + (i / 64) % 64, 0x80 + i % 64]
  else [0xF0 + i / 262144, 0x80 + (i / 4096) % 64, 0x80 + (i / 64) % 64, 0x80 + i % 64]

end utf8

namespace unicode

/-- The function `unicode.IsSpace`: the Latin-1 switch of the Go code, then the
`White_Space` range table above Latin-1.  A negative rune is not a space. -/
def IsSpace (r : Int) : Bool :=
  if 0 ≤ r ∧ r ≤ 0xFF then
    r = 0x09 ∨ r = 0x0A ∨ r = 0x0B ∨ r = 0x0C ∨ r = 0x0D ∨ r = 0x20 ∨ r = 0x85 ∨ r = 0xA0
  else
    r = 0x1680 ∨ (0x2000 ≤ r ∧ r ≤ 0x200A) ∨ r = 0x2028 ∨ r = 0x2029 ∨ r = 0x202F
      ∨ r = 0x205F ∨ r = 0x3000

end unicode

namespace strings

/-- The function `strings.IndexRune` for an ASCII string `s`, which is all the lexer
passes: the index of the first byte equal to `r`, or `-1`.  A rune outside ASCII
(also `eof` and `RuneError`) does not occur in an ASCII string. -/
def IndexRune (s : List Nat) (r : Int) : Int :=
  if 0 ≤ r ∧ r < 0x80 ∧ r.toNat ∈ s then (s.indexOf r.toNat : Int) else -1

end strings

namespace strconv

/-- The digit table `lowerhex` of package strconv at index `n % 16`. -/
def lowerhex (n : Nat) : Nat :=
  if n % 16 < 10 then 48 + n % 16 else 87 + n % 16

/-- The function `strconv.IsPrint`.  Latin-1 is decided as in the Go code; above it Go
searches tables of the Unicode standard, which are the parameter `pr`. -/
def IsPrint (pr : Int → Bool) (r : Int) : Bool :=
  if r ≤ 0xFF then
    if 0x20 ≤ r ∧ r ≤ 0x7E then true
    else if 0xA1 ≤ r ∧ r ≤ 0xFF then r ≠ 0xAD
    else false
  else pr r

/-- The function `strconv.appendEscapedRune` on an empty buffer, with `ASCIIonly` and
`graphicOnly` false as `%q` sets them: the text of `r` inside a literal quoted by `quote`. -/
def appendEscapedRune (pr : Int → Bool) (r : Int) (quote : Nat) : List Nat :=
  if r = quote ∨ r = 0x5C then [0x5C, r.toNat % 256]
  else if IsPrint pr r then utf8.AppendRune r
  else if r = 0x07 then str "\\a"
  else if r = 0x08 then str "\\b"
  else if r = 0x0C then str "\\f"
  else if r = 0x0A then str "\\n"
  else if r = 0x0D then str "\\r"
  else if r = 0x09 then str "\\t"
  else if r = 0x0B then str "\\v"
  else if r < 0x20 ∨ r = 0x7F then
    str "\\x" ++ [lowerhex ((r.toNat % 256) / 16), lowerhex (r.toNat % 256)]
  else
    let u := if utf8.ValidRune r then r.toNat else 0xFFFD
    if u < 0x10000 then
      str "\\u" ++ [lowerhex (u / 4096), lowerhex (u / 256), lowerhex (u / 16), lowerhex u]
    else
      str "\\U" ++ [lowerhex (u / 268435456), lowerhex (u / 16777216), lowerhex (u / 1048576),
        lowerhex (u / 65536), lowerhex (u / 4096), lowerhex (u / 256), lowerhex (u / 16),
        lowerhex u]

/-- The function `strconv.QuoteRune`: a single-quoted Go character literal. -/
def QuoteRune (pr : Int → Bool) (r : Int) : List Nat :=
  [0x27] ++ appendEscapedRune pr (if utf8.ValidRune r then r else utf8.RuneError) 0x27 ++ [0x27]

/-- The loop of `strconv.appendQuotedWith` over the runes of `s`; every round removes at
least one byte, so `len(s)` rounds of fuel are enough. -/
def quoteLoop (pr : Int → Bool) : Nat → List Nat → List Nat
  | 0, _ => []
  | _, [] => []
  | n + 1, s0 :: t =>
    let d : Int × Int := if s0 ≥ 0x80 then utf8.DecodeRuneInString (s0 :: t) else ((s0 : Int), 1)
    (if d.2 = 1 ∧ d.1 = utf8.RuneError then
        str "\\x" ++ [lowerhex ((s0 % 256) / 16), lowerhex (s0 % 256)]
      else appendEscapedRune pr d.1 0x22)
    ++ quoteLoop pr n ((s0 :: t).drop d.2.toNat)

/-- The function `strconv.Quote`: a double-quoted Go string literal. -/
def Quote (pr : Int → Bool) (s : List Nat) : List Nat :=
  [0x22] ++ quoteLoop pr s.length s ++ [0x22]

end strconv

namespace fmt

/-- The verb `%q` of `fmt.Sprintf` applied to a value of type `rune` (`fmtQc`): the quoted
character, with `RuneError` in the place of a number that is no code point.  (For such a
number older Go releases print a bad-verb text instead; the lexer only formats runes that
`next` has decoded, and those are code points.) -/
def Sprintf_q_rune (pr : Int → Bool) (r : Int) : List Nat :=
  strconv.QuoteRune pr (if 0 ≤ r ∧ r ≤ 0x10FFFF then r else utf8.RuneError)

/-- The verb `%q` of `fmt.Sprintf` applied to a string. -/
def Sprintf_q_string (pr : Int → Bool) (s : List Nat) : List Nat :=
  strconv.Quote pr s

end fmt

/-! ## Package token (used by the lexer; its file is not among the sources) -/

namespace token

/-- Modelled from the spec: the type `token.TokenType`, a string, as the conversions
`token.TokenType(l.input[l.start:l.pos])` of the lexer show. -/
abbrev TokenType := List Nat

/-- Modelled from the spec: the struct `token.Token`, a kind and the literal text (§3);
the Go field `Type` is called `Kind` here. -/
structure Token where
  Kind : TokenType
  Literal : List Nat
deriving DecidableEq, Repr

/-- Modelled from the spec: the constant `token.ILLEGAL` (§6); the text of a named kind
is taken to be its name. -/
def ILLEGAL : TokenType := str "ILLEGAL"
/-- Modelled from the spec: the constant `token.EOF` (§6). -/
def EOF : TokenType := str "EOF"
/-- Modelled from the spec: the constant `token.IDENT` (§6). -/
def IDENT : TokenType := str "IDENT"
/-- Modelled from the spec: the constant `token.INT` (§6). -/
def INT : TokenType := str "INT"

/-- Modelled from the spec: the keyword table behind `token.LookupIdent` (§4.1, §6):
`fn`, `let`, `true`, `false`, `if`, `else`, `return` and their keyword kinds. -/
def keywords : List (List Nat × TokenType) :=
  [(str "fn", str "FUNCTION"), (str "let", str "LET"), (str "true", str "TRUE"),
   (str "false", str "FALSE"), (str "if", str "IF"), (str "else", str "ELSE"),
   (str "return", str "RETURN")]

/-- Modelled from the spec: the function `token.LookupIdent` (§4.1): the keyword kind of a
keyword, and `IDENT` for every other identifier. -/
def LookupIdent (ident : List Nat) : TokenType :=
  match keywords.lookup ident with
  | some k => k
  | none => IDENT

end token

/-! ## Package lexer: `golex.go` -/

namespace lexer

open token

/-- The constant `eof`. -/
def eof : Int := -1

/-- The three functions of type `stateFn` that the file defines; a field of this type
holds one of them or `nil`, which is `none` of `Option stateFn`. -/
inductive stateFn where
  | lex
  | lexIdentifier
  | lexNumber
deriving DecidableEq, Repr

/-- The struct `goLex`.  `tokens` is the content of the buffered channel, oldest first.
`canBackup` is not a field of the Go struct: it records whether the last cursor
operation was a read (`next`), so that a `backup` without one shows up as a fault. -/
structure goLex where
  state : Option stateFn
  input : List Nat
  start : Int
  pos : Int
  width : Int
  tokens : List Token
  canBackup : Bool
deriving DecidableEq, Repr

/-- The constructor `NewGoLex`. -/
def NewGoLex (input : List Nat) : goLex :=
  { state := some stateFn.lex, input := input, start := 0, pos := 0, width := 0,
    tokens := [], canBackup := false }

/-- A send `l.tokens <- t` on the channel made by `make(chan token.Token, 2)`: with two
tokens already buffered and nobody receiving, the send never returns. -/
def goLex.send (l : goLex) (t : Token) : Except Fault goLex :=
  if l.tokens.length < 2 then .ok { l with tokens := l.tokens ++ [t] }
  else .error .sendBlocked

/-- The method `next`. -/
def goLex.next (l : goLex) : Except Fault (Int × goLex) :=
  if l.pos ≥ (l.input.length : Int) then
    .ok (eof, { l with width := 0, canBackup := true })
  else do
    let s ← slice l.input l.pos l.input.length
    let d := utf8.DecodeRuneInString s
    .ok (d.1, { l with width := d.2, pos := l.pos + d.2, canBackup := true })

/-- The method `ignore`. -/
def goLex.ignore (l : goLex) : goLex :=
  { l with start := l.pos }

/-- The method `backup`. -/
def goLex.backup (l : goLex) : Except Fault goLex :=
  if l.canBackup then .ok { l with pos := l.pos - l.width, canBackup := false }
  else .error .backupWithoutRead

/-- The method `peek`. -/
def goLex.peek (l : goLex) : Except Fault (Int × goLex) := do
  let (r, l) ← l.next
  let l ← l.backup
  pure (r, l)

/-- The function `isSpace`. -/
def isSpace (r : Int) : Bool := unicode.IsSpace r

/-- The function `isNumber`. -/
def isNumber (r : Int) : Bool := 0x30 ≤ r ∧ r ≤ 0x39

/-- The function `isAlpha`. -/
def isAlpha (r : Int) : Bool :=
  (0x61 ≤ r ∧ r ≤ 0x7A) ∨ (0x41 ≤ r ∧ r ≤ 0x5A) ∨ r = 0x5F

/-- The loop of `ignoreWhitespace`, one round per unit of fuel. -/
def goLex.ignoreWhitespaceLoop : Nat → goLex → Except Fault goLex
  | 0, _ => .error .outOfFuel
  | n + 1, l => do
    let (r, l) ← l.next
    if isSpace r then goLex.ignoreWhitespaceLoop n l.ignore
    else l.backup

/-- The method `ignoreWhitespace`; every round but the last reads at least one byte. -/
def goLex.ignoreWhitespace (l : goLex) : Except Fault goLex :=
  goLex.ignoreWhitespaceLoop (l.input.length + 1) l

/-- The method `accept`. -/
def goLex.accept (l : goLex) (valid : List Nat) : Except Fault (Bool × goLex) := do
  let (r, l) ← l.next
  if strings.IndexRune valid r ≥ 0 then pure (true, l)
  else do
    let l ← l.backup
    pure (false, l)

/-- The loop of `acceptRun`, one round per unit of fuel. -/
def goLex.acceptRunLoop (valid : List Nat) : Nat → goLex → Except Fault goLex
  | 0, _ => .error .outOfFuel
  | n + 1, l => do
    let (r, l) ← l.next
    if strings.IndexRune valid r ≥ 0 then goLex.acceptRunLoop valid n l
    else l.backup

/-- The method `acceptRun`; every round but the last reads at least one byte. -/
def goLex.acceptRun (l : goLex) (valid : List Nat) : Except Fault goLex :=
  goLex.acceptRunLoop valid (l.input.length + 1) l

/-- The method `emit`. -/
def goLex.emit (l : goLex) (tokenType : TokenType) : Except Fault goLex := do
  let lit ← slice l.input l.start l.pos
  let l ← l.send { Kind := tokenType, Literal := lit }
  pure { l with start := l.pos }

/-- The method `errorf`, applied to the message that `fmt.Sprintf(format, args...)`
builds at the call site; the `nil` it returns is `none`. -/
def goLex.errorf (l : goLex) (message : List Nat) : Except Fault (Option stateFn × goLex) := do
  let l ← l.send { Kind := ILLEGAL, Literal := message }
  pure (none, l)

/-- The state function `lex`. -/
def lex (pr : Int → Bool) (l : goLex) : Except Fault (Option stateFn × goLex) := do
  let l ← l.ignoreWhitespace
  let (b, l) ← l.accept (str "!=")
  if b then
    let (b, l) ← l.accept (str "=")
    if b then
      let l ← l.emit (← slice l.input l.start l.pos)
      pure (some stateFn.lex, l)
    else
      let l ← l.emit (← slice l.input l.start l.pos)
      pure (some stateFn.lex, l)
  else
    let (b, l) ← l.accept (str ";(),+-/*<>\x7b\x7d")
    if b then
      let l ← l.emit (← slice l.input l.start l.pos)
      pure (some stateFn.lex, l)
    else
      let (r, l) ← l.peek
      if isAlpha r then pure (some stateFn.lexIdentifier, l)
      else
        let (r, l) ← l.peek
        if isNumber r then pure (some stateFn.lexNumber, l)
        else
          let (r, l) ← l.peek
          if r = eof then pure (none, l)
          else
            let (r, l) ← l.next
            l.errorf (str "Illegal character: " ++ fmt.Sprintf_q_rune pr r)

/-- The loop of `lexIdentifier`, one round per unit of fuel. -/
def lexIdentifierLoop : Nat → goLex → Except Fault goLex
  | 0, _ => .error .outOfFuel
  | n + 1, l => do
    let (r, l) ← l.next
    if ¬ isAlpha r then
      let l ← l.backup
      l.emit (LookupIdent (← slice l.input l.start l.pos))
    else lexIdentifierLoop n l

/-- The state function `lexIdentifier`; every round but the last reads at least one byte. -/
def lexIdentifier (l : goLex) : Except Fault (Option stateFn × goLex) := do
  let l ← lexIdentifierLoop (l.input.length + 1) l
  pure (some stateFn.lex, l)

/-- The state function `lexNumber`. -/
def lexNumber (pr : Int → Bool) (l : goLex) : Except Fault (Option stateFn × goLex) := do
  let l ← l.acceptRun (str "0123456789")
  let (r, l) ← l.peek
  if isAlpha r then
    let (_, l) ← l.next
    l.errorf (str "bad number syntax: " ++ fmt.Sprintf_q_string pr (← slice l.input l.start l.pos))
  else
    let l ← l.emit INT
    pure (some stateFn.lex, l)

/-- The call `l.state(l)` of a state function held in the field `state`. -/
def stateFn.call (pr : Int → Bool) : stateFn → goLex → Except Fault (Option stateFn × goLex)
  | stateFn.lex => lexer.lex pr
  | stateFn.lexIdentifier => lexer.lexIdentifier
  | stateFn.lexNumber => lexer.lexNumber pr

/-- The loop of `NextToken`, one round per unit of fuel: a buffered token is received and
returned; with the buffer empty, a `nil` state gives the EOF token and any other state
function is run and its result stored in `l.state`. -/
def goLex.NextTokenLoop (pr : Int → Bool) : Nat → goLex → Except Fault (Token × goLex)
  | 0, _ => .error .outOfFuel
  | n + 1, l =>
    match l.tokens with
    | t :: ts => .ok (t, { l with tokens := ts })
    | [] =>
      match l.state with
      | none => .ok ({ Kind := EOF, Literal := [] }, l)
      | some f => do
        let (st, l) ← f.call pr l
        goLex.NextTokenLoop pr n { l with state := st }

/-- The method `NextToken`: the token it returns and the lexer it leaves behind.  The loop
of the Go code has no bound; here it gets `len(input) + 3` rounds. -/
def goLex.NextToken (pr : Int → Bool) (l : goLex) : Except Fault (Token × goLex) :=
  goLex.NextTokenLoop pr (l.input.length + 3) l

/-- The tokens returned by `n` successive calls of `NextToken`, in order, and the lexer
after the last call. -/
def goLex.NextTokens (pr : Int → Bool) : Nat → goLex → Except Fault (List Token × goLex)
  | 0, l => .ok ([], l)
  | n + 1, l => do
    let (t, l) ← l.NextToken pr
    let (ts, l) ← goLex.NextTokens pr n l
    pure (t :: ts, l)

end lexer


/-! ## Definitions used to state and prove the properties -/

/-- The conversion `string(rs)` of a slice of runes: their UTF-8 encodings in a row. -/
def runesToString : List Int → List Nat
  | [] => []
  | r :: rs => utf8.AppendRune r ++ runesToString rs

/-- The width in bytes of the first rune of `s` (0 for the empty string). -/
def widthAt (s : List Nat) : Nat := (utf8.DecodeRuneInString s).2.toNat

/-- The rune that `next` returns when `s` is the unread input: `eof` at the end. -/
def runeAt (s : List Nat) : Int :=
  match s with
  | [] => lexer.eof
  | _ => (utf8.DecodeRuneInString s).1

namespace lexer

open token

/-- A lexer whose cursor fields are the natural numbers `s`, `p` and `w`. -/
def cur (st : Option stateFn) (inp : List Nat) (s p w : Nat) (toks : List Token) (cb : Bool) :
    goLex :=
  { state := st, input := inp, start := s, pos := p, width := w, tokens := toks, canBackup := cb }

end lexer

namespace lexer

open token

/-- The texts of the operator and delimiter tokens. -/
def operators : List (List Nat) :=
  [str "==", str "!=", str "=", str "!", str ";", str "(", str ")", str ",", str "+", str "-",
   str "/", str "*", str "<", str ">", str "\x7b", str "\x7d"]

/-- `Lexeme lit tok`: `tok` is the token of the source text `lit`, which is an operator or
delimiter, a non-empty run of letters and underscores, or a non-empty run of digits. -/
inductive Lexeme : List Nat → Token → Prop
  | op (lit : List Nat) (h : lit ∈ operators) : Lexeme lit { Kind := lit, Literal := lit }
  | ident (b : Nat) (a : List Nat) (h : ∀ x ∈ b :: a, isAlpha (x : Int) = true) :
      Lexeme (b :: a) { Kind := LookupIdent (b :: a), Literal := b :: a }
  | int (b : Nat) (d : List Nat) (h : ∀ x ∈ b :: d, isNumber (x : Int) = true) :
      Lexeme (b :: d) { Kind := INT, Literal := b :: d }

/-- `Step inp p tok l`: what one call of `NextToken` does on the input `inp` with the
cursor at byte `p`: after whitespace `ws` it returns the token of a lexeme and stops
behind it (`token`), or finds the end of the input (`eof`), or returns an ILLEGAL token,
having read the text `bad`, and ends the scan (`illegal`). -/
inductive Step (inp : List Nat) (p : Nat) : Token → goLex → Prop
  | token (ws : List Int) (lit rest : List Nat) (tok : Token) (w : Nat) (cb : Bool)
      (hws : ∀ r ∈ ws, isSpace r = true) (hl : Lexeme lit tok)
      (hd : inp.drop p = runesToString ws ++ (lit ++ rest)) :
      Step inp p tok
        (cur (some stateFn.lex) inp (p + (runesToString ws).length + lit.length)
          (p + (runesToString ws).length + lit.length) w [] cb)
  | eof (ws : List Int) (hws : ∀ r ∈ ws, isSpace r = true)
      (hd : inp.drop p = runesToString ws) :
      Step inp p { Kind := EOF, Literal := [] }
        (cur none inp (p + (runesToString ws).length) (p + (runesToString ws).length) 0 []
          false)
  | illegal (ws : List Int) (bad rest msg : List Nat) (w : Nat) (cb : Bool)
      (hws : ∀ r ∈ ws, isSpace r = true) (hb : bad ≠ [])
      (hd : inp.drop p = runesToString ws ++ (bad ++ rest)) :
      Step inp p { Kind := ILLEGAL, Literal := msg }
        (cur none inp (p + (runesToString ws).length)
          (p + (runesToString ws).length + bad.length) w [] cb)

/-- The lexers met between two calls of `NextToken`: the buffer is empty and either the
state is `lex` with `start = pos` (`ready`) or the state is `nil` (`finished`). -/
inductive Boundary (inp : List Nat) : goLex → Prop
  | ready (p w : Nat) (cb : Bool) (hp : p ≤ inp.length) :
      Boundary inp (cur (some stateFn.lex) inp p p w [] cb)
  | finished (s p w : Nat) (cb : Bool) (hs : s ≤ p) (hp : p ≤ inp.length) :
      Boundary inp (cur none inp s p w [] cb)

/-- The loop behind `removeSpace`, one character per unit of fuel. -/
def removeSpaceLoop : Nat → List Nat → List Nat
  | 0, _ => []
  | _ + 1, [] => []
  | n + 1, b :: t =>
    if isSpace (runeAt (b :: t)) then removeSpaceLoop n ((b :: t).drop (widthAt (b :: t)))
    else (b :: t).take (widthAt (b :: t))
      ++ removeSpaceLoop n ((b :: t).drop (widthAt (b :: t)))

/-- The string `s` with its whitespace characters removed: `s` is decoded character by
character and the bytes of every character that is not a space are kept. -/
def removeSpace (s : List Nat) : List Nat := removeSpaceLoop s.length s

/-- The string in which whitespace and token texts alternate: `gaps[0]`, `lits[0]`,
`gaps[1]`, `lits[1]` and so on. -/
def interleave : List (List Int) → List (List Nat) → List Nat
  | g :: gs, t :: ts => runesToString g ++ (t ++ interleave gs ts)
  | _, _ => []

/-- No `=` directly follows a `=` or a `!` in `cs`. -/
def noEqualsAfter : List Nat → Bool
  | a :: b :: t => !((a == 61 || a == 33) && b == 61) && noEqualsAfter (b :: t)
  | _ => true

/-- The tokens of `ts` before the first ILLEGAL or EOF token. -/
def beforeEnd (ts : List Token) : List Token :=
  ts.takeWhile (fun t => decide (t.Kind ≠ ILLEGAL ∧ t.Kind ≠ EOF))

end lexer

/-! ## Package ast: `ast.go` -/

namespace ast

open token

/-- The function `writeString`, applied to the texts that `fmt.Sprintf("%v", s)` gives for
its arguments: a string is its own text, a node gives what its `String` method returns,
and a nil value gives `<nil>`.  The texts are written to the buffer from left to right. -/
def writeString (str : List (List Nat)) : List Nat :=
  str.foldl (fun buffer s => buffer ++ s) []

/-- The struct `Identifier`, as the value behind the pointer `*Identifier`. -/
structure Identifier where
  Token : Token
  Value : List Nat
deriving DecidableEq, Repr

/-- The method `Identifier.String`. -/
def Identifier.String (i : Identifier) : List Nat := i.Value

/-- The text `%v` gives for a value of type `*Identifier`, which may be nil. -/
def Identifier.format : Option Identifier → List Nat
  | none => Monkey.str "<nil>"
  | some i => i.String

/-- The values of the interface type `Expression`: nil, or a pointer to one of the four
node structs, with the fields of the struct. -/
inductive Expression where
  | nil
  | Identifier (Token : Token) (Value : List Nat)
  | IntegerLiteral (Token : Token) (Value : Int)
  | PrefixExpression (Token : Token) (Operator : List Nat) (Right : Expression)
  | InfixExpression (Token : Token) (Left : Expression) (Operator : List Nat)
      (Right : Expression)
deriving DecidableEq, Repr

/-- The methods `String` of the four expression nodes.  For the nil interface value, on which
Go cannot call the method, the result is the text `<nil>` that `%v` prints for it inside
`writeString`; the callers that call `String` directly test for nil first. -/
def Expression.String : Expression → List Nat
  | Expression.nil => Monkey.str "<nil>"
  | Expression.Identifier _ Value => Value
  | Expression.IntegerLiteral Token _ => Token.Literal
  | Expression.PrefixExpression _ Operator Right =>
    writeString [Monkey.str "(", Operator, Right.String, Monkey.str ")"]
  | Expression.InfixExpression _ Left Operator Right =>
    writeString [Monkey.str "(", Left.String, Monkey.str " ", Operator, Monkey.str " ",
      Right.String, Monkey.str ")"]

/-- The method `TokenLiteral` of the expression nodes: the literal of the embedded token.
On the nil value the call panics in Go; that is the result `none`. -/
def Expression.TokenLiteral : Expression → Option (List Nat)
  | Expression.nil => none
  | Expression.Identifier Token _ => some Token.Literal
  | Expression.IntegerLiteral Token _ => some Token.Literal
  | Expression.PrefixExpression Token _ _ => some Token.Literal
  | Expression.InfixExpression Token _ _ _ => some Token.Literal

/-- The values of the interface type `Statement`: nil, or a pointer to one of the three
statement structs, with the fields of the struct. -/
inductive Statement where
  | nil
  | LetStatement (Token : Token) (Name : Option Identifier) (Value : Expression)
  | ReturnStatement (Token : Token) (ReturnValue : Expression)
  | ExpressionStatement (Token : Token) (Expression : Expression)
deriving DecidableEq, Repr

/-- The methods `String` of the three statement nodes (and `<nil>`, the text of `%v`, for the
nil value). -/
def Statement.String : Statement → List Nat
  | Statement.nil => Monkey.str "<nil>"
  | Statement.LetStatement Token Name Value =>
    if Value ≠ Expression.nil then
      writeString [Token.Literal, Monkey.str " ", Identifier.format Name, Monkey.str " = ",
        Value.String, Monkey.str ";"]
    else
      writeString [Token.Literal, Monkey.str " = ", Monkey.str ";"]
  | Statement.ReturnStatement Token ReturnValue =>
    if ReturnValue ≠ Expression.nil then
      writeString [Token.Literal, Monkey.str " ", ReturnValue.String, Monkey.str ";"]
    else
      writeString [Token.Literal, Monkey.str ";"]
  | Statement.ExpressionStatement _ Expression =>
    if Expression ≠ ast.Expression.nil then Expression.String else []

/-- The method `TokenLiteral` of the statement nodes.  On the nil value the call panics in
Go; that is the result `none`. -/
def Statement.TokenLiteral : Statement → Option (List Nat)
  | Statement.nil => none
  | Statement.LetStatement Token _ _ => some Token.Literal
  | Statement.ReturnStatement Token _ => some Token.Literal
  | Statement.ExpressionStatement Token _ => some Token.Literal

/-- The struct `Program`. -/
structure Program where
  Statements : List Statement
deriving DecidableEq, Repr

/-- The method `Program.TokenLiteral`: the token literal of the first statement (`none`
where that call panics), and the empty string for a program without statements. -/
def Program.TokenLiteral (p : Program) : Option (List Nat) :=
  match p.Statements with
  | s :: _ => s.TokenLiteral
  | [] => some []

/-- The method `Program.String`. -/
def Program.String (p : Program) : List Nat :=
  writeString (p.Statements.map Statement.String)

/-- The operators of the infix expressions the parser builds. -/
def binaryOperators : List (List Nat) :=
  [Monkey.str "==", Monkey.str "!=", Monkey.str "<", Monkey.str ">", Monkey.str "+",
   Monkey.str "-", Monkey.str "*", Monkey.str "/"]

/-- The expression trees of C20: an identifier is a non-empty run of letters and underscores,
an integer literal has a non-empty run of digits as token literal, a prefix operator is `!`
or `-`, an infix operator is one of `== != < > + - * /`, and no operand is nil. -/
def Expression.WellFormed : Expression → Prop
  | Expression.nil => False
  | Expression.Identifier _ Value =>
    Value ≠ [] ∧ ∀ x ∈ Value, lexer.isAlpha (x : Int) = true
  | Expression.IntegerLiteral Token _ =>
    Token.Literal ≠ [] ∧ ∀ x ∈ Token.Literal, lexer.isNumber (x : Int) = true
  | Expression.PrefixExpression _ Operator Right =>
    (Operator = Monkey.str "!" ∨ Operator = Monkey.str "-") ∧ Right.WellFormed
  | Expression.InfixExpression _ Left Operator Right =>
    Operator ∈ binaryOperators ∧ Left.WellFormed ∧ Right.WellFormed

/-- Two expression trees have the same shape, the same operators and the same leaf texts
(the tokens kept in the nodes and the numeric values are not compared). -/
def Expression.SameShape : Expression → Expression → Prop
  | Expression.nil, Expression.nil => True
  | Expression.Identifier _ v1, Expression.Identifier _ v2 => v1 = v2
  | Expression.IntegerLiteral t1 _, Expression.IntegerLiteral t2 _ => t1.Literal = t2.Literal
  | Expression.PrefixExpression _ o1 r1, Expression.PrefixExpression _ o2 r2 =>
    o1 = o2 ∧ r1.SameShape r2
  | Expression.InfixExpression _ l1 o1 r1, Expression.InfixExpression _ l2 o2 r2 =>
    l1.SameShape l2 ∧ o1 = o2 ∧ r1.SameShape r2
  | _, _ => False

end ast

/-! ## Package parser

The file `parser.go` is not part of the sources at hand; `parser_test.go` shows how it is
used.  The definitions of this section follow §4.2 of the specification. -/

namespace token

/-- Modelled from the spec: the constant `token.ASSIGN` (§6); the kind of an operator or
delimiter token is its text, as the conversion in `lex` shows. -/
def ASSIGN : TokenType := str "="
/-- Modelled from the spec: the constant `token.PLUS` (§6). -/
def PLUS : TokenType := str "+"
/-- Modelled from the spec: the constant `token.MINUS` (§6). -/
def MINUS : TokenType := str "-"
/-- Modelled from the spec: the constant `token.BANG` (§6). -/
def BANG : TokenType := str "!"
/-- Modelled from the spec: the constant `token.ASTERISK` (§6). -/
def ASTERISK : TokenType := str "*"
/-- Modelled from the spec: the constant `token.SLASH` (§6). -/
def SLASH : TokenType := str "/"
/-- Modelled from the spec: the constant `token.LT` (§6). -/
def LT : TokenType := str "<"
/-- Modelled from the spec: the constant `token.GT` (§6). -/
def GT : TokenType := str ">"
/-- Modelled from the spec: the constant `token.EQ` (§6). -/
def EQ : TokenType := str "=="
/-- Modelled from the spec: the constant `token.NOT_EQ` (§6). -/
def NOT_EQ : TokenType := str "!="
/-- Modelled from the spec: the constant `token.SEMICOLON` (§6). -/
def SEMICOLON : TokenType := str ";"
/-- Modelled from the spec: the constant `token.LET` (§6), the kind of the keyword `let`. -/
def LET : TokenType := str "LET"
/-- Modelled from the spec: the constant `token.RETURN` (§6), the kind of the keyword
`return`. -/
def RETURN : TokenType := str "RETURN"
/-- Modelled from the spec: the constant `token.TRUE` (§6), the kind of the keyword `true`. -/
def TRUE : TokenType := str "TRUE"
/-- Modelled from the spec: the constant `token.FALSE` (§6), the kind of the keyword
`false`. -/
def FALSE : TokenType := str "FALSE"
/-- Modelled from the spec: the constant `token.LPAREN` (§6). -/
def LPAREN : TokenType := str "("
/-- Modelled from the spec: the constant `token.RPAREN` (§6). -/
def RPAREN : TokenType := str ")"

end token

namespace parser

open token ast lexer

/-- Modelled from the spec: the precedence level `LOWEST` of `parser.go` (§4.2,
"Precedence table (lowest to highest)"). -/
def LOWEST : Nat := 1
/-- Modelled from the spec: the precedence level `EQUALS` of `parser.go` (§4.2). -/
def EQUALS : Nat := 2
/-- Modelled from the spec: the precedence level `LESSGREATER` of `parser.go` (§4.2). -/
def LESSGREATER : Nat := 3
/-- Modelled from the spec: the precedence level `SUM` of `parser.go` (§4.2). -/
def SUM : Nat := 4
/-- Modelled from the spec: the precedence level `PRODUCT` of `parser.go` (§4.2). -/
def PRODUCT : Nat := 5
/-- Modelled from the spec: the precedence level `PREFIX` of `parser.go` (§4.2). -/
def PREFIX : Nat := 6
/-- Modelled from the spec: the precedence level `CALL` of `parser.go` (§4.2). -/
def CALL : Nat := 7

/-- Modelled from the spec: the precedence table of `parser.go` (§4.2): the binding power
of the kinds that continue an expression as a binary operator. -/
def precedences : List (TokenType × Nat) :=
  [(EQ, EQUALS), (NOT_EQ, EQUALS), (LT, LESSGREATER), (GT, LESSGREATER), (PLUS, SUM),
   (MINUS, SUM), (SLASH, PRODUCT), (ASTERISK, PRODUCT)]

/-- Modelled from the spec: the binding power of a token kind in `parser.go` (§4.2): its
entry in the precedence table, and `LOWEST` for a kind without one. -/
def precedence (k : TokenType) : Nat :=
  match precedences.lookup k with
  | some p => p
  | none => LOWEST

/-- Modelled from the spec: the entries of the error list of the parser of `parser.go`
(§3, §4.2 "Error policy"), one constructor per structural mismatch: expected token but
got a different one, missing prefix parse function, literal conversion failure.  The
specification gives the text of the second only (`no prefix parse function for <kind>`),
so an entry is kept as the data its message is formatted from. -/
inductive ParseError where
  | unexpectedToken (expected got : TokenType)
  | noPrefixParseFn (kind : TokenType)
  | badInteger (literal : List Nat)
deriving DecidableEq, Repr

/-- Modelled from the spec: the state of the parser of `parser.go` (§4.2 "State machine"):
the two lookahead tokens and the error list.  In place of the lexer it holds `l`, the
tokens that the lexer has still to return before its first EOF token; once they are used
up the lexer returns EOF for ever. -/
structure Parser where
  l : List Token
  curToken : Token
  peekToken : Token
  errors : List ParseError
deriving DecidableEq, Repr

/-- Modelled from the spec: the step of `parser.go` that advances the two lookahead tokens
in lockstep (§4.2): peek becomes current and one more token is pulled from the lexer. -/
def Parser.nextToken (p : Parser) : Parser :=
  match p.l with
  | t :: ts => { p with curToken := p.peekToken, peekToken := t, l := ts }
  | [] => { p with curToken := p.peekToken, peekToken := { Kind := EOF, Literal := [] } }

/-- Modelled from the spec: the constructor `New` of `parser.go`, which `parser_test.go`
calls on a lexer: no errors yet, and both lookahead tokens read. -/
def New (l : List Token) : Parser :=
  (Parser.nextToken (Parser.nextToken
    { l := l, curToken := { Kind := [], Literal := [] },
      peekToken := { Kind := [], Literal := [] }, errors := [] }))

/-- Modelled from the spec: the method `Errors` of `parser.go` (§4.2 "Public contract"). -/
def Parser.Errors (p : Parser) : List ParseError := p.errors

/-- Modelled from the spec: appending one entry to the error list of the parser of
`parser.go` (§3). -/
def Parser.addError (p : Parser) (e : ParseError) : Parser :=
  { p with errors := p.errors ++ [e] }

/-- Modelled from the spec: "expect peek kind X" of `parser.go` (§4.2 "State machine"): it
either advances, or records an error and does not advance. -/
def Parser.expectPeek (p : Parser) (k : TokenType) : Bool × Parser :=
  if p.peekToken.Kind = k then (true, p.nextToken)
  else (false, p.addError (.unexpectedToken k p.peekToken.Kind))

/-- Modelled from the spec: the conversion of the text of an integer literal to a 64-bit
signed integer in `parser.go` (§4.2): the value of a non-empty run of decimal digits, if
it is at most `2^63 - 1`. -/
def parseInt64 (s : List Nat) : Option Int :=
  if s ≠ [] ∧ s.all (fun d => decide (0x30 ≤ d ∧ d ≤ 0x39)) then
    let v : Nat := s.foldl (fun acc d => acc * 10 + (d - 0x30)) 0
    if v < 2 ^ 63 then some (v : Int) else none
  else none

mutual

/-- Modelled from the spec: `parseExpression(minPrecedence)` of `parser.go` (§4.2), step 1:
the prefix parse function of the current token kind is invoked; without one an error is
recorded and the expression fails, which is the result `nil`.  The kinds with a prefix
parse function are those that the specification and the tests show to begin an
expression: identifiers and integer literals (§4.2), `!` and unary `-` (§4.2), `true` and
`false` (§8: `return true;` parses to one `ReturnStatement`; `TestLetStatements` and
`TestReturnStatements` require no errors for `let y = true;` and `return true;`), and `(`
(§8: the rendering of an expression, which is fully parenthesized, is parsed again).
`ast.go` declares no node for a boolean literal: the node that the prefix parse function
of `true` and `false` returns for a token is the parameter `boolean`.  For the other kinds
(`if`, `fn`, the braces, ILLEGAL tokens, ...) `ast.go` declares no node that a prefix
parse function could return, and §7 has an ILLEGAL token recorded as a parse error. -/
def Parser.parseExpression (boolean : Token → Expression) :
    Nat → Nat → Parser → Except Fault (Expression × Parser)
  | 0, _, _ => .error .outOfFuel
  | fuel + 1, minPrecedence, p =>
    if p.curToken.Kind = IDENT then
      Parser.parseExpressionLoop boolean fuel minPrecedence
        (Expression.Identifier p.curToken p.curToken.Literal) p
    else if p.curToken.Kind = INT then
      match parseInt64 p.curToken.Literal with
      | some v =>
        Parser.parseExpressionLoop boolean fuel minPrecedence
          (Expression.IntegerLiteral p.curToken v) p
      | none => .ok (Expression.nil, p.addError (.badInteger p.curToken.Literal))
    else if p.curToken.Kind = TRUE ∨ p.curToken.Kind = FALSE then
      Parser.parseExpressionLoop boolean fuel minPrecedence (boolean p.curToken) p
    else if p.curToken.Kind = BANG ∨ p.curToken.Kind = MINUS then
      match Parser.parsePrefixExpression boolean fuel p with
      | .error e => .error e
      | .ok (left, p) =>
        if left = Expression.nil then .ok (Expression.nil, p)
        else Parser.parseExpressionLoop boolean fuel minPrecedence left p
    else if p.curToken.Kind = LPAREN then
      match Parser.parseGroupedExpression boolean fuel p with
      | .error e => .error e
      | .ok (left, p) =>
        if left = Expression.nil then .ok (Expression.nil, p)
        else Parser.parseExpressionLoop boolean fuel minPrecedence left p
    else .ok (Expression.nil, p.addError (.noPrefixParseFn p.curToken.Kind))

/-- Modelled from the spec: `parseExpression(minPrecedence)` of `parser.go` (§4.2), steps 2
and 3: while the binding power of the next token is strictly greater than
`minPrecedence`, advance to it and invoke its infix parse function on the expression
built so far. -/
def Parser.parseExpressionLoop (boolean : Token → Expression) :
    Nat → Nat → Expression → Parser → Except Fault (Expression × Parser)
  | 0, _, _, _ => .error .outOfFuel
  | fuel + 1, minPrecedence, left, p =>
    if minPrecedence < precedence p.peekToken.Kind then
      match Parser.parseInfixExpression boolean fuel left p.nextToken with
      | .error e => .error e
      | .ok (left, p) =>
        if left = Expression.nil then .ok (Expression.nil, p)
        else Parser.parseExpressionLoop boolean fuel minPrecedence left p
    else .ok (left, p)

/-- Modelled from the spec: the prefix parse function of `!` and unary `-` in `parser.go`
(§4.2): the operand is `parseExpression(PREFIX)`, wrapped in a `PrefixExpression`. -/
def Parser.parsePrefixExpression (boolean : Token → Expression) :
    Nat → Parser → Except Fault (Expression × Parser)
  | 0, _ => .error .outOfFuel
  | fuel + 1, p =>
    match Parser.parseExpression boolean fuel PREFIX p.nextToken with
    | .error e => .error e
    | .ok (right, p1) =>
      if right = Expression.nil then .ok (Expression.nil, p1)
      else .ok (Expression.PrefixExpression p.curToken p.curToken.Literal right, p1)

/-- Modelled from the spec: the prefix parse function of `(` in `parser.go`, which §8
requires (a rendered expression is parsed again to the expression it renders): the
expression behind the `(` is `parseExpression(LOWEST)`, a `)` is expected after it, and
the expression itself is the result, no node stands for the parentheses. -/
def Parser.parseGroupedExpression (boolean : Token → Expression) :
    Nat → Parser → Except Fault (Expression × Parser)
  | 0, _ => .error .outOfFuel
  | fuel + 1, p =>
    match Parser.parseExpression boolean fuel LOWEST p.nextToken with
    | .error e => .error e
    | .ok (exp, p1) =>
      if exp = Expression.nil then .ok (Expression.nil, p1)
      else
        match p1.expectPeek RPAREN with
        | (false, p2) => .ok (Expression.nil, p2)
        | (true, p2) => .ok (exp, p2)

/-- Modelled from the spec: the infix parse function of a binary operator in `parser.go`
(§4.2): it takes the left-hand expression, consumes the operator and parses the right-hand
side with `minPrecedence` equal to the precedence of the operator. -/
def Parser.parseInfixExpression (boolean : Token → Expression) :
    Nat → Expression → Parser → Except Fault (Expression × Parser)
  | 0, _, _ => .error .outOfFuel
  | fuel + 1, left, p =>
    match Parser.parseExpression boolean fuel (precedence p.curToken.Kind) p.nextToken with
    | .error e => .error e
    | .ok (right, p1) =>
      if right = Expression.nil then .ok (Expression.nil, p1)
      else .ok (Expression.InfixExpression p.curToken left p.curToken.Literal right, p1)

end

/-- Modelled from the spec: the recursion of the expression parser of `parser.go` has no
bound of its own; in the model it may nest four calls for each token still to come and
four more for each of the two lookahead tokens. -/
def Parser.fuel (p : Parser) : Nat := 4 * (p.l.length + 2)

/-- Modelled from the spec: the optional trailing `;` of a statement in `parser.go`
(§4.2), consumed if present. -/
def Parser.skipSemicolon (p : Parser) : Parser :=
  if p.peekToken.Kind = SEMICOLON then p.nextToken else p

/-- Modelled from the spec: the skip of `parser.go` to the next statement boundary (§4.2),
one token per unit of fuel: tokens are passed over until the current one is `;` or EOF. -/
def Parser.skipLoop : Nat → Parser → Parser
  | 0, p => p
  | n + 1, p =>
    if p.curToken.Kind = SEMICOLON ∨ p.curToken.Kind = EOF then p
    else Parser.skipLoop n p.nextToken

/-- Modelled from the spec: abandoning the rest of a statement in `parser.go` (§4.2). -/
def Parser.skipStatement (p : Parser) : Parser := Parser.skipLoop (p.l.length + 2) p

/-- Modelled from the spec: the `let` statement of `parser.go` (§4.2):
`let` IDENT `=` expression, then an optional `;`.  If the identifier or the `=` is
missing an error is recorded, the rest of the statement is skipped and there is no node;
a statement whose expression fails cannot be completed and is dropped as well (§4.2
"Error policy"). -/
def Parser.parseLetStatement (boolean : Token → Expression) (p : Parser) :
    Except Fault (Option Statement × Parser) :=
  let tok := p.curToken
  match p.expectPeek IDENT with
  | (false, p) => .ok (none, p.skipStatement)
  | (true, p) =>
    let name : Identifier := { Token := p.curToken, Value := p.curToken.Literal }
    match p.expectPeek ASSIGN with
    | (false, p) => .ok (none, p.skipStatement)
    | (true, p) =>
      match Parser.parseExpression boolean p.nextToken.fuel LOWEST p.nextToken with
      | .error e => .error e
      | .ok (value, p) =>
        if value = Expression.nil then .ok (none, p)
        else .ok (some (Statement.LetStatement tok (some name) value), p.skipSemicolon)

/-- Modelled from the spec: the `return` statement of `parser.go` (§4.2):
`return` expression, then an optional `;`. -/
def Parser.parseReturnStatement (boolean : Token → Expression) (p : Parser) :
    Except Fault (Option Statement × Parser) :=
  let tok := p.curToken
  match Parser.parseExpression boolean p.nextToken.fuel LOWEST p.nextToken with
  | .error e => .error e
  | .ok (value, p) =>
    if value = Expression.nil then .ok (none, p)
    else .ok (some (Statement.ReturnStatement tok value), p.skipSemicolon)

/-- Modelled from the spec: the expression statement of `parser.go` (§4.2): a full
expression, wrapped in an `ExpressionStatement`, then an optional `;`. -/
def Parser.parseExpressionStatement (boolean : Token → Expression) (p : Parser) :
    Except Fault (Option Statement × Parser) :=
  let tok := p.curToken
  match Parser.parseExpression boolean p.fuel LOWEST p with
  | .error e => .error e
  | .ok (e, p) =>
    if e = Expression.nil then .ok (none, p)
    else .ok (some (Statement.ExpressionStatement tok e), p.skipSemicolon)

/-- Modelled from the spec: the dispatch of `parser.go` on the leading token kind of a
statement (§4.2 "Statement grammar"). -/
def Parser.parseStatement (boolean : Token → Expression) (p : Parser) :
    Except Fault (Option Statement × Parser) :=
  if p.curToken.Kind = LET then p.parseLetStatement boolean
  else if p.curToken.Kind = RETURN then p.parseReturnStatement boolean
  else p.parseExpressionStatement boolean

/-- Modelled from the spec: the top-level loop of `ParseProgram` in `parser.go` (§4.2), one
statement per unit of fuel: until the EOF token is current, parse one statement, append
it to the program if there is one, and advance. -/
def Parser.ParseProgramLoop (boolean : Token → Expression) :
    Nat → Parser → List Statement → Except Fault (List Statement × Parser)
  | 0, _, _ => .error .outOfFuel
  | n + 1, p, statements =>
    if p.curToken.Kind = EOF then .ok (statements, p)
    else
      match p.parseStatement boolean with
      | .error e => .error e
      | .ok (none, p) => Parser.ParseProgramLoop boolean n p.nextToken statements
      | .ok (some stmt, p) =>
        Parser.ParseProgramLoop boolean n p.nextToken (statements ++ [stmt])

/-- Modelled from the spec: the method `ParseProgram` of `parser.go` (§4.2 "Public
contract"): the program and the parser it leaves behind. -/
def Parser.ParseProgram (boolean : Token → Expression) (p : Parser) :
    Except Fault (Program × Parser) :=
  match Parser.ParseProgramLoop boolean (p.l.length + 3) p [] with
  | .error e => .error e
  | .ok (statements, p) => .ok ({ Statements := statements }, p)

/-- Modelled from the spec: the tokens that the lexer made for `input` returns before its
first EOF token, which is what a parser of `parser.go` pulls from it (§2).  The lexer is
called `len(input) + 1` times; an EOF token is among the results, and after it the lexer
returns nothing else (theorem `tokenStream_faithful`). -/
def tokenStream (pr : Int → Bool) (input : List Nat) : Except Fault (List Token) :=
  match (NewGoLex input).NextTokens pr (input.length + 1) with
  | .error e => .error e
  | .ok (ts, _) => .ok (ts.takeWhile (fun t => decide (t.Kind ≠ EOF)))

/-- Modelled from the spec: what the tests of `parser_test.go` do with an input: a lexer
is made for it, a parser of `parser.go` for the lexer, `ParseProgram` is called and then
`Errors`. -/
def parse (pr : Int → Bool) (boolean : Token → Expression) (input : List Nat) :
    Except Fault (Program × List ParseError) :=
  match tokenStream pr input with
  | .error e => .error e
  | .ok l =>
    match (New l).ParseProgram boolean with
    | .error e => .error e
    | .ok (program, p) => .ok (program, p.Errors)

/-- Modelled from the spec: rendering the program parsed from `input` and the error list of
that parse. -/
def render (pr : Int → Bool) (boolean : Token → Expression) (input : List Nat) :
    Except Fault (List Nat × List ParseError) :=
  match parse pr boolean input with
  | .error e => .error e
  | .ok (program, errors) => .ok (program.String, errors)

/-- The texts that the lexer returns as a token of kind IDENT: the non-empty runs of
letters and underscores that are no keyword. -/
def identifierText (s : List Nat) : Prop :=
  s ≠ [] ∧ (∀ x ∈ s, isAlpha (x : Int) = true) ∧ LookupIdent s = IDENT

/-- The texts of the integer literals that fit a 64-bit signed integer: the non-empty
runs of decimal digits with a value of at most `2^63 - 1`. -/
def integerText (s : List Nat) : Prop :=
  s ≠ [] ∧ (∀ x ∈ s, isNumber (x : Int) = true) ∧ (parseInt64 s).isSome = true

/-- `Item rest lit tok`: `lit` is the text of the token `tok`, and the lexer, having read
`lit`, stops before the text `rest`. -/
inductive Item (rest : List Nat) : List Nat → Token → Prop
  | op2 (c : Nat) (hc : c = 33 ∨ c = 61) : Item rest [c, 61] { Kind := [c, 61], Literal := [c, 61] }
  | op1 (c : Nat) (hc : c = 33 ∨ c = 61) (ht : runeAt rest ≠ 61) :
      Item rest [c] { Kind := [c], Literal := [c] }
  | single (c : Nat) (hc : c ∈ str ";(),+-/*<>\x7b\x7d") :
      Item rest [c] { Kind := [c], Literal := [c] }
  | ident (b : Nat) (a : List Nat) (ha : ∀ x ∈ b :: a, isAlpha (x : Int) = true)
      (ht : isAlpha (runeAt rest) = false) :
      Item rest (b :: a) { Kind := LookupIdent (b :: a), Literal := b :: a }
  | int (b : Nat) (d : List Nat) (hd : ∀ x ∈ b :: d, isNumber (x : Int) = true)
      (ht : isNumber (runeAt rest) = false) (hta : isAlpha (runeAt rest) = false) :
      Item rest (b :: d) { Kind := INT, Literal := b :: d }

/-- The source text made of the given items, each a gap of characters, a token text and
its token, followed by the characters `tail`. -/
def sourceText : List (List Int × List Nat × Token) → List Int → List Nat
  | [], tail => runesToString tail
  | (ws, lit, _) :: rest, tail => runesToString ws ++ (lit ++ sourceText rest tail)

/-- The items of a source text are separated well: every gap and the tail are whitespace,
and every token text is the text of its token and ends where the lexer stops. -/
def Spaced : List (List Int × List Nat × Token) → List Int → Prop
  | [], tail => ∀ r ∈ tail, isSpace r = true
  | (ws, lit, tok) :: rest, tail =>
    (∀ r ∈ ws, isSpace r = true) ∧ Item (sourceText rest tail) lit tok ∧ Spaced rest tail

/-- The operators of the prefix expressions the parser builds. -/
def unaryOperators : List (List Nat) := [str "!", str "-"]

/-- `Operand s tok e`: the text `s` is an identifier or an integer literal that fits a
64-bit signed integer, `tok` is the token the lexer returns for it and `e` the node the
parser builds from the token. -/
inductive Operand : List Nat → Token → Expression → Prop
  | ident (a : List Nat) (h : identifierText a) :
      Operand a { Kind := IDENT, Literal := a }
        (Expression.Identifier { Kind := IDENT, Literal := a } a)
  | int (d : List Nat) (n : Int) (h : integerText d) (hn : parseInt64 d = some n) :
      Operand d { Kind := INT, Literal := d }
        (Expression.IntegerLiteral { Kind := INT, Literal := d } n)

/-- The parser at the end of a parse with the error list `errors`: no token is left and
both lookahead tokens are EOF. -/
def finished (errors : List ParseError) : Parser :=
  { l := [], curToken := { Kind := EOF, Literal := [] },
    peekToken := { Kind := EOF, Literal := [] }, errors := errors }

/-- The binary operators in the rows of the precedence laws, the weakest first: `==` and
`!=`, then `<` and `>`, then `+` and `-`, then `*` and `/`. -/
def operatorRows : List (List (List Nat)) :=
  [[str "==", str "!="], [str "<", str ">"], [str "+", str "-"], [str "*", str "/"]]

/-- The number of the row of `operatorRows` in which the operator `o` stands. -/
def operatorRow (o : List Nat) : Nat :=
  operatorRows.findIdx (fun row => decide (o ∈ row))

/-- The parser whose current token is the first of `ts` and whose next token is the
second, with the others still to be pulled; where `ts` ends the tokens are EOF. -/
def stateOf (ts : List Token) (errors : List ParseError) : Parser :=
  { l := ts.tail.tail, curToken := ts.headD { Kind := EOF, Literal := [] },
    peekToken := ts.tail.headD { Kind := EOF, Literal := [] }, errors := errors }

/-- The tokens of the lexer: a token of kind EOF or ILLEGAL, or the token of a lexeme. -/
def tokenOK (t : Token) : Prop :=
  t.Kind = EOF ∨ t.Kind = ILLEGAL ∨ ∃ lit, Lexeme lit t

/-- All tokens of a parser, the two lookahead tokens and those still to be pulled, are
tokens of the lexer. -/
def Parser.tokensOK (p : Parser) : Prop :=
  tokenOK p.curToken ∧ tokenOK p.peekToken ∧ ∀ t ∈ p.l, tokenOK t

/-- `Parsed boolean e ts`: `e` is an expression tree as the parser builds it from the
tokens of the lexer (an operand, the node of `true` or `false`, a prefix expression with
`!` or `-`, an infix expression with one of the eight binary operators, every node with
its token), and `ts` are the tokens of its rendering. -/
inductive Parsed (boolean : Token → Expression) : Expression → List Token → Prop
  | operand (x : List Nat) (tok : Token) (e : Expression) (h : Operand x tok e) :
      Parsed boolean e [tok]
  | bool (t : Token)
      (h : t = { Kind := TRUE, Literal := str "true" }
        ∨ t = { Kind := FALSE, Literal := str "false" }) :
      Parsed boolean (boolean t) [t]
  | unary (u : List Nat) (r : Expression) (ts : List Token) (hu : u ∈ unaryOperators)
      (hr : Parsed boolean r ts) :
      Parsed boolean (Expression.PrefixExpression { Kind := u, Literal := u } u r)
        ({ Kind := LPAREN, Literal := str "(" } :: { Kind := u, Literal := u } :: ts
          ++ [{ Kind := RPAREN, Literal := str ")" }])
  | binary (o : List Nat) (l r : Expression) (tl tr : List Token) (ho : o ∈ binaryOperators)
      (hl : Parsed boolean l tl) (hr : Parsed boolean r tr) :
      Parsed boolean (Expression.InfixExpression { Kind := o, Literal := o } l o r)
        ({ Kind := LPAREN, Literal := str "(" } :: tl ++ { Kind := o, Literal := o } :: tr
          ++ [{ Kind := RPAREN, Literal := str ")" }])

/-- The result `r` of a parse function, if it is a result at all, leaves a parser whose
tokens are tokens of the lexer, and its expression is `nil` (the parse failed) or a tree
as described by `Parsed`. -/
def Sound (boolean : Token → Expression) (r : Except Fault (Expression × Parser)) : Prop :=
  ∀ e p, r = .ok (e, p) →
    p.tokensOK ∧ (e = Expression.nil ∨ ∃ ts, Parsed boolean e ts)

end parser

/-! ## The decoder -/

theorem decode_width_cast (s : List Nat) :
    (utf8.DecodeRuneInString s).2 = (widthAt s : Int) := by
  unfold widthAt
  have : 0 ≤ (utf8.DecodeRuneInString s).2 := by
    unfold utf8.DecodeRuneInString
    split
    · simp
    · repeat' split
      all_goals simp
  omega

theorem widthAt_nil : widthAt [] = 0 := by
  simp [widthAt, utf8.DecodeRuneInString]

theorem widthAt_le (s : List Nat) : widthAt s ≤ s.length := by
  unfold widthAt utf8.DecodeRuneInString
  split
  · simp
  · repeat' split
    all_goals simp

theorem widthAt_pos (s : List Nat) (h : s ≠ []) : 1 ≤ widthAt s := by
  unfold widthAt utf8.DecodeRuneInString
  split
  · exact absurd rfl h
  · repeat' split
    all_goals simp

theorem runeAt_nil : runeAt [] = lexer.eof := rfl

theorem runeAt_cons (b : Nat) (t : List Nat) :
    runeAt (b :: t) = (utf8.DecodeRuneInString (b :: t)).1 := rfl

theorem runeAt_nonneg (s : List Nat) (h : s ≠ []) : 0 ≤ runeAt s := by
  unfold runeAt
  split
  · exact absurd rfl h
  · unfold utf8.DecodeRuneInString
    split
    · simp [utf8.RuneError]
    · repeat' split
      all_goals simp [utf8.RuneError]
      all_goals omega

theorem runeAt_ascii (b : Nat) (t : List Nat) (h : b < 0x80) :
    runeAt (b :: t) = (b : Int) ∧ widthAt (b :: t) = 1 := by
  simp [runeAt, widthAt, utf8.DecodeRuneInString, h]

theorem runeAt_high (b : Nat) (t : List Nat) (h : 0x80 ≤ b) : 0x80 ≤ runeAt (b :: t) := by
  unfold runeAt
  simp only
  unfold utf8.DecodeRuneInString
  simp only
  repeat' split
  all_goals simp [utf8.RuneError]
  all_goals omega

theorem appendRune_cast (i : Nat) :
    utf8.AppendRune (i : Int) =
      if i ≤ 0x7F then [i]
      else if i ≤ 0x7FF then [0xC0 + i / 64, 0x80 + i % 64]
      else if ¬ (i < 0xD800 ∨ (0xDFFF < i ∧ i ≤ 0x10FFFF)) then [0xEF, 0xBF, 0xBD]
      else if i ≤ 0xFFFF then [0xE0 + i / 4096, 0x80 + (i / 64) % 64, 0x80 + i % 64]
      else [0xF0 + i / 262144, 0x80 + (i / 4096) % 64, 0x80 + (i / 64) % 64, 0x80 + i % 64] := by
  unfold utf8.AppendRune utf8.ValidRune
  simp only [Int.toNat_ofNat]
  split_ifs <;> first | rfl | (exfalso; simp at *; omega)

theorem decode2 (s0 s1 : Nat) (t : List Nat) (h0 : 0xC2 ≤ s0 ∧ s0 < 0xE0)
    (h1 : 0x80 ≤ s1 ∧ s1 ≤ 0xBF) :
    utf8.DecodeRuneInString (s0 :: s1 :: t) = ((((s0 % 32) * 64 + s1 % 64 : Nat) : Int), 2) := by
  simp only [utf8.DecodeRuneInString]
  rw [if_neg (by omega), if_neg (by omega), if_pos (by omega), if_pos (by omega)]

theorem decode3 (s0 s1 s2 : Nat) (t : List Nat) (h0 : 0xE0 ≤ s0 ∧ s0 < 0xF0)
    (h1 : (if s0 = 0xE0 then 0xA0 else 0x80) ≤ s1 ∧ s1 ≤ (if s0 = 0xED then 0x9F else 0xBF))
    (h2 : 0x80 ≤ s2 ∧ s2 ≤ 0xBF) :
    utf8.DecodeRuneInString (s0 :: s1 :: s2 :: t)
      = ((((s0 % 16) * 4096 + (s1 % 64) * 64 + s2 % 64 : Nat) : Int), 3) := by
  simp only [utf8.DecodeRuneInString]
  rw [if_neg (by omega), if_neg (by omega), if_neg (by omega), if_pos (by omega),
    if_pos ⟨h1.1, h1.2, h2.1, h2.2⟩]

theorem decode4 (s0 s1 s2 s3 : Nat) (t : List Nat) (h0 : 0xF0 ≤ s0 ∧ s0 < 0xF5)
    (h1 : (if s0 = 0xF0 then 0x90 else 0x80) ≤ s1 ∧ s1 ≤ (if s0 = 0xF4 then 0x8F else 0xBF))
    (h2 : 0x80 ≤ s2 ∧ s2 ≤ 0xBF) (h3 : 0x80 ≤ s3 ∧ s3 ≤ 0xBF) :
    utf8.DecodeRuneInString (s0 :: s1 :: s2 :: s3 :: t)
      = ((((s0 % 8) * 262144 + (s1 % 64) * 4096 + (s2 % 64) * 64 + s3 % 64 : Nat) : Int), 4) := by
  simp only [utf8.DecodeRuneInString]
  rw [if_neg (by omega), if_neg (by omega), if_neg (by omega), if_neg (by omega),
    if_pos (by omega), if_pos ⟨h1.1, h1.2, h2.1, h2.2, h3.1, h3.2⟩]

theorem decode_appendRune (i : Nat) (hv : i < 0xD800 ∨ (0xDFFF < i ∧ i ≤ 0x10FFFF)) (t : List Nat) :
    utf8.DecodeRuneInString (utf8.AppendRune (i : Int) ++ t)
      = ((i : Int), ((utf8.AppendRune (i : Int)).length : Int)) := by
  rw [appendRune_cast]
  by_cases h1 : i ≤ 0x7F
  · rw [if_pos h1]
    simp only [utf8.DecodeRuneInString, List.cons_append, List.nil_append]
    rw [if_pos (by omega)]; rfl
  rw [if_neg h1]
  by_cases h2 : i ≤ 0x7FF
  · rw [if_pos h2, List.cons_append, List.cons_append, List.nil_append,
      decode2 _ _ _ (by omega) (by omega)]
    refine Prod.ext ?_ rfl
    show (((_ : Nat) : Int)) = _
    congr 1; omega
  rw [if_neg h2, if_neg (not_not.mpr hv)]
  by_cases h3 : i ≤ 0xFFFF
  · rw [if_pos h3, List.cons_append, List.cons_append, List.cons_append, List.nil_append,
      decode3 _ _ _ _ (by omega) (by constructor <;> split_ifs <;> omega) (by omega)]
    refine Prod.ext ?_ rfl
    show (((_ : Nat) : Int)) = _
    congr 1; omega
  · rw [if_neg h3, List.cons_append, List.cons_append, List.cons_append, List.cons_append,
      List.nil_append,
      decode4 _ _ _ _ _ (by omega) (by constructor <;> split_ifs <;> omega) (by omega) (by omega)]
    refine Prod.ext ?_ rfl
    show (((_ : Nat) : Int)) = _
    congr 1; omega

theorem appendRune_decode (s : List Nat) (r w : Int) (hd : utf8.DecodeRuneInString s = (r, w))
    (hv : (r, w) ≠ (utf8.RuneError, 1)) (hne : s ≠ []) :
    utf8.AppendRune r ++ s.drop w.toNat = s := by
  rcases s with _ | ⟨s0, t⟩
  · exact absurd rfl hne
  simp only [utf8.DecodeRuneInString] at hd
  by_cases c1 : s0 < 0x80
  · rw [if_pos c1] at hd
    obtain ⟨rfl, rfl⟩ := Prod.mk.inj hd
    rw [appendRune_cast, if_pos (by omega)]; rfl
  rw [if_neg c1] at hd
  by_cases c2 : s0 < 0xC2
  · rw [if_pos c2] at hd; exact absurd hd.symm hv
  rw [if_neg c2] at hd
  by_cases c3 : s0 < 0xE0
  · rw [if_pos c3] at hd
    rcases t with _ | ⟨s1, t1⟩
    · exact absurd hd.symm hv
    replace hd : (if 0x80 ≤ s1 ∧ s1 ≤ 0xBF then ((((s0 % 32) * 64 + s1 % 64 : Nat) : Int), (2 : Int))
        else (utf8.RuneError, 1)) = (r, w) := hd
    by_cases hc : 0x80 ≤ s1 ∧ s1 ≤ 0xBF
    · rw [if_pos hc] at hd
      obtain ⟨rfl, rfl⟩ := Prod.mk.inj hd
      rw [appendRune_cast, if_neg (by omega), if_pos (by omega)]
      simp only [List.cons_append, List.nil_append, List.drop_succ_cons,
        List.drop_zero, Int.reduceToNat]
      congr 1
      · omega
      · congr 1; omega
    · rw [if_neg hc] at hd; exact absurd hd.symm hv
  rw [if_neg c3] at hd
  by_cases c4 : s0 < 0xF0
  · rw [if_pos c4] at hd
    rcases t with _ | ⟨s1, _ | ⟨s2, t2⟩⟩
    · exact absurd hd.symm hv
    · exact absurd hd.symm hv
    replace hd : (if (if s0 = 0xE0 then 0xA0 else 0x80) ≤ s1
          ∧ s1 ≤ (if s0 = 0xED then 0x9F else 0xBF) ∧ 0x80 ≤ s2 ∧ s2 ≤ 0xBF then
        ((((s0 % 16) * 4096 + (s1 % 64) * 64 + s2 % 64 : Nat) : Int), (3 : Int))
        else (utf8.RuneError, 1)) = (r, w) := hd
    by_cases hc : (if s0 = 0xE0 then 0xA0 else 0x80) ≤ s1
          ∧ s1 ≤ (if s0 = 0xED then 0x9F else 0xBF) ∧ 0x80 ≤ s2 ∧ s2 ≤ 0xBF
    · rw [if_pos hc] at hd
      obtain ⟨e1, e2, hc3, hc4⟩ := hc
      obtain ⟨rfl, rfl⟩ := Prod.mk.inj hd
      have f1 : s0 = 0xE0 → 0xA0 ≤ s1 := fun h => by rw [if_pos h] at e1; exact e1
      have f2 : s0 = 0xED → s1 ≤ 0x9F := fun h => by rw [if_pos h] at e2; exact e2
      have f3 : 0x80 ≤ s1 := by split_ifs at e1 <;> omega
      have f4 : s1 ≤ 0xBF := by split_ifs at e2 <;> omega
      clear e1 e2 hv hd
      rw [appendRune_cast, if_neg (by omega), if_neg (by omega), if_neg (by omega),
        if_pos (by omega)]
      simp only [List.cons_append, List.nil_append, List.drop_succ_cons,
        List.drop_zero, Int.reduceToNat]
      congr 1
      · omega
      · congr 1
        · omega
        · congr 1; omega
    · rw [if_neg hc] at hd; exact absurd hd.symm hv
  rw [if_neg c4] at hd
  by_cases c5 : s0 < 0xF5
  · rw [if_pos c5] at hd
    rcases t with _ | ⟨s1, _ | ⟨s2, _ | ⟨s3, t3⟩⟩⟩
    · exact absurd hd.symm hv
    · exact absurd hd.symm hv
    · exact absurd hd.symm hv
    replace hd : (if (if s0 = 0xF0 then 0x90 else 0x80) ≤ s1
          ∧ s1 ≤ (if s0 = 0xF4 then 0x8F else 0xBF) ∧ 0x80 ≤ s2 ∧ s2 ≤ 0xBF
          ∧ 0x80 ≤ s3 ∧ s3 ≤ 0xBF then
        ((((s0 % 8) * 262144 + (s1 % 64) * 4096 + (s2 % 64) * 64 + s3 % 64 : Nat) : Int), (4 : Int))
        else (utf8.RuneError, 1)) = (r, w) := hd
    by_cases hc : (if s0 = 0xF0 then 0x90 else 0x80) ≤ s1
          ∧ s1 ≤ (if s0 = 0xF4 then 0x8F else 0xBF) ∧ 0x80 ≤ s2 ∧ s2 ≤ 0xBF
          ∧ 0x80 ≤ s3 ∧ s3 ≤ 0xBF
    · rw [if_pos hc] at hd
      obtain ⟨e1, e2, hc3, hc4, hc5, hc6⟩ := hc
      obtain ⟨rfl, rfl⟩ := Prod.mk.inj hd
      have f1 : s0 = 0xF0 → 0x90 ≤ s1 := fun h => by rw [if_pos h] at e1; exact e1
      have f2 : s0 = 0xF4 → s1 ≤ 0x8F := fun h => by rw [if_pos h] at e2; exact e2
      have f3 : 0x80 ≤ s1 := by split_ifs at e1 <;> omega
      have f4 : s1 ≤ 0xBF := by split_ifs at e2 <;> omega
      clear e1 e2 hv hd
      rw [appendRune_cast, if_neg (by omega), if_neg (by omega), if_neg (by omega),
        if_neg (by omega)]
      simp only [List.cons_append, List.nil_append, List.drop_succ_cons,
        List.drop_zero, Int.reduceToNat]
      congr 1
      · omega
      · congr 1
        · omega
        · congr 1
          · omega
          · congr 1; omega
    · rw [if_neg hc] at hd; exact absurd hd.symm hv
  rw [if_neg c5] at hd
  exact absurd hd.symm hv


/-! ## The cursor operations on a lexer in cursor form -/

namespace lexer

open token

theorem slice_nat (inp : List Nat) (s p : Nat) (h1 : s ≤ p) (h2 : p ≤ inp.length) :
    slice inp (s : Int) (p : Int) = .ok ((inp.drop s).take (p - s)) := by
  unfold slice
  rw [if_pos (by omega)]
  congr 2
  omega

theorem drop_ne_nil (inp : List Nat) (p : Nat) (h : p < inp.length) : inp.drop p ≠ [] := by
  intro h0
  have := congrArg List.length h0
  simp at this
  omega

theorem drop_add_of_eq (inp a b : List Nat) (p : Nat) (h : inp.drop p = a ++ b) :
    inp.drop (p + a.length) = b := by
  rw [← List.drop_drop, h, List.drop_left]

theorem le_length_of_drop (inp a b : List Nat) (p : Nat) (hp : p ≤ inp.length)
    (h : inp.drop p = a ++ b) : p + a.length ≤ inp.length := by
  have := congrArg List.length h
  simp at this
  omega

theorem take_of_drop (inp a b : List Nat) (p : Nat) (h : inp.drop p = a ++ b) :
    (inp.drop p).take a.length = a := by
  rw [h, List.take_left]

theorem next_cur (st : Option stateFn) (inp : List Nat) (s p w : Nat) (toks : List Token)
    (cb : Bool) (h : p ≤ inp.length) :
    (cur st inp s p w toks cb).next =
      .ok (runeAt (inp.drop p),
        cur st inp s (p + widthAt (inp.drop p)) (widthAt (inp.drop p)) toks true) := by
  unfold goLex.next
  by_cases hp : p = inp.length
  · subst hp
    simp [cur, runeAt, widthAt_nil]
  · have hne : inp.drop p ≠ [] := drop_ne_nil inp p (by omega)
    have hs : slice inp (p : Int) (inp.length : Int) = .ok (inp.drop p) := by
      rw [slice_nat inp p inp.length (by omega) (by omega)]
      congr 1
      apply List.take_of_length_le
      simp
    simp only [cur]
    rw [if_neg (by omega)]
    rw [hs]
    simp only [bind, Except.bind, decode_width_cast]
    have hr : runeAt (inp.drop p) = (utf8.DecodeRuneInString (inp.drop p)).1 := by
      unfold runeAt
      split
      · contradiction
      · rfl
    rw [hr, Nat.cast_add]

theorem backup_cur (st : Option stateFn) (inp : List Nat) (s p w : Nat) (toks : List Token) :
    (cur st inp s (p + w) w toks true).backup = .ok (cur st inp s p w toks false) := by
  simp [goLex.backup, cur]

theorem peek_cur (st : Option stateFn) (inp : List Nat) (s p w : Nat) (toks : List Token)
    (cb : Bool) (h : p ≤ inp.length) :
    (cur st inp s p w toks cb).peek =
      .ok (runeAt (inp.drop p), cur st inp s p (widthAt (inp.drop p)) toks false) := by
  unfold goLex.peek
  rw [next_cur _ _ _ _ _ _ _ h]
  simp only [bind, Except.bind, backup_cur]
  rfl

theorem indexRune_nonneg (v : List Nat) (r : Int) :
    strings.IndexRune v r ≥ 0 ↔ (0 ≤ r ∧ r < 0x80 ∧ r.toNat ∈ v) := by
  unfold strings.IndexRune
  split
  · rename_i h
    simp only [h, and_self, iff_true]
    omega
  · rename_i h
    simp only [h, iff_false]
    omega

theorem accept_cur_true (st : Option stateFn) (inp : List Nat) (s p w : Nat) (toks : List Token)
    (cb : Bool) (valid : List Nat) (h : p ≤ inp.length)
    (hv : strings.IndexRune valid (runeAt (inp.drop p)) ≥ 0) :
    (cur st inp s p w toks cb).accept valid =
      .ok (true, cur st inp s (p + widthAt (inp.drop p)) (widthAt (inp.drop p)) toks true) := by
  unfold goLex.accept
  rw [next_cur _ _ _ _ _ _ _ h]
  simp only [bind, Except.bind]
  rw [if_pos hv]
  rfl

theorem accept_cur_false (st : Option stateFn) (inp : List Nat) (s p w : Nat) (toks : List Token)
    (cb : Bool) (valid : List Nat) (h : p ≤ inp.length)
    (hv : ¬ strings.IndexRune valid (runeAt (inp.drop p)) ≥ 0) :
    (cur st inp s p w toks cb).accept valid =
      .ok (false, cur st inp s p (widthAt (inp.drop p)) toks false) := by
  unfold goLex.accept
  rw [next_cur _ _ _ _ _ _ _ h]
  simp only [bind, Except.bind]
  rw [if_neg hv]
  simp only [bind, Except.bind, backup_cur]
  rfl

theorem emit_cur (st : Option stateFn) (inp : List Nat) (s p w : Nat) (cb : Bool)
    (k : TokenType) (h1 : s ≤ p) (h2 : p ≤ inp.length) :
    (cur st inp s p w [] cb).emit k =
      .ok (cur st inp p p w [{ Kind := k, Literal := (inp.drop s).take (p - s) }] cb) := by
  unfold goLex.emit
  simp only [cur]
  rw [slice_nat inp s p h1 h2]
  simp [bind, Except.bind, goLex.send, pure, Except.pure]

theorem errorf_cur (st : Option stateFn) (inp : List Nat) (s p w : Nat) (cb : Bool)
    (msg : List Nat) :
    (cur st inp s p w [] cb).errorf msg =
      .ok (none, cur st inp s p w [{ Kind := ILLEGAL, Literal := msg }] cb) := by
  simp [goLex.errorf, cur, bind, Except.bind, goLex.send, pure, Except.pure]

end lexer

/-! ## The scanning loops -/

namespace lexer

open token

theorem isSpace_nat (r : Int) (h : isSpace r = true) :
    ∃ i : Nat, r = (i : Int) ∧ i < 0xD800 := by
  unfold isSpace unicode.IsSpace at h
  refine ⟨r.toNat, ?_, ?_⟩
  · split at h
    · omega
    · simp only [decide_eq_true_eq] at h
      omega
  · split at h
    · omega
    · simp only [decide_eq_true_eq] at h
      omega

theorem appendRune_length_pos (r : Int) : 1 ≤ (utf8.AppendRune r).length := by
  unfold utf8.AppendRune
  simp only
  split_ifs <;> simp

theorem runeAt_appendRune (r : Int) (t : List Nat) (h : isSpace r = true) :
    runeAt (utf8.AppendRune r ++ t) = r ∧
      widthAt (utf8.AppendRune r ++ t) = (utf8.AppendRune r).length := by
  obtain ⟨i, rfl, hi⟩ := isSpace_nat r h
  have hd := decode_appendRune i (Or.inl hi) t
  have hne : utf8.AppendRune (i : Int) ++ t ≠ [] := by
    intro h0
    have h1 := congrArg List.length h0
    rw [List.length_append, List.length_nil] at h1
    have h2 := appendRune_length_pos (i : Int)
    omega
  constructor
  · unfold runeAt
    split
    · contradiction
    · rw [hd]
  · unfold widthAt
    rw [hd]
    simp

theorem runesToString_length (ws : List Int) : ws.length ≤ (runesToString ws).length := by
  induction ws with
  | nil => simp [runesToString]
  | cons r ws ih =>
    have := appendRune_length_pos r
    simp [runesToString]
    omega

theorem ignoreWhitespaceLoop_cur (st : Option stateFn) (inp : List Nat) (toks : List Token)
    (R : List Nat) (hR : isSpace (runeAt R) = false) (ws : List Int)
    (hws : ∀ r ∈ ws, isSpace r = true) :
    ∀ (p w n : Nat) (cb : Bool), p ≤ inp.length → inp.drop p = runesToString ws ++ R →
      ws.length + 1 ≤ n →
      goLex.ignoreWhitespaceLoop n (cur st inp p p w toks cb) =
        .ok (cur st inp (p + (runesToString ws).length) (p + (runesToString ws).length)
          (widthAt R) toks false) := by
  induction ws with
  | nil =>
    intro p w n cb hp hd hn
    obtain ⟨m, rfl⟩ : ∃ m, n = m + 1 := ⟨n - 1, by omega⟩
    simp only [runesToString, List.nil_append] at hd
    simp only [goLex.ignoreWhitespaceLoop, next_cur _ _ _ _ _ _ _ hp, bind, Except.bind, hd, hR,
      runesToString, List.length_nil, Nat.add_zero, backup_cur]
    simp
  | cons r ws ih =>
    intro p w n cb hp hd hn
    obtain ⟨m, rfl⟩ : ∃ m, n = m + 1 := ⟨n - 1, by omega⟩
    have hr : isSpace r = true := hws r (List.mem_cons_self _ _)
    simp only [runesToString, List.append_assoc] at hd
    obtain ⟨h1, h2⟩ := runeAt_appendRune r (runesToString ws ++ R) hr
    have hd2 := drop_add_of_eq inp _ _ p hd
    have hp2 := le_length_of_drop inp _ _ p hp hd
    simp only [goLex.ignoreWhitespaceLoop, next_cur _ _ _ _ _ _ _ hp, bind, Except.bind, hd, h1,
      h2, hr, if_true]
    have e : (cur st inp p (p + (utf8.AppendRune r).length) (utf8.AppendRune r).length toks
        true).ignore = cur st inp (p + (utf8.AppendRune r).length)
          (p + (utf8.AppendRune r).length) (utf8.AppendRune r).length toks true := rfl
    rw [e, ih (fun x hx => hws x (List.mem_cons_of_mem _ hx)) _ _ m true hp2 hd2
      (by simp at hn; omega)]
    simp only [runesToString, List.length_append, Nat.add_assoc]

theorem ignoreWhitespace_cur (st : Option stateFn) (inp : List Nat) (toks : List Token)
    (R : List Nat) (hR : isSpace (runeAt R) = false) (ws : List Int)
    (hws : ∀ r ∈ ws, isSpace r = true) (p w : Nat) (cb : Bool) (hp : p ≤ inp.length)
    (hd : inp.drop p = runesToString ws ++ R) :
    (cur st inp p p w toks cb).ignoreWhitespace =
      .ok (cur st inp (p + (runesToString ws).length) (p + (runesToString ws).length)
        (widthAt R) toks false) := by
  unfold goLex.ignoreWhitespace
  apply ignoreWhitespaceLoop_cur st inp toks R hR ws hws p w _ cb hp hd
  have h1 := runesToString_length ws
  have h2 := le_length_of_drop inp _ _ p hp hd
  show ws.length + 1 ≤ inp.length + 1
  omega

end lexer

namespace lexer

open token

theorem runeAt_small (s : List Nat) (h0 : 0 ≤ runeAt s) (h1 : runeAt s < 0x80) :
    ∃ b t, s = b :: t ∧ runeAt s = (b : Int) ∧ widthAt s = 1 ∧ b < 0x80 := by
  rcases s with _ | ⟨b, t⟩
  · simp [runeAt, eof] at h0
  · by_cases hb : b < 0x80
    · exact ⟨b, t, rfl, (runeAt_ascii b t hb).1, (runeAt_ascii b t hb).2, hb⟩
    · have := runeAt_high b t (by omega)
      omega

theorem isAlpha_small (r : Int) (h : isAlpha r = true) : 0 ≤ r ∧ r < 0x80 := by
  unfold isAlpha at h
  simp only [decide_eq_true_eq] at h
  omega

theorem isNumber_small (r : Int) (h : isNumber r = true) : 0 ≤ r ∧ r < 0x80 := by
  unfold isNumber at h
  simp only [decide_eq_true_eq] at h
  omega

theorem indexRune_digits (r : Int) :
    strings.IndexRune (str "0123456789") r ≥ 0 ↔ isNumber r = true := by
  rw [indexRune_nonneg]
  unfold isNumber
  simp only [decide_eq_true_eq]
  have e : str "0123456789" = [48, 49, 50, 51, 52, 53, 54, 55, 56, 57] := by decide
  rw [e]
  simp only [List.mem_cons, List.mem_singleton, List.not_mem_nil, or_false]
  omega

theorem acceptRunLoop_digits (st : Option stateFn) (inp : List Nat) (toks : List Token)
    (s : Nat) (t : List Nat) (ht : isNumber (runeAt t) = false) (d : List Nat)
    (hd : ∀ b ∈ d, isNumber (b : Int) = true) :
    ∀ (p w n : Nat) (cb : Bool), p ≤ inp.length → inp.drop p = d ++ t → d.length + 1 ≤ n →
      goLex.acceptRunLoop (str "0123456789") n (cur st inp s p w toks cb) =
        .ok (cur st inp s (p + d.length) (widthAt t) toks false) := by
  induction d with
  | nil =>
    intro p w n cb hp hdr hn
    obtain ⟨m, rfl⟩ : ∃ m, n = m + 1 := ⟨n - 1, by omega⟩
    simp only [List.nil_append] at hdr
    have hv : ¬ strings.IndexRune (str "0123456789") (runeAt t) ≥ 0 := by
      rw [indexRune_digits, ht]; simp
    simp only [goLex.acceptRunLoop, next_cur _ _ _ _ _ _ _ hp, bind, Except.bind, hdr]
    rw [if_neg hv, backup_cur]
    rfl
  | cons b d ih =>
    intro p w n cb hp hdr hn
    obtain ⟨m, rfl⟩ : ∃ m, n = m + 1 := ⟨n - 1, by omega⟩
    have hb : isNumber (b : Int) = true := hd b (List.mem_cons_self _ _)
    have hb2 := isNumber_small _ hb
    have hdr' : inp.drop p = [b] ++ (d ++ t) := by simpa using hdr
    obtain ⟨h1, h2⟩ := runeAt_ascii b (d ++ t) (by omega)
    have hd2 : inp.drop (p + 1) = _ := drop_add_of_eq inp _ _ p hdr'
    have hp2 : p + 1 ≤ inp.length := le_length_of_drop inp _ _ p hp hdr'
    have hv : strings.IndexRune (str "0123456789") (b : Int) ≥ 0 := by
      rw [indexRune_digits]; exact hb
    rw [List.cons_append] at hdr
    simp only [goLex.acceptRunLoop, next_cur _ _ _ _ _ _ _ hp, bind, Except.bind, hdr, h1, h2]
    rw [if_pos hv]
    rw [ih (fun x hx => hd x (List.mem_cons_of_mem _ hx)) _ _ m true hp2 hd2
      (by simp at hn; omega)]
    simp only [List.length_cons]
    rw [show p + 1 + d.length = p + (d.length + 1) by omega]

theorem lexIdentifierLoop_cur (st : Option stateFn) (inp : List Nat)
    (s : Nat) (t : List Nat) (ht : isAlpha (runeAt t) = false) (a : List Nat)
    (ha : ∀ b ∈ a, isAlpha (b : Int) = true) :
    ∀ (p w n : Nat) (cb : Bool), s ≤ p → p ≤ inp.length → inp.drop p = a ++ t →
      a.length + 1 ≤ n →
      lexIdentifierLoop n (cur st inp s p w [] cb) =
        .ok (cur st inp (p + a.length) (p + a.length) (widthAt t)
          [{ Kind := LookupIdent ((inp.drop s).take (p + a.length - s)),
             Literal := (inp.drop s).take (p + a.length - s) }] false) := by
  induction a with
  | nil =>
    intro p w n cb hs hp hdr hn
    obtain ⟨m, rfl⟩ : ∃ m, n = m + 1 := ⟨n - 1, by omega⟩
    simp only [List.nil_append] at hdr
    simp only [lexIdentifierLoop, next_cur _ _ _ _ _ _ _ hp, bind, Except.bind, hdr, ht,
      backup_cur]
    simp only [Bool.false_eq_true, not_false_eq_true, if_true, cur]
    rw [slice_nat inp s p hs hp]
    simp only [List.length_nil, Nat.add_zero]
    exact emit_cur st inp s p (widthAt t) false _ hs hp
  | cons b a ih =>
    intro p w n cb hs hp hdr hn
    obtain ⟨m, rfl⟩ : ∃ m, n = m + 1 := ⟨n - 1, by omega⟩
    have hb : isAlpha (b : Int) = true := ha b (List.mem_cons_self _ _)
    have hb2 := isAlpha_small _ hb
    have hdr' : inp.drop p = [b] ++ (a ++ t) := by simpa using hdr
    obtain ⟨h1, h2⟩ := runeAt_ascii b (a ++ t) (by omega)
    have hd2 : inp.drop (p + 1) = _ := drop_add_of_eq inp _ _ p hdr'
    have hp2 : p + 1 ≤ inp.length := le_length_of_drop inp _ _ p hp hdr'
    rw [List.cons_append] at hdr
    simp only [lexIdentifierLoop, next_cur _ _ _ _ _ _ _ hp, bind, Except.bind, hdr, h1, h2, hb]
    simp only [not_true_eq_false, if_false]
    rw [ih (fun x hx => ha x (List.mem_cons_of_mem _ hx)) _ _ m true
      (by omega) hp2 hd2 (by simp at hn; omega)]
    simp only [List.length_cons]
    rw [show p + 1 + a.length = p + (a.length + 1) by omega]

end lexer

/-! ## The state functions -/

namespace lexer

open token

theorem cur_input (st : Option stateFn) (inp : List Nat) (s p w : Nat) (toks : List Token)
    (cb : Bool) : (cur st inp s p w toks cb).input = inp := rfl

theorem cur_start (st : Option stateFn) (inp : List Nat) (s p w : Nat) (toks : List Token)
    (cb : Bool) : (cur st inp s p w toks cb).start = (s : Int) := rfl

theorem cur_pos (st : Option stateFn) (inp : List Nat) (s p w : Nat) (toks : List Token)
    (cb : Bool) : (cur st inp s p w toks cb).pos = (p : Int) := rfl

theorem not_isSpace_of_small (b : Nat) (t : List Nat) (hb : b < 0x80)
    (h : isSpace (b : Int) = false) : isSpace (runeAt (b :: t)) = false := by
  rw [(runeAt_ascii b t hb).1]; exact h

/-- `lex` on one of the operators `==` and `!=`. -/
theorem lex_op2 (pr : Int → Bool) (st : Option stateFn) (inp : List Nat) (ws : List Int)
    (c : Nat) (t : List Nat) (p w : Nat) (cb : Bool) (hp : p ≤ inp.length)
    (hws : ∀ r ∈ ws, isSpace r = true) (hc : c = 33 ∨ c = 61)
    (hd : inp.drop p = runesToString ws ++ c :: 61 :: t) :
    lex pr (cur st inp p p w [] cb) =
      .ok (some stateFn.lex,
        cur st inp (p + (runesToString ws).length + 2) (p + (runesToString ws).length + 2) 1
          [{ Kind := [c, 61], Literal := [c, 61] }] true) := by
  have hc80 : c < 0x80 := by omega
  obtain ⟨h1, h2⟩ := runeAt_ascii c (61 :: t) hc80
  have hR : isSpace (runeAt (c :: 61 :: t)) = false := by
    rw [h1]; rcases hc with rfl | rfl <;> decide
  have hq := le_length_of_drop inp _ _ p hp hd
  have hdq := drop_add_of_eq inp _ _ p hd
  have hdq1 : inp.drop (p + (runesToString ws).length + 1) = 61 :: t :=
    drop_add_of_eq inp [c] _ _ hdq
  have hq1 : p + (runesToString ws).length + 1 ≤ inp.length :=
    le_length_of_drop inp [c] _ _ hq hdq
  have hq2 : p + (runesToString ws).length + 1 + 1 ≤ inp.length :=
    le_length_of_drop inp [61] t _ hq1 hdq1
  obtain ⟨h3, h4⟩ := runeAt_ascii 61 t (by omega)
  unfold lex
  rw [ignoreWhitespace_cur st inp [] _ hR ws hws p w cb hp hd]
  simp only [bind, Except.bind]
  rw [accept_cur_true _ _ _ _ _ _ _ _ hq (by rw [hdq, h1]; rcases hc with rfl | rfl <;> decide)]
  simp only [hdq, h2, if_true]
  rw [accept_cur_true _ _ _ _ _ _ _ _ hq1 (by rw [hdq1, h3]; decide)]
  simp only [hdq1, h4, if_true, cur_input, cur_start, cur_pos]
  rw [slice_nat inp _ _ (by omega) hq2]
  dsimp only
  rw [emit_cur _ _ _ _ _ _ _ (by omega) hq2]
  have e : (p + (runesToString ws).length + 1 + 1 - (p + (runesToString ws).length)) = 2 := by
    omega
  rw [e, hdq]
  rfl

/-- `lex` on `=` or `!` that no `=` follows. -/
theorem lex_op1 (pr : Int → Bool) (st : Option stateFn) (inp : List Nat) (ws : List Int)
    (c : Nat) (t : List Nat) (p w : Nat) (cb : Bool) (hp : p ≤ inp.length)
    (hws : ∀ r ∈ ws, isSpace r = true) (hc : c = 33 ∨ c = 61) (ht : runeAt t ≠ 61)
    (hd : inp.drop p = runesToString ws ++ c :: t) :
    lex pr (cur st inp p p w [] cb) =
      .ok (some stateFn.lex,
        cur st inp (p + (runesToString ws).length + 1) (p + (runesToString ws).length + 1)
          (widthAt t) [{ Kind := [c], Literal := [c] }] false) := by
  have hc80 : c < 0x80 := by omega
  obtain ⟨h1, h2⟩ := runeAt_ascii c t hc80
  have hR : isSpace (runeAt (c :: t)) = false := by
    rw [h1]; rcases hc with rfl | rfl <;> decide
  have hq := le_length_of_drop inp _ _ p hp hd
  have hdq := drop_add_of_eq inp _ _ p hd
  have hdq1 : inp.drop (p + (runesToString ws).length + 1) = t :=
    drop_add_of_eq inp [c] _ _ hdq
  have hq1 : p + (runesToString ws).length + 1 ≤ inp.length :=
    le_length_of_drop inp [c] _ _ hq hdq
  have hne : ¬ strings.IndexRune (str "=") (runeAt t) ≥ 0 := by
    rw [indexRune_nonneg]
    have e : str "=" = [61] := by decide
    rw [e]
    simp only [List.mem_singleton]
    omega
  unfold lex
  rw [ignoreWhitespace_cur st inp [] _ hR ws hws p w cb hp hd]
  simp only [bind, Except.bind]
  rw [accept_cur_true _ _ _ _ _ _ _ _ hq (by rw [hdq, h1]; rcases hc with rfl | rfl <;> decide)]
  simp only [hdq, h2, if_true]
  rw [accept_cur_false _ _ _ _ _ _ _ _ hq1 (by rw [hdq1]; exact hne)]
  simp only [hdq1, Bool.false_eq_true, if_false, cur_input, cur_start, cur_pos]
  rw [slice_nat inp _ _ (by omega) hq1]
  dsimp only
  rw [emit_cur _ _ _ _ _ _ _ (by omega) hq1]
  have e : (p + (runesToString ws).length + 1 - (p + (runesToString ws).length)) = 1 := by
    omega
  rw [e, hdq]
  rfl

/-- `lex` on one of the single-character tokens `; ( ) , + - / * < > { }`. -/
theorem lex_single (pr : Int → Bool) (st : Option stateFn) (inp : List Nat) (ws : List Int)
    (c : Nat) (t : List Nat) (p w : Nat) (cb : Bool) (hp : p ≤ inp.length)
    (hws : ∀ r ∈ ws, isSpace r = true) (hc : c ∈ str ";(),+-/*<>\x7b\x7d")
    (hd : inp.drop p = runesToString ws ++ c :: t) :
    lex pr (cur st inp p p w [] cb) =
      .ok (some stateFn.lex,
        cur st inp (p + (runesToString ws).length + 1) (p + (runesToString ws).length + 1)
          1 [{ Kind := [c], Literal := [c] }] true) := by
  have hmem : c = 59 ∨ c = 40 ∨ c = 41 ∨ c = 44 ∨ c = 43 ∨ c = 45 ∨ c = 47 ∨ c = 42 ∨ c = 60
      ∨ c = 62 ∨ c = 123 ∨ c = 125 := by
    have e : str ";(),+-/*<>\x7b\x7d" = [59, 40, 41, 44, 43, 45, 47, 42, 60, 62, 123, 125] := by decide
    rw [e] at hc
    simpa using hc
  have hc80 : c < 0x80 := by omega
  obtain ⟨h1, h2⟩ := runeAt_ascii c t hc80
  have hR : isSpace (runeAt (c :: t)) = false := by
    rw [h1]
    rcases hmem with rfl | rfl | rfl | rfl | rfl | rfl | rfl | rfl | rfl | rfl | rfl | rfl <;> decide
  have hq := le_length_of_drop inp _ _ p hp hd
  have hdq := drop_add_of_eq inp _ _ p hd
  have hq1 : p + (runesToString ws).length + 1 ≤ inp.length :=
    le_length_of_drop inp [c] _ _ hq hdq
  have hA : ¬ strings.IndexRune (str "!=") (runeAt (inp.drop (p + (runesToString ws).length)))
      ≥ 0 := by
    rw [hdq, h1, indexRune_nonneg]
    have e : str "!=" = [33, 61] := by decide
    rw [e]
    simp only [Int.toNat_ofNat, List.mem_cons, List.mem_singleton, List.not_mem_nil, or_false]
    omega
  have hB : strings.IndexRune (str ";(),+-/*<>\x7b\x7d")
      (runeAt (inp.drop (p + (runesToString ws).length))) ≥ 0 := by
    rw [hdq, h1, indexRune_nonneg]
    refine ⟨by omega, by omega, ?_⟩
    rw [Int.toNat_ofNat]
    exact hc
  unfold lex
  rw [ignoreWhitespace_cur st inp [] _ hR ws hws p w cb hp hd]
  simp only [bind, Except.bind]
  rw [accept_cur_false _ _ _ _ _ _ _ _ hq hA]
  simp only [Bool.false_eq_true, if_false]
  rw [accept_cur_true _ _ _ _ _ _ _ _ hq hB]
  simp only [hdq, h2, if_true, cur_input, cur_start, cur_pos]
  rw [slice_nat inp _ _ (by omega) hq1]
  dsimp only
  rw [emit_cur _ _ _ _ _ _ _ (by omega) hq1]
  have e : (p + (runesToString ws).length + 1 - (p + (runesToString ws).length)) = 1 := by
    omega
  rw [e, hdq]
  rfl

end lexer

namespace lexer

open token

/-- `lex` where the first character after the whitespace starts no operator or delimiter. -/
theorem lex_other (pr : Int → Bool) (st : Option stateFn) (inp : List Nat) (ws : List Int)
    (R : List Nat) (p w : Nat) (cb : Bool) (hp : p ≤ inp.length)
    (hws : ∀ r ∈ ws, isSpace r = true) (hR : isSpace (runeAt R) = false)
    (hA : ¬ strings.IndexRune (str "!=") (runeAt R) ≥ 0)
    (hB : ¬ strings.IndexRune (str ";(),+-/*<>\x7b\x7d") (runeAt R) ≥ 0)
    (hd : inp.drop p = runesToString ws ++ R) :
    lex pr (cur st inp p p w [] cb) =
      if isAlpha (runeAt R) then
        .ok (some stateFn.lexIdentifier,
          cur st inp (p + (runesToString ws).length) (p + (runesToString ws).length)
            (widthAt R) [] false)
      else if isNumber (runeAt R) then
        .ok (some stateFn.lexNumber,
          cur st inp (p + (runesToString ws).length) (p + (runesToString ws).length)
            (widthAt R) [] false)
      else if runeAt R = eof then
        .ok (none,
          cur st inp (p + (runesToString ws).length) (p + (runesToString ws).length)
            (widthAt R) [] false)
      else
        .ok (none,
          cur st inp (p + (runesToString ws).length)
            (p + (runesToString ws).length + widthAt R) (widthAt R)
            [{ Kind := ILLEGAL,
               Literal := str "Illegal character: " ++ fmt.Sprintf_q_rune pr (runeAt R) }]
            true) := by
  have hq := le_length_of_drop inp _ _ p hp hd
  have hdq := drop_add_of_eq inp _ _ p hd
  unfold lex
  rw [ignoreWhitespace_cur st inp [] _ hR ws hws p w cb hp hd]
  simp only [bind, Except.bind]
  rw [accept_cur_false _ _ _ _ _ _ _ _ hq (by rw [hdq]; exact hA)]
  simp only [Bool.false_eq_true, if_false]
  rw [accept_cur_false _ _ _ _ _ _ _ _ hq (by rw [hdq]; exact hB)]
  simp only [Bool.false_eq_true, if_false, peek_cur _ _ _ _ _ _ _ hq, hdq]
  by_cases h1 : isAlpha (runeAt R) = true
  · simp only [h1, if_true]; rfl
  · simp only [h1, if_false, Bool.false_eq_true]
    by_cases h2 : isNumber (runeAt R) = true
    · simp only [h2, if_true]; rfl
    · simp only [h2, if_false, Bool.false_eq_true]
      by_cases h3 : runeAt R = eof
      · simp only [h3, if_true]; rfl
      · simp only [h3, if_false, next_cur _ _ _ _ _ _ _ hq, hdq, errorf_cur]

/-- `lexIdentifier` on a run of letters and underscores. -/
theorem lexIdentifier_cur (st : Option stateFn) (inp : List Nat) (a t : List Nat)
    (p w : Nat) (cb : Bool) (hp : p ≤ inp.length)
    (ha : ∀ b ∈ a, isAlpha (b : Int) = true) (ht : isAlpha (runeAt t) = false)
    (hd : inp.drop p = a ++ t) :
    lexIdentifier (cur st inp p p w [] cb) =
      .ok (some stateFn.lex,
        cur st inp (p + a.length) (p + a.length) (widthAt t)
          [{ Kind := LookupIdent a, Literal := a }] false) := by
  have hlen := le_length_of_drop inp _ _ p hp hd
  unfold lexIdentifier
  simp only [cur_input]
  rw [lexIdentifierLoop_cur st inp p t ht a ha p w _ cb (le_refl _) hp hd (by omega)]
  simp only [bind, Except.bind, Nat.add_sub_cancel_left, take_of_drop inp a t p hd]
  rfl

/-- `lexNumber` on a run of digits that no letter or underscore follows. -/
theorem lexNumber_int (pr : Int → Bool) (st : Option stateFn) (inp : List Nat) (d t : List Nat)
    (p w : Nat) (cb : Bool) (hp : p ≤ inp.length)
    (hdig : ∀ b ∈ d, isNumber (b : Int) = true) (ht : isNumber (runeAt t) = false)
    (hta : isAlpha (runeAt t) = false) (hd : inp.drop p = d ++ t) :
    lexNumber pr (cur st inp p p w [] cb) =
      .ok (some stateFn.lex,
        cur st inp (p + d.length) (p + d.length) (widthAt t)
          [{ Kind := INT, Literal := d }] false) := by
  have hlen := le_length_of_drop inp _ _ p hp hd
  have hdq := drop_add_of_eq inp _ _ p hd
  unfold lexNumber goLex.acceptRun
  simp only [cur_input]
  rw [acceptRunLoop_digits st inp [] p t ht d hdig p w _ cb hp hd (by omega)]
  simp only [bind, Except.bind, peek_cur _ _ _ _ _ _ _ hlen, hdq, hta, Bool.false_eq_true,
    if_false]
  rw [emit_cur _ _ _ _ _ _ _ (by omega) hlen]
  simp only [Nat.add_sub_cancel_left, take_of_drop inp d t p hd]
  rfl

/-- `lexNumber` on a run of digits that a letter or an underscore follows. -/
theorem lexNumber_bad (pr : Int → Bool) (st : Option stateFn) (inp : List Nat) (d : List Nat)
    (a : Nat) (t : List Nat) (p w : Nat) (cb : Bool) (hp : p ≤ inp.length)
    (hdig : ∀ b ∈ d, isNumber (b : Int) = true) (ha : isAlpha (a : Int) = true)
    (hd : inp.drop p = d ++ a :: t) :
    lexNumber pr (cur st inp p p w [] cb) =
      .ok (none,
        cur st inp p (p + d.length + 1) 1
          [{ Kind := ILLEGAL,
             Literal := str "bad number syntax: " ++ fmt.Sprintf_q_string pr (d ++ [a]) }]
          true) := by
  have ha2 := isAlpha_small _ ha
  obtain ⟨h1, h2⟩ := runeAt_ascii a t (by omega)
  have ht : isNumber (runeAt (a :: t)) = false := by
    rw [h1]
    unfold isAlpha at ha
    unfold isNumber
    simp only [decide_eq_true_eq, decide_eq_false_iff_not] at *
    omega
  have hlen := le_length_of_drop inp _ _ p hp hd
  have hdq := drop_add_of_eq inp _ _ p hd
  have hd' : inp.drop p = (d ++ [a]) ++ t := by simpa using hd
  have hlen2 : p + d.length + 1 ≤ inp.length := by
    have := le_length_of_drop inp _ _ p hp hd'
    simpa [Nat.add_assoc] using this
  unfold lexNumber goLex.acceptRun
  simp only [cur_input]
  rw [acceptRunLoop_digits st inp [] p (a :: t) ht d hdig p w _ cb hp hd (by omega)]
  simp only [bind, Except.bind, peek_cur _ _ _ _ _ _ _ hlen, hdq, h1, h2, ha, if_true,
    next_cur _ _ _ _ _ _ _ hlen, cur_input, cur_start, cur_pos]
  rw [slice_nat inp _ _ (by omega) hlen2]
  dsimp only
  rw [errorf_cur]
  have e : p + d.length + 1 - p = (d ++ [a]).length := by simp; omega
  rw [e, take_of_drop inp _ t p hd']

end lexer

/-! ## One call of `NextToken` -/

namespace lexer

open token

theorem cur_tokens (st : Option stateFn) (inp : List Nat) (s p w : Nat) (toks : List Token)
    (cb : Bool) : (cur st inp s p w toks cb).tokens = toks := rfl

theorem cur_state (st : Option stateFn) (inp : List Nat) (s p w : Nat) (toks : List Token)
    (cb : Bool) : (cur st inp s p w toks cb).state = st := rfl

theorem NextTokenLoop_buffered (pr : Int → Bool) (n : Nat) (st : Option stateFn)
    (inp : List Nat) (s p w : Nat) (tok : Token) (cb : Bool) :
    goLex.NextTokenLoop pr (n + 1) (cur st inp s p w [tok] cb) =
      .ok (tok, cur st inp s p w [] cb) := by
  simp only [goLex.NextTokenLoop, cur_tokens]
  rfl

theorem NextTokenLoop_done (pr : Int → Bool) (n : Nat) (inp : List Nat) (s p w : Nat)
    (cb : Bool) :
    goLex.NextTokenLoop pr (n + 1) (cur none inp s p w [] cb) =
      .ok ({ Kind := EOF, Literal := [] }, cur none inp s p w [] cb) := by
  simp only [goLex.NextTokenLoop, cur_tokens, cur_state]

theorem NextTokenLoop_run (pr : Int → Bool) (n : Nat) (f : stateFn) (inp : List Nat)
    (s p w : Nat) (cb : Bool) (st1 : Option stateFn) (s1 p1 w1 : Nat) (toks1 : List Token)
    (cb1 : Bool)
    (h : f.call pr (cur (some f) inp s p w [] cb) = .ok (st1, cur (some f) inp s1 p1 w1 toks1 cb1)) :
    goLex.NextTokenLoop pr (n + 1) (cur (some f) inp s p w [] cb) =
      goLex.NextTokenLoop pr n (cur st1 inp s1 p1 w1 toks1 cb1) := by
  simp only [goLex.NextTokenLoop, cur_tokens, cur_state, h, bind, Except.bind]
  rfl

/-- The EOF token is returned, and nothing changes, once the state is `nil`. -/
theorem NextToken_done (pr : Int → Bool) (inp : List Nat) (s p w : Nat) (cb : Bool) :
    (cur none inp s p w [] cb).NextToken pr =
      .ok ({ Kind := EOF, Literal := [] }, cur none inp s p w [] cb) :=
  NextTokenLoop_done pr _ inp s p w cb

/-- A call whose run of `lex` emits a token returns that token. -/
theorem NextToken_of_lex (pr : Int → Bool) (inp : List Nat) (p w : Nat) (cb : Bool)
    (st1 : Option stateFn) (s1 p1 w1 : Nat) (tok : Token) (cb1 : Bool)
    (h : lex pr (cur (some stateFn.lex) inp p p w [] cb) =
      .ok (st1, cur (some stateFn.lex) inp s1 p1 w1 [tok] cb1)) :
    (cur (some stateFn.lex) inp p p w [] cb).NextToken pr =
      .ok (tok, cur st1 inp s1 p1 w1 [] cb1) := by
  unfold goLex.NextToken
  rw [cur_input, NextTokenLoop_run pr (inp.length + 2) stateFn.lex inp p p w cb st1 s1 p1 w1
    [tok] cb1 h, NextTokenLoop_buffered]

/-- A call whose run of `lex` ends the scan without a token returns the EOF token. -/
theorem NextToken_of_lex_nil (pr : Int → Bool) (inp : List Nat) (p w : Nat) (cb : Bool)
    (s1 p1 w1 : Nat) (cb1 : Bool)
    (h : lex pr (cur (some stateFn.lex) inp p p w [] cb) =
      .ok (none, cur (some stateFn.lex) inp s1 p1 w1 [] cb1)) :
    (cur (some stateFn.lex) inp p p w [] cb).NextToken pr =
      .ok ({ Kind := EOF, Literal := [] }, cur none inp s1 p1 w1 [] cb1) := by
  unfold goLex.NextToken
  rw [cur_input, NextTokenLoop_run pr (inp.length + 2) stateFn.lex inp p p w cb none s1 p1 w1
    [] cb1 h, NextTokenLoop_done]

/-- A call whose run of `lex` hands over to a second state function that emits a token
returns that token. -/
theorem NextToken_of_lex_then (pr : Int → Bool) (inp : List Nat) (p w : Nat) (cb : Bool)
    (f : stateFn) (s1 p1 w1 : Nat) (cb1 : Bool)
    (st2 : Option stateFn) (s2 p2 w2 : Nat) (tok : Token) (cb2 : Bool)
    (h : lex pr (cur (some stateFn.lex) inp p p w [] cb) =
      .ok (some f, cur (some stateFn.lex) inp s1 p1 w1 [] cb1))
    (h2 : f.call pr (cur (some f) inp s1 p1 w1 [] cb1) =
      .ok (st2, cur (some f) inp s2 p2 w2 [tok] cb2)) :
    (cur (some stateFn.lex) inp p p w [] cb).NextToken pr =
      .ok (tok, cur st2 inp s2 p2 w2 [] cb2) := by
  unfold goLex.NextToken
  rw [cur_input, NextTokenLoop_run pr (inp.length + 2) stateFn.lex inp p p w cb (some f) s1 p1 w1
    [] cb1 h, NextTokenLoop_run pr (inp.length + 1) f inp s1 p1 w1 cb1 st2 s2 p2 w2
    [tok] cb2 h2, NextTokenLoop_buffered]

end lexer

namespace lexer

open token

theorem str_ops2 : str "!=" = [33, 61] := by decide

theorem str_ops1 : str ";(),+-/*<>\x7b\x7d" = [59, 40, 41, 44, 43, 45, 47, 42, 60, 62, 123, 125] := by
  decide

theorem isAlpha_class (r : Int) (h : isAlpha r = true) :
    ¬ strings.IndexRune (str "!=") r ≥ 0 ∧ ¬ strings.IndexRune (str ";(),+-/*<>\x7b\x7d") r ≥ 0 ∧
      isSpace r = false ∧ isNumber r = false := by
  unfold isAlpha at h
  simp only [decide_eq_true_eq] at h
  refine ⟨?_, ?_, ?_, ?_⟩
  · rw [indexRune_nonneg, str_ops2]
    simp only [List.mem_cons, List.mem_singleton, List.not_mem_nil, or_false]
    omega
  · rw [indexRune_nonneg, str_ops1]
    simp only [List.mem_cons, List.mem_singleton, List.not_mem_nil, or_false]
    omega
  · unfold isSpace unicode.IsSpace
    rw [if_pos (by omega)]
    simp only [decide_eq_false_iff_not]
    omega
  · unfold isNumber
    simp only [decide_eq_false_iff_not]
    omega

theorem isNumber_class (r : Int) (h : isNumber r = true) :
    ¬ strings.IndexRune (str "!=") r ≥ 0 ∧ ¬ strings.IndexRune (str ";(),+-/*<>\x7b\x7d") r ≥ 0 ∧
      isSpace r = false ∧ isAlpha r = false := by
  unfold isNumber at h
  simp only [decide_eq_true_eq] at h
  refine ⟨?_, ?_, ?_, ?_⟩
  · rw [indexRune_nonneg, str_ops2]
    simp only [List.mem_cons, List.mem_singleton, List.not_mem_nil, or_false]
    omega
  · rw [indexRune_nonneg, str_ops1]
    simp only [List.mem_cons, List.mem_singleton, List.not_mem_nil, or_false]
    omega
  · unfold isSpace unicode.IsSpace
    rw [if_pos (by omega)]
    simp only [decide_eq_false_iff_not]
    omega
  · unfold isAlpha
    simp only [decide_eq_false_iff_not]
    omega

theorem eof_class :
    ¬ strings.IndexRune (str "!=") eof ≥ 0 ∧ ¬ strings.IndexRune (str ";(),+-/*<>\x7b\x7d") eof ≥ 0 ∧
      isSpace eof = false ∧ isAlpha eof = false ∧ isNumber eof = false := by
  decide

/-- `NextToken` on `==` or `!=`. -/
theorem NextToken_op2 (pr : Int → Bool) (inp : List Nat) (ws : List Int)
    (c : Nat) (t : List Nat) (p w : Nat) (cb : Bool) (hp : p ≤ inp.length)
    (hws : ∀ r ∈ ws, isSpace r = true) (hc : c = 33 ∨ c = 61)
    (hd : inp.drop p = runesToString ws ++ c :: 61 :: t) :
    (cur (some stateFn.lex) inp p p w [] cb).NextToken pr =
      .ok ({ Kind := [c, 61], Literal := [c, 61] },
        cur (some stateFn.lex) inp (p + (runesToString ws).length + 2)
          (p + (runesToString ws).length + 2) 1 [] true) :=
  NextToken_of_lex pr inp p w cb _ _ _ _ _ _ (lex_op2 pr _ inp ws c t p w cb hp hws hc hd)

/-- `NextToken` on `=` or `!` that no `=` follows. -/
theorem NextToken_op1 (pr : Int → Bool) (inp : List Nat) (ws : List Int)
    (c : Nat) (t : List Nat) (p w : Nat) (cb : Bool) (hp : p ≤ inp.length)
    (hws : ∀ r ∈ ws, isSpace r = true) (hc : c = 33 ∨ c = 61) (ht : runeAt t ≠ 61)
    (hd : inp.drop p = runesToString ws ++ c :: t) :
    (cur (some stateFn.lex) inp p p w [] cb).NextToken pr =
      .ok ({ Kind := [c], Literal := [c] },
        cur (some stateFn.lex) inp (p + (runesToString ws).length + 1)
          (p + (runesToString ws).length + 1) (widthAt t) [] false) :=
  NextToken_of_lex pr inp p w cb _ _ _ _ _ _ (lex_op1 pr _ inp ws c t p w cb hp hws hc ht hd)

/-- `NextToken` on one of `; ( ) , + - / * < > { }`. -/
theorem NextToken_single (pr : Int → Bool) (inp : List Nat) (ws : List Int)
    (c : Nat) (t : List Nat) (p w : Nat) (cb : Bool) (hp : p ≤ inp.length)
    (hws : ∀ r ∈ ws, isSpace r = true) (hc : c ∈ str ";(),+-/*<>\x7b\x7d")
    (hd : inp.drop p = runesToString ws ++ c :: t) :
    (cur (some stateFn.lex) inp p p w [] cb).NextToken pr =
      .ok ({ Kind := [c], Literal := [c] },
        cur (some stateFn.lex) inp (p + (runesToString ws).length + 1)
          (p + (runesToString ws).length + 1) 1 [] true) :=
  NextToken_of_lex pr inp p w cb _ _ _ _ _ _ (lex_single pr _ inp ws c t p w cb hp hws hc hd)

/-- `NextToken` on an identifier: a non-empty run `b :: a` of letters and underscores
that is followed by `t`, which starts with no letter or underscore. -/
theorem NextToken_ident (pr : Int → Bool) (inp : List Nat) (ws : List Int)
    (b : Nat) (a t : List Nat) (p w : Nat) (cb : Bool) (hp : p ≤ inp.length)
    (hws : ∀ r ∈ ws, isSpace r = true) (ha : ∀ x ∈ b :: a, isAlpha (x : Int) = true)
    (ht : isAlpha (runeAt t) = false)
    (hd : inp.drop p = runesToString ws ++ ((b :: a) ++ t)) :
    (cur (some stateFn.lex) inp p p w [] cb).NextToken pr =
      .ok ({ Kind := LookupIdent (b :: a), Literal := b :: a },
        cur (some stateFn.lex) inp (p + (runesToString ws).length + (b :: a).length)
          (p + (runesToString ws).length + (b :: a).length) (widthAt t) [] false) := by
  have hb : isAlpha (b : Int) = true := ha b (List.mem_cons_self _ _)
  have hb2 := isAlpha_small _ hb
  obtain ⟨h1, _⟩ := runeAt_ascii b (a ++ t) (by omega)
  have hr : isAlpha (runeAt ((b :: a) ++ t)) = true := by
    rw [List.cons_append, h1]; exact hb
  obtain ⟨cA, cB, cS, _⟩ := isAlpha_class _ hr
  have hq := le_length_of_drop inp _ _ p hp hd
  have hdq := drop_add_of_eq inp _ _ p hd
  have hl := lex_other pr (some stateFn.lex) inp ws _ p w cb hp hws cS cA cB hd
  rw [if_pos hr] at hl
  exact NextToken_of_lex_then pr inp p w cb stateFn.lexIdentifier _ _ _ _ _ _ _ _ _ _ hl
    (lexIdentifier_cur (some stateFn.lexIdentifier) inp (b :: a) t _ _ false hq ha ht hdq)

/-- `NextToken` on an integer literal: a non-empty run `b :: d` of digits that is followed
by `t`, which starts with no digit, letter or underscore. -/
theorem NextToken_int (pr : Int → Bool) (inp : List Nat) (ws : List Int)
    (b : Nat) (d t : List Nat) (p w : Nat) (cb : Bool) (hp : p ≤ inp.length)
    (hws : ∀ r ∈ ws, isSpace r = true) (hdig : ∀ x ∈ b :: d, isNumber (x : Int) = true)
    (ht : isNumber (runeAt t) = false) (hta : isAlpha (runeAt t) = false)
    (hd : inp.drop p = runesToString ws ++ ((b :: d) ++ t)) :
    (cur (some stateFn.lex) inp p p w [] cb).NextToken pr =
      .ok ({ Kind := INT, Literal := b :: d },
        cur (some stateFn.lex) inp (p + (runesToString ws).length + (b :: d).length)
          (p + (runesToString ws).length + (b :: d).length) (widthAt t) [] false) := by
  have hb : isNumber (b : Int) = true := hdig b (List.mem_cons_self _ _)
  have hb2 := isNumber_small _ hb
  obtain ⟨h1, _⟩ := runeAt_ascii b (d ++ t) (by omega)
  have hr : isNumber (runeAt ((b :: d) ++ t)) = true := by
    rw [List.cons_append, h1]; exact hb
  obtain ⟨cA, cB, cS, cL⟩ := isNumber_class _ hr
  have hq := le_length_of_drop inp _ _ p hp hd
  have hdq := drop_add_of_eq inp _ _ p hd
  have hl := lex_other pr (some stateFn.lex) inp ws _ p w cb hp hws cS cA cB hd
  rw [if_neg (by rw [cL]; simp), if_pos hr] at hl
  exact NextToken_of_lex_then pr inp p w cb stateFn.lexNumber _ _ _ _ _ _ _ _ _ _ hl
    (lexNumber_int pr (some stateFn.lexNumber) inp (b :: d) t _ _ false hq hdig ht hta hdq)

/-- `NextToken` on a malformed number: a non-empty run `b :: d` of digits directly followed
by a letter or an underscore `a`. -/
theorem NextToken_bad (pr : Int → Bool) (inp : List Nat) (ws : List Int)
    (b : Nat) (d : List Nat) (a : Nat) (t : List Nat) (p w : Nat) (cb : Bool)
    (hp : p ≤ inp.length)
    (hws : ∀ r ∈ ws, isSpace r = true) (hdig : ∀ x ∈ b :: d, isNumber (x : Int) = true)
    (ha : isAlpha (a : Int) = true)
    (hd : inp.drop p = runesToString ws ++ ((b :: d) ++ a :: t)) :
    (cur (some stateFn.lex) inp p p w [] cb).NextToken pr =
      .ok ({ Kind := ILLEGAL,
             Literal := str "bad number syntax: " ++ fmt.Sprintf_q_string pr ((b :: d) ++ [a]) },
        cur none inp (p + (runesToString ws).length)
          (p + (runesToString ws).length + (b :: d).length + 1) 1 [] true) := by
  have hb : isNumber (b : Int) = true := hdig b (List.mem_cons_self _ _)
  have hb2 := isNumber_small _ hb
  obtain ⟨h1, _⟩ := runeAt_ascii b (d ++ a :: t) (by omega)
  have hr : isNumber (runeAt ((b :: d) ++ a :: t)) = true := by
    rw [List.cons_append, h1]; exact hb
  obtain ⟨cA, cB, cS, cL⟩ := isNumber_class _ hr
  have hq := le_length_of_drop inp _ _ p hp hd
  have hdq := drop_add_of_eq inp _ _ p hd
  have hl := lex_other pr (some stateFn.lex) inp ws _ p w cb hp hws cS cA cB hd
  rw [if_neg (by rw [cL]; simp), if_pos hr] at hl
  exact NextToken_of_lex_then pr inp p w cb stateFn.lexNumber _ _ _ _ _ _ _ _ _ _ hl
    (lexNumber_bad pr (some stateFn.lexNumber) inp (b :: d) a t _ _ false hq hdig ha hdq)

/-- `NextToken` with nothing but whitespace left. -/
theorem NextToken_eof (pr : Int → Bool) (inp : List Nat) (ws : List Int)
    (p w : Nat) (cb : Bool) (hp : p ≤ inp.length)
    (hws : ∀ r ∈ ws, isSpace r = true) (hd : inp.drop p = runesToString ws) :
    (cur (some stateFn.lex) inp p p w [] cb).NextToken pr =
      .ok ({ Kind := EOF, Literal := [] },
        cur none inp (p + (runesToString ws).length) (p + (runesToString ws).length)
          0 [] false) := by
  obtain ⟨cA, cB, cS, cL, cN⟩ := eof_class
  have hd' : inp.drop p = runesToString ws ++ [] := by rw [List.append_nil]; exact hd
  have hl := lex_other pr (some stateFn.lex) inp ws [] p w cb hp hws cS cA cB hd'
  rw [runeAt_nil, if_neg (by rw [cL]; simp), if_neg (by rw [cN]; simp), if_pos rfl,
    widthAt_nil] at hl
  exact NextToken_of_lex_nil pr inp p w cb _ _ _ _ hl

/-- `NextToken` on a character that starts no token. -/
theorem NextToken_illegal (pr : Int → Bool) (inp : List Nat) (ws : List Int)
    (R : List Nat) (p w : Nat) (cb : Bool) (hp : p ≤ inp.length)
    (hws : ∀ r ∈ ws, isSpace r = true) (hne : R ≠ [])
    (hS : isSpace (runeAt R) = false) (hL : isAlpha (runeAt R) = false)
    (hN : isNumber (runeAt R) = false)
    (hA : ¬ strings.IndexRune (str "!=") (runeAt R) ≥ 0)
    (hB : ¬ strings.IndexRune (str ";(),+-/*<>\x7b\x7d") (runeAt R) ≥ 0)
    (hd : inp.drop p = runesToString ws ++ R) :
    (cur (some stateFn.lex) inp p p w [] cb).NextToken pr =
      .ok ({ Kind := ILLEGAL,
             Literal := str "Illegal character: " ++ fmt.Sprintf_q_rune pr (runeAt R) },
        cur none inp (p + (runesToString ws).length)
          (p + (runesToString ws).length + widthAt R) (widthAt R) [] true) := by
  have hl := lex_other pr (some stateFn.lex) inp ws R p w cb hp hws hS hA hB hd
  have he : runeAt R ≠ eof := by
    have := runeAt_nonneg R hne
    unfold eof
    omega
  rw [if_neg (by rw [hL]; simp), if_neg (by rw [hN]; simp), if_neg he] at hl
  exact NextToken_of_lex pr inp p w cb _ _ _ _ _ _ hl

end lexer

/-! ## Every call of `NextToken` is one step -/

namespace lexer

open token

theorem isSpace_runeError : isSpace utf8.RuneError = false := by decide

theorem runeAt_eq_decode (s : List Nat) (h : s ≠ []) :
    runeAt s = (utf8.DecodeRuneInString s).1 := by
  unfold runeAt
  split
  · contradiction
  · rfl

/-- Every string is a run of whitespace characters followed by a rest that does not start
with a whitespace character. -/
theorem space_split (n : Nat) : ∀ s : List Nat, s.length ≤ n →
    ∃ (ws : List Int) (R : List Nat), (∀ r ∈ ws, isSpace r = true) ∧
      isSpace (runeAt R) = false ∧ s = runesToString ws ++ R := by
  induction n with
  | zero =>
    intro s hs
    have : s = [] := List.eq_nil_of_length_eq_zero (by omega)
    subst this
    exact ⟨[], [], by simp, by decide, rfl⟩
  | succ n ih =>
    intro s hs
    by_cases h : isSpace (runeAt s) = true
    · have hne : s ≠ [] := by
        rintro rfl
        revert h
        decide
      have hr := runeAt_eq_decode s hne
      have hv : ((utf8.DecodeRuneInString s).1, (utf8.DecodeRuneInString s).2)
          ≠ (utf8.RuneError, 1) := by
        intro hh
        have h1 := (Prod.mk.inj hh).1
        rw [hr, h1, isSpace_runeError] at h
        exact Bool.false_ne_true h
      have hap : utf8.AppendRune (runeAt s) ++ s.drop (widthAt s) = s := by
        rw [hr]
        exact appendRune_decode s (utf8.DecodeRuneInString s).1 (utf8.DecodeRuneInString s).2
          rfl hv hne
      have hpos := widthAt_pos s hne
      obtain ⟨ws, R, h1, h2, h3⟩ := ih (s.drop (widthAt s)) (by
        rw [List.length_drop]
        have : 0 < s.length := List.length_pos.mpr hne
        omega)
      refine ⟨runeAt s :: ws, R, ?_, h2, ?_⟩
      · intro r hr'
        rcases List.mem_cons.mp hr' with rfl | hr'
        · exact h
        · exact h1 r hr'
      · simp only [runesToString, List.append_assoc]
        rw [← h3, hap]
    · refine ⟨[], s, by simp, by simpa using h, rfl⟩

/-- Every string is a run of bytes that satisfy `P` followed by a rest that does not
start with such a byte. -/
theorem run_split (P : Nat → Bool) : ∀ s : List Nat,
    ∃ a t, s = a ++ t ∧ (∀ x ∈ a, P x = true) ∧ (∀ x u, t = x :: u → P x = false) := by
  intro s
  induction s with
  | nil => exact ⟨[], [], rfl, by simp, by simp⟩
  | cons b s ih =>
    by_cases hb : P b = true
    · obtain ⟨a, t, h1, h2, h3⟩ := ih
      refine ⟨b :: a, t, by rw [h1]; rfl, ?_, h3⟩
      intro x hx
      rcases List.mem_cons.mp hx with rfl | hx
      · exact hb
      · exact h2 x hx
    · refine ⟨[], b :: s, rfl, by simp, ?_⟩
      intro x u hxu
      obtain ⟨rfl, _⟩ := List.cons.inj hxu
      simpa using hb

theorem runeAt_class_of_head (P : Int → Bool) (hP : ∀ r, P r = true → 0 ≤ r ∧ r < 0x80)
    (t : List Nat) (h : ∀ x u, t = x :: u → P (x : Int) = false) : P (runeAt t) = false := by
  by_contra hc
  have hc' : P (runeAt t) = true := by simpa using hc
  obtain ⟨h0, h1⟩ := hP _ hc'
  obtain ⟨b, u, rfl, hb, _, _⟩ := runeAt_small t h0 h1
  rw [hb, h b u rfl] at hc'
  exact Bool.false_ne_true hc'

theorem mem_operators_one (c : Nat) (h : c ∈ str "=!;(),+-/*<>\x7b\x7d") : [c] ∈ operators := by
  have e : str "=!;(),+-/*<>\x7b\x7d" = [61, 33, 59, 40, 41, 44, 43, 45, 47, 42, 60, 62, 123, 125] := by
    decide
  rw [e] at h
  simp only [List.mem_cons, List.mem_singleton, List.not_mem_nil, or_false] at h
  rcases h with rfl | rfl | rfl | rfl | rfl | rfl | rfl | rfl | rfl | rfl | rfl | rfl | rfl | rfl
    <;> decide

theorem mem_operators_two (c : Nat) (h : c = 33 ∨ c = 61) : [c, 61] ∈ operators := by
  rcases h with rfl | rfl <;> decide

/-- One call of `NextToken` on a lexer that is ready at byte `p` returns, and is a step. -/
theorem NextToken_step (pr : Int → Bool) (inp : List Nat) (p w : Nat) (cb : Bool)
    (hp : p ≤ inp.length) :
    ∃ tok l, (cur (some stateFn.lex) inp p p w [] cb).NextToken pr = .ok (tok, l) ∧
      Step inp p tok l := by
  obtain ⟨ws, R, hws, hR, hd⟩ := space_split _ (inp.drop p) (le_refl _)
  rcases R with _ | ⟨b, t⟩
  · rw [List.append_nil] at hd
    exact ⟨_, _, NextToken_eof pr inp ws p w cb hp hws hd, Step.eof ws hws hd⟩
  by_cases hA : strings.IndexRune (str "!=") (runeAt (b :: t)) ≥ 0
  · have hA' := (indexRune_nonneg _ _).mp hA
    obtain ⟨b', t', hbt, hb, _, hb80⟩ := runeAt_small _ hA'.1 hA'.2.1
    obtain ⟨rfl, rfl⟩ := List.cons.inj hbt
    have hc : b = 33 ∨ b = 61 := by
      have := hA'.2.2
      rw [hb, Int.toNat_ofNat, str_ops2] at this
      simpa using this
    by_cases ht : runeAt t = 61
    · obtain ⟨x, u, rfl, hx, _, _⟩ := runeAt_small t (by omega) (by omega)
      have hx61 : x = 61 := by omega
      subst hx61
      refine ⟨_, _, NextToken_op2 pr inp ws b u p w cb hp hws hc hd, ?_⟩
      exact Step.token ws [b, 61] u _ 1 true hws (Lexeme.op _ (mem_operators_two b hc)) hd
    · refine ⟨_, _, NextToken_op1 pr inp ws b t p w cb hp hws hc ht hd, ?_⟩
      exact Step.token ws [b] t _ (widthAt t) false hws
        (Lexeme.op _ (mem_operators_one b (by rcases hc with rfl | rfl <;> decide))) hd
  by_cases hB : strings.IndexRune (str ";(),+-/*<>\x7b\x7d") (runeAt (b :: t)) ≥ 0
  · have hB' := (indexRune_nonneg _ _).mp hB
    obtain ⟨b', t', hbt, hb, _, hb80⟩ := runeAt_small _ hB'.1 hB'.2.1
    obtain ⟨rfl, rfl⟩ := List.cons.inj hbt
    have hc : b ∈ str ";(),+-/*<>\x7b\x7d" := by
      have := hB'.2.2
      rw [hb, Int.toNat_ofNat] at this
      exact this
    refine ⟨_, _, NextToken_single pr inp ws b t p w cb hp hws hc hd, ?_⟩
    refine Step.token ws [b] t _ 1 true hws (Lexeme.op _ (mem_operators_one b ?_)) hd
    rw [str_ops1] at hc
    have e : str "=!;(),+-/*<>\x7b\x7d" = [61, 33, 59, 40, 41, 44, 43, 45, 47, 42, 60, 62, 123, 125] := by
      decide
    rw [e]
    simp only [List.mem_cons, List.mem_singleton, List.not_mem_nil, or_false] at hc ⊢
    omega
  by_cases hL : isAlpha (runeAt (b :: t)) = true
  · have hL' := isAlpha_small _ hL
    obtain ⟨b', t', hbt, hb, _, hb80⟩ := runeAt_small _ hL'.1 hL'.2
    obtain ⟨rfl, rfl⟩ := List.cons.inj hbt
    rw [hb] at hL
    obtain ⟨a, u, rfl, ha, hu⟩ := run_split (fun x => isAlpha (x : Int)) t
    have hall : ∀ x ∈ b :: a, isAlpha (x : Int) = true := by
      intro x hx
      rcases List.mem_cons.mp hx with rfl | hx
      · exact hL
      · exact ha x hx
    have hu' := runeAt_class_of_head isAlpha isAlpha_small u hu
    have hd' : inp.drop p = runesToString ws ++ ((b :: a) ++ u) := by simpa using hd
    refine ⟨_, _, NextToken_ident pr inp ws b a u p w cb hp hws hall hu' hd', ?_⟩
    exact Step.token ws (b :: a) u _ (widthAt u) false hws (Lexeme.ident b a hall) hd'
  by_cases hN : isNumber (runeAt (b :: t)) = true
  · have hN' := isNumber_small _ hN
    obtain ⟨b', t', hbt, hb, _, hb80⟩ := runeAt_small _ hN'.1 hN'.2
    obtain ⟨rfl, rfl⟩ := List.cons.inj hbt
    rw [hb] at hN
    obtain ⟨d, u, rfl, hdig, hu⟩ := run_split (fun x => isNumber (x : Int)) t
    have hall : ∀ x ∈ b :: d, isNumber (x : Int) = true := by
      intro x hx
      rcases List.mem_cons.mp hx with rfl | hx
      · exact hN
      · exact hdig x hx
    have hu' := runeAt_class_of_head isNumber isNumber_small u hu
    have hd' : inp.drop p = runesToString ws ++ ((b :: d) ++ u) := by simpa using hd
    by_cases hua : isAlpha (runeAt u) = true
    · have hua' := isAlpha_small _ hua
      obtain ⟨a, v, rfl, ha, _, _⟩ := runeAt_small u hua'.1 hua'.2
      rw [ha] at hua
      refine ⟨_, _, NextToken_bad pr inp ws b d a v p w cb hp hws hall hua hd', ?_⟩
      have hd'' : inp.drop p = runesToString ws ++ (((b :: d) ++ [a]) ++ v) := by
        simpa using hd'
      have hst := @Step.illegal inp p ws ((b :: d) ++ [a]) v
        (str "bad number syntax: " ++ fmt.Sprintf_q_string pr ((b :: d) ++ [a])) 1 true hws
        (by simp) hd''
      have e : p + (runesToString ws).length + ((b :: d) ++ [a]).length
          = p + (runesToString ws).length + (b :: d).length + 1 := by
        simp [Nat.add_assoc]
      rw [e] at hst
      exact hst
    · refine ⟨_, _, NextToken_int pr inp ws b d u p w cb hp hws hall hu'
        (by simpa using hua) hd', ?_⟩
      exact Step.token ws (b :: d) u _ (widthAt u) false hws (Lexeme.int b d hall) hd'
  · refine ⟨_, _, NextToken_illegal pr inp ws (b :: t) p w cb hp hws (by simp) hR
      (by simpa using hL) (by simpa using hN) hA hB hd, ?_⟩
    have hsplit : b :: t = (b :: t).take (widthAt (b :: t)) ++ (b :: t).drop (widthAt (b :: t)) :=
      (List.take_append_drop _ _).symm
    have hlen : ((b :: t).take (widthAt (b :: t))).length = widthAt (b :: t) := by
      rw [List.length_take]
      exact Nat.min_eq_left (widthAt_le _)
    have hst := @Step.illegal inp p ws ((b :: t).take (widthAt (b :: t)))
      ((b :: t).drop (widthAt (b :: t)))
      (str "Illegal character: " ++ fmt.Sprintf_q_rune pr (runeAt (b :: t)))
      (widthAt (b :: t)) true hws
      (by
        intro h0
        have h1 := congrArg List.length h0
        rw [hlen] at h1
        have := widthAt_pos (b :: t) (by simp)
        simp at h1
        omega)
      (by rw [← hsplit]; exact hd)
    rw [hlen] at hst
    exact hst

end lexer

/-! ## Sequences of calls -/

namespace lexer

open token

theorem NewGoLex_eq (inp : List Nat) : NewGoLex inp = cur (some stateFn.lex) inp 0 0 0 [] false :=
  rfl

theorem NewGoLex_boundary (inp : List Nat) : Boundary inp (NewGoLex inp) := by
  rw [NewGoLex_eq]
  exact Boundary.ready 0 0 false (Nat.zero_le _)

theorem step_boundary (inp : List Nat) (p : Nat) (tok : Token) (l : goLex)
    (hp : p ≤ inp.length) (h : Step inp p tok l) : Boundary inp l := by
  cases h with
  | token ws lit rest tok w cb hws hl hd =>
    have h1 := le_length_of_drop inp _ _ p hp hd
    have h2 := le_length_of_drop inp _ _ _ h1 (drop_add_of_eq inp _ _ p hd)
    exact Boundary.ready _ _ _ h2
  | eof ws hws hd =>
    have hd' : inp.drop p = runesToString ws ++ [] := by rw [List.append_nil]; exact hd
    have h1 := le_length_of_drop inp _ _ p hp hd'
    exact Boundary.finished _ _ _ _ (le_refl _) h1
  | illegal ws bad rest msg w cb hws hb hd =>
    have h1 := le_length_of_drop inp _ _ p hp hd
    have h2 := le_length_of_drop inp _ _ _ h1 (drop_add_of_eq inp _ _ p hd)
    exact Boundary.finished _ _ _ _ (Nat.le_add_right _ _) h2

/-- A call of `NextToken` between two calls: it returns, leaves a lexer of the same kind
behind, and is either a step of a ready lexer or the EOF answer of a finished one. -/
theorem NextToken_boundary (pr : Int → Bool) (inp : List Nat) (l : goLex)
    (hb : Boundary inp l) :
    ∃ tok l1, l.NextToken pr = .ok (tok, l1) ∧ Boundary inp l1 ∧
      ((∃ p w cb, p ≤ inp.length ∧ l = cur (some stateFn.lex) inp p p w [] cb ∧
          Step inp p tok l1)
        ∨ (l.state = none ∧ tok = { Kind := EOF, Literal := [] } ∧ l1 = l)) := by
  cases hb with
  | ready p w cb hp =>
    obtain ⟨tok, l1, h1, h2⟩ := NextToken_step pr inp p w cb hp
    exact ⟨tok, l1, h1, step_boundary inp p tok l1 hp h2, Or.inl ⟨p, w, cb, hp, rfl, h2⟩⟩
  | finished s p w cb hs hp =>
    exact ⟨_, _, NextToken_done pr inp s p w cb, Boundary.finished s p w cb hs hp,
      Or.inr ⟨rfl, rfl, rfl⟩⟩

theorem NextTokens_zero (pr : Int → Bool) (l : goLex) : l.NextTokens pr 0 = .ok ([], l) := rfl

theorem NextTokens_succ (pr : Int → Bool) (n : Nat) (l l1 l2 : goLex) (t : Token)
    (ts : List Token) (h1 : l.NextToken pr = .ok (t, l1))
    (h2 : l1.NextTokens pr n = .ok (ts, l2)) :
    l.NextTokens pr (n + 1) = .ok (t :: ts, l2) := by
  simp only [goLex.NextTokens, h1, h2, bind, Except.bind]
  rfl

theorem NextTokens_succ_inv (pr : Int → Bool) (n : Nat) (l l2 : goLex) (ts : List Token)
    (h : l.NextTokens pr (n + 1) = .ok (ts, l2)) :
    ∃ t l1 ts1, l.NextToken pr = .ok (t, l1) ∧ l1.NextTokens pr n = .ok (ts1, l2) ∧
      ts = t :: ts1 := by
  simp only [goLex.NextTokens, bind, Except.bind] at h
  cases h1 : l.NextToken pr with
  | error e => rw [h1] at h; cases h
  | ok v =>
    obtain ⟨t, l1⟩ := v
    rw [h1] at h
    dsimp only at h
    cases h2 : l1.NextTokens pr n with
    | error e => rw [h2] at h; cases h
    | ok v2 =>
      obtain ⟨ts1, l3⟩ := v2
      rw [h2] at h
      dsimp only [pure, Except.pure] at h
      cases h
      exact ⟨t, l1, ts1, rfl, h2, rfl⟩

/-- Any number of calls of `NextToken` return, and leave a lexer of the same kind behind. -/
theorem NextTokens_boundary (pr : Int → Bool) (inp : List Nat) :
    ∀ (n : Nat) (l : goLex), Boundary inp l →
      ∃ ts l1, l.NextTokens pr n = .ok (ts, l1) ∧ Boundary inp l1 := by
  intro n
  induction n with
  | zero => intro l hb; exact ⟨[], l, rfl, hb⟩
  | succ n ih =>
    intro l hb
    obtain ⟨tok, l1, h1, hb1, _⟩ := NextToken_boundary pr inp l hb
    obtain ⟨ts, l2, h2, hb2⟩ := ih l1 hb1
    exact ⟨tok :: ts, l2, NextTokens_succ pr n l l1 l2 tok ts h1 h2, hb2⟩

/-- After any number of calls the lexer is one met between two calls. -/
theorem reachable_boundary (pr : Int → Bool) (inp : List Nat) (n : Nat) (ts : List Token)
    (l : goLex) (h : (NewGoLex inp).NextTokens pr n = .ok (ts, l)) : Boundary inp l := by
  obtain ⟨ts1, l1, h1, hb⟩ := NextTokens_boundary pr inp n _ (NewGoLex_boundary inp)
  rw [h1] at h
  cases h
  exact hb

/-- Once the state is `nil`, every call returns the EOF token and changes nothing. -/
theorem NextTokens_finished (pr : Int → Bool) (inp : List Nat) (s p w : Nat) (cb : Bool) :
    ∀ n : Nat, (cur none inp s p w [] cb).NextTokens pr n =
      .ok (List.replicate n { Kind := EOF, Literal := [] }, cur none inp s p w [] cb) := by
  intro n
  induction n with
  | zero => rfl
  | succ n ih =>
    exact NextTokens_succ pr n _ _ _ _ _ (NextToken_done pr inp s p w cb) ih

end lexer

/-! ## Lemmas shared by the properties -/

namespace lexer

open token

theorem str_opchars :
    str "=!;(),+-/*<>\x7b\x7d" = [61, 33, 59, 40, 41, 44, 43, 45, 47, 42, 60, 62, 123, 125] := by
  decide

theorem runeAt_ne_of_head (t : List Nat) (c : Nat) (hc : c < 0x80)
    (h : t.head? ≠ some c) : runeAt t ≠ (c : Int) := by
  intro hr
  obtain ⟨b, u, rfl, hb, _, _⟩ := runeAt_small t (by omega) (by omega)
  apply h
  have : b = c := by omega
  rw [this]
  rfl

theorem drop_ready (inp R : List Nat) (p : Nat) (h : inp.drop p = R) :
    inp.drop p = runesToString [] ++ R := by
  simpa [runesToString] using h

/-- A run of single-character operators and delimiters gives one token per character and
then EOF. -/
theorem ops_run (pr : Int → Bool) (inp : List Nat) :
    ∀ (cs : List Nat) (p w : Nat) (cb : Bool), p ≤ inp.length → inp.drop p = cs →
      (∀ c ∈ cs, c ∈ str "=!;(),+-/*<>\x7b\x7d") →
      noEqualsAfter cs = true →
      ∃ l, (cur (some stateFn.lex) inp p p w [] cb).NextTokens pr (cs.length + 1) =
        .ok (cs.map (fun c => ({ Kind := [c], Literal := [c] } : Token))
          ++ [{ Kind := EOF, Literal := [] }], l) := by
  intro cs
  induction cs with
  | nil =>
    intro p w cb hp hd _ _
    have h1 := NextToken_eof pr inp [] p w cb hp (by simp) (by simpa [runesToString] using hd)
    exact ⟨_, NextTokens_succ pr 0 _ _ _ _ _ h1 (NextTokens_zero pr _)⟩
  | cons c cs ih =>
    intro p w cb hp hd hmem hch
    have hc := hmem c (List.mem_cons_self _ _)
    have hd' := drop_ready inp _ p hd
    have hq : p + (runesToString []).length + 1 ≤ inp.length := by
      have := le_length_of_drop inp [c] cs p hp hd
      simpa [runesToString] using this
    have hdq : inp.drop (p + (runesToString []).length + 1) = cs := by
      have := drop_add_of_eq inp [c] cs p hd
      simpa [runesToString] using this
    have hmem' : ∀ x ∈ cs, x ∈ str "=!;(),+-/*<>\x7b\x7d" :=
      fun x hx => hmem x (List.mem_cons_of_mem _ hx)
    have hch' : noEqualsAfter cs = true := by
      rcases cs with _ | ⟨c2, cs2⟩
      · rfl
      · simp only [noEqualsAfter, Bool.and_eq_true] at hch
        exact hch.2
    by_cases h2 : c = 33 ∨ c = 61
    · have ht : runeAt cs ≠ 61 := by
        apply runeAt_ne_of_head cs 61 (by omega)
        rcases cs with _ | ⟨c2, cs2⟩
        · simp
        · simp only [noEqualsAfter, Bool.and_eq_true, Bool.not_eq_true', Bool.and_eq_false_iff,
            Bool.or_eq_false_iff, beq_eq_false_iff_ne, ne_eq] at hch
          simp only [List.head?_cons, ne_eq, Option.some.injEq]
          intro h3
          rcases hch.1 with h4 | h4
          · omega
          · exact h4 h3
      have h1 := NextToken_op1 pr inp [] c cs p w cb hp (by simp) h2 ht hd'
      obtain ⟨l, hl⟩ := ih _ (widthAt cs) false hq hdq hmem' hch'
      exact ⟨l, NextTokens_succ pr _ _ _ _ _ _ h1 hl⟩
    · have h3 : c ∈ str ";(),+-/*<>\x7b\x7d" := by
        rw [str_opchars] at hc
        rw [str_ops1]
        simp only [List.mem_cons, List.mem_singleton, List.not_mem_nil, or_false] at hc ⊢
        omega
      have h1 := NextToken_single pr inp [] c cs p w cb hp (by simp) h3 hd'
      obtain ⟨l, hl⟩ := ih _ 1 true hq hdq hmem' hch'
      exact ⟨l, NextTokens_succ pr _ _ _ _ _ _ h1 hl⟩

end lexer

namespace lexer

open token

theorem dropWhile_head (P : Nat → Bool) : ∀ (s : List Nat) (x : Nat) (u : List Nat),
    s.dropWhile P = x :: u → P x = false := by
  intro s
  induction s with
  | nil => intro x u h; simp at h
  | cons b s ih =>
    intro x u h
    by_cases hb : P b = true
    · rw [List.dropWhile_cons_of_pos hb] at h
      exact ih x u h
    · rw [List.dropWhile_cons_of_neg hb] at h
      obtain ⟨rfl, _⟩ := List.cons.inj h
      simpa using hb

theorem runeAt_class_of_head' (P : Int → Bool) (hP : ∀ r, P r = true → 0 ≤ r ∧ r < 0x80)
    (t : List Nat) (h : ∀ x, t.head? = some x → P (x : Int) = false) : P (runeAt t) = false :=
  runeAt_class_of_head P hP t (fun x u hxu => h x (by rw [hxu]; rfl))

/-- The first token of an input that starts, after whitespace, with a letter or an
underscore: the longest run of letters and underscores, classified by `LookupIdent`. -/
theorem first_ident (pr : Int → Bool) (ws : List Int) (b : Nat) (s : List Nat)
    (hws : ∀ r ∈ ws, isSpace r = true) (hb : isAlpha (b : Int) = true) :
    ∃ l, (NewGoLex (runesToString ws ++ b :: s)).NextToken pr =
      .ok ({ Kind := LookupIdent (b :: s.takeWhile (fun x : Nat => isAlpha (x : Int))),
             Literal := b :: s.takeWhile (fun x : Nat => isAlpha (x : Int)) }, l) := by
  have hall : ∀ x ∈ b :: s.takeWhile (fun x : Nat => isAlpha (x : Int)), isAlpha (x : Int) = true := by
    intro x hx
    rcases List.mem_cons.mp hx with rfl | hx
    · exact hb
    · exact @List.mem_takeWhile_imp Nat (fun x : Nat => isAlpha (x : Int)) s x hx
  have ht : isAlpha (runeAt (s.dropWhile (fun x : Nat => isAlpha (x : Int)))) = false :=
    runeAt_class_of_head isAlpha isAlpha_small _
      (dropWhile_head (fun x : Nat => isAlpha (x : Int)) s)
  have hd : (runesToString ws ++ b :: s).drop 0 = runesToString ws
      ++ ((b :: s.takeWhile (fun x : Nat => isAlpha (x : Int)))
        ++ s.dropWhile (fun x : Nat => isAlpha (x : Int))) := by
    simp [List.takeWhile_append_dropWhile]
  exact ⟨_, NextToken_ident pr _ ws b _ _ 0 0 false (Nat.zero_le _) hws hall ht hd⟩

theorem lookupIdent_mem (a : List Nat) :
    LookupIdent a ∈ [IDENT, str "FUNCTION", str "LET", str "TRUE", str "FALSE", str "IF",
      str "ELSE", str "RETURN"] := by
  unfold LookupIdent keywords
  by_cases h1 : a = str "fn"
  · subst h1; decide
  by_cases h2 : a = str "let"
  · subst h2; decide
  by_cases h3 : a = str "true"
  · subst h3; decide
  by_cases h4 : a = str "false"
  · subst h4; decide
  by_cases h5 : a = str "if"
  · subst h5; decide
  by_cases h6 : a = str "else"
  · subst h6; decide
  by_cases h7 : a = str "return"
  · subst h7; decide
  have e : ∀ k : List Nat, a ≠ k → (a == k) = false := fun k hk => beq_eq_false_iff_ne.mpr hk
  simp only [List.lookup, e _ h1, e _ h2, e _ h3, e _ h4, e _ h5, e _ h6, e _ h7]
  decide

/-- The token of a lexeme is neither the EOF token nor an ILLEGAL token. -/
theorem lexeme_kind (lit : List Nat) (tok : Token) (h : Lexeme lit tok) :
    tok.Kind ≠ EOF ∧ tok.Kind ≠ ILLEGAL ∧ tok.Literal = lit ∧ lit ≠ [] := by
  cases h with
  | op lit h =>
    refine ⟨?_, ?_, rfl, ?_⟩
    · intro hk
      have hk' : lit = EOF := hk
      rw [hk'] at h
      exact absurd h (by decide)
    · intro hk
      have hk' : lit = ILLEGAL := hk
      rw [hk'] at h
      exact absurd h (by decide)
    · intro hk
      rw [hk] at h
      exact absurd h (by decide)
  | ident b a h =>
    have hm := lookupIdent_mem (b :: a)
    refine ⟨?_, ?_, rfl, by simp⟩
    · intro hk
      have hk' : LookupIdent (b :: a) = EOF := hk
      rw [hk'] at hm
      exact absurd hm (by decide)
    · intro hk
      have hk' : LookupIdent (b :: a) = ILLEGAL := hk
      rw [hk'] at hm
      exact absurd hm (by decide)
  | int b d h =>
    refine ⟨?_, ?_, rfl, by simp⟩
    · show INT ≠ EOF
      decide
    · show INT ≠ ILLEGAL
      decide

/-- A token of kind INT that comes from a lexeme is a non-empty run of digits. -/
theorem lexeme_int (lit : List Nat) (tok : Token) (h : Lexeme lit tok) (hk : tok.Kind = INT) :
    tok.Literal ≠ [] ∧ ∀ x ∈ tok.Literal, isNumber (x : Int) = true := by
  cases h with
  | op lit h =>
    have hk' : lit = INT := hk
    rw [hk'] at h
    exact absurd h (by decide)
  | ident b a h =>
    have hm := lookupIdent_mem (b :: a)
    have hk' : LookupIdent (b :: a) = INT := hk
    rw [hk'] at hm
    exact absurd hm (by decide)
  | int b d h => exact ⟨by simp, h⟩

/-- Every token returned is the EOF token, an ILLEGAL token or the token of a lexeme. -/
theorem tokens_wellformed (pr : Int → Bool) (inp : List Nat) :
    ∀ (n : Nat) (l l1 : goLex) (ts : List Token), Boundary inp l →
      l.NextTokens pr n = .ok (ts, l1) →
      ∀ tok ∈ ts, tok = { Kind := EOF, Literal := [] } ∨ tok.Kind = ILLEGAL
        ∨ ∃ lit, Lexeme lit tok := by
  intro n
  induction n with
  | zero =>
    intro l l1 ts _ h tok htok
    rw [NextTokens_zero] at h
    cases h
    simp at htok
  | succ n ih =>
    intro l l1 ts hb h tok htok
    obtain ⟨t, l2, ts1, h1, h2, rfl⟩ := NextTokens_succ_inv pr n l l1 ts h
    obtain ⟨t', l2', h1', hb2, hcase⟩ := NextToken_boundary pr inp l hb
    rw [h1] at h1'
    cases h1'
    rcases List.mem_cons.mp htok with rfl | htok
    · rcases hcase with ⟨p, w, cb, _, _, hst⟩ | ⟨_, he, _⟩
      · cases hst with
        | token ws lit rest tok w cb hws hl hd => exact Or.inr (Or.inr ⟨lit, hl⟩)
        | eof ws hws hd => exact Or.inl rfl
        | illegal ws bad rest msg w cb hws hb hd => exact Or.inr (Or.inl rfl)
      · exact Or.inl he
    · exact ih l2 l1 ts1 hb2 h2 tok htok

/-- Every INT token returned is a non-empty run of digits. -/
theorem int_tokens_digits (pr : Int → Bool) (inp : List Nat) (n : Nat) (ts : List Token)
    (l : goLex) (h : (NewGoLex inp).NextTokens pr n = .ok (ts, l)) (tok : Token)
    (htok : tok ∈ ts) (hk : tok.Kind = INT) :
    tok.Literal ≠ [] ∧ ∀ x ∈ tok.Literal, isNumber (x : Int) = true := by
  rcases tokens_wellformed pr inp n _ _ _ (NewGoLex_boundary inp) h tok htok with
    rfl | h1 | ⟨lit, hl⟩
  · exact absurd hk (by decide)
  · rw [hk] at h1; exact absurd h1 (by decide)
  · exact lexeme_int lit tok hl hk

end lexer

namespace lexer

open token

theorem appendEscapedRune_plain (pr : Int → Bool) (x : Nat)
    (hx : isNumber (x : Int) = true ∨ isAlpha (x : Int) = true) :
    strconv.appendEscapedRune pr (x : Int) 0x22 = [x] := by
  have hr : (0x30 ≤ x ∧ x ≤ 0x39) ∨ (0x61 ≤ x ∧ x ≤ 0x7A) ∨ (0x41 ≤ x ∧ x ≤ 0x5A) ∨ x = 0x5F := by
    unfold isNumber isAlpha at hx
    simp only [decide_eq_true_eq] at hx
    omega
  unfold strconv.appendEscapedRune
  rw [if_neg (by omega)]
  have hp : strconv.IsPrint pr (x : Int) = true := by
    unfold strconv.IsPrint
    rw [if_pos (by omega), if_pos (by omega)]
  rw [if_pos hp, appendRune_cast, if_pos (by omega)]

theorem quoteLoop_plain (pr : Int → Bool) : ∀ (s : List Nat) (n : Nat), s.length ≤ n →
    (∀ x ∈ s, isNumber (x : Int) = true ∨ isAlpha (x : Int) = true) →
    strconv.quoteLoop pr n s = s := by
  intro s
  induction s with
  | nil => intro n _ _; cases n <;> rfl
  | cons b s ih =>
    intro n hn hall
    obtain ⟨m, rfl⟩ : ∃ m, n = m + 1 := ⟨n - 1, by simp at hn; omega⟩
    have hb := hall b (List.mem_cons_self _ _)
    have hr : b < 0x80 := by
      rcases hb with h | h
      · have := isNumber_small _ h; omega
      · have := isAlpha_small _ h; omega
    have hne : ¬ (True ∧ (b : Int) = utf8.RuneError) := by
      show ¬ (True ∧ (b : Int) = 0xFFFD)
      omega
    have hge : ¬ b ≥ 0x80 := by omega
    simp only [strconv.quoteLoop, hge, if_false]
    rw [if_neg hne, appendEscapedRune_plain pr b hb]
    have e : ((b :: s).drop (1 : Int).toNat) = s := rfl
    rw [e, ih m (by simp at hn; omega) (fun x hx => hall x (List.mem_cons_of_mem _ hx))]
    rfl

/-- The verb `%q` puts a text of digits, letters and underscores between double quotes
and changes nothing in it. -/
theorem sprintf_q_plain (pr : Int → Bool) (s : List Nat)
    (hall : ∀ x ∈ s, isNumber (x : Int) = true ∨ isAlpha (x : Int) = true) :
    fmt.Sprintf_q_string pr s = [0x22] ++ s ++ [0x22] := by
  unfold fmt.Sprintf_q_string strconv.Quote
  rw [quoteLoop_plain pr s s.length (le_refl _) hall]

/-- A digit run directly followed by a letter or an underscore: one ILLEGAL token that
quotes the run and that character, and then only EOF tokens. -/
theorem bad_number_run (pr : Int → Bool) (b : Nat) (d : List Nat) (a : Nat) (t : List Nat)
    (hdig : ∀ x ∈ b :: d, isNumber (x : Int) = true) (ha : isAlpha (a : Int) = true) (n : Nat) :
    ∃ l, (NewGoLex ((b :: d) ++ a :: t)).NextTokens pr (n + 1) =
      .ok ({ Kind := ILLEGAL,
             Literal := str "bad number syntax: " ++ ([0x22] ++ ((b :: d) ++ [a]) ++ [0x22]) }
        :: List.replicate n { Kind := EOF, Literal := [] }, l) := by
  have hd : ((b :: d) ++ a :: t).drop 0 = runesToString [] ++ ((b :: d) ++ a :: t) := rfl
  have h1 := NextToken_bad pr _ [] b d a t 0 0 false (Nat.zero_le _) (by simp) hdig ha hd
  have hq : ∀ x ∈ (b :: d) ++ [a], isNumber (x : Int) = true ∨ isAlpha (x : Int) = true := by
    intro x hx
    rcases List.mem_append.mp hx with hx | hx
    · exact Or.inl (hdig x hx)
    · rw [List.mem_singleton.mp hx]; exact Or.inr ha
  rw [sprintf_q_plain pr _ hq] at h1
  exact ⟨_, NextTokens_succ pr n _ _ _ _ _ h1 (NextTokens_finished pr _ _ _ _ _ n)⟩

/-- An input of whitespace characters only: every call returns the EOF token. -/
theorem whitespace_run (pr : Int → Bool) (ws : List Int) (hws : ∀ r ∈ ws, isSpace r = true)
    (n : Nat) :
    ∃ l, (NewGoLex (runesToString ws)).NextTokens pr n =
      .ok (List.replicate n { Kind := EOF, Literal := [] }, l) := by
  cases n with
  | zero => exact ⟨_, rfl⟩
  | succ n =>
    have h1 := NextToken_eof pr (runesToString ws) ws 0 0 false (Nat.zero_le _) hws rfl
    exact ⟨_, NextTokens_succ pr n _ _ _ _ _ h1 (NextTokens_finished pr _ _ _ _ _ n)⟩

/-- A rune that is none of the operator and delimiter characters is accepted by neither
`accept` of `lex`. -/
theorem not_operator_class (r : Int) (h : ∀ c ∈ str "=!;(),+-/*<>\x7b\x7d", r ≠ (c : Int)) :
    ¬ strings.IndexRune (str "!=") r ≥ 0 ∧ ¬ strings.IndexRune (str ";(),+-/*<>\x7b\x7d") r ≥ 0 := by
  rw [str_opchars] at h
  simp only [List.mem_cons, List.mem_singleton, List.not_mem_nil, or_false, forall_eq_or_imp,
    forall_eq] at h
  constructor
  · rw [indexRune_nonneg, str_ops2]
    simp only [List.mem_cons, List.mem_singleton, List.not_mem_nil, or_false]
    omega
  · rw [indexRune_nonneg, str_ops1]
    simp only [List.mem_cons, List.mem_singleton, List.not_mem_nil, or_false]
    omega

/-- A character that starts no token ends the scan: the call that meets it returns an
ILLEGAL token that quotes it, and every later call returns the EOF token. -/
theorem illegal_ends_scan (pr : Int → Bool) (inp : List Nat) (l : goLex)
    (hb : Boundary inp l) (hst : l.state ≠ none) (ws : List Int) (R : List Nat)
    (hws : ∀ r ∈ ws, isSpace r = true) (hd : inp.drop l.pos.toNat = runesToString ws ++ R)
    (hne : R ≠ []) (hS : isSpace (runeAt R) = false) (hL : isAlpha (runeAt R) = false)
    (hN : isNumber (runeAt R) = false)
    (hO : ∀ c ∈ str "=!;(),+-/*<>\x7b\x7d", runeAt R ≠ (c : Int)) (n : Nat) :
    ∃ l1, l.NextTokens pr (n + 1) =
      .ok ({ Kind := ILLEGAL,
             Literal := str "Illegal character: " ++ fmt.Sprintf_q_rune pr (runeAt R) }
        :: List.replicate n { Kind := EOF, Literal := [] }, l1) := by
  obtain ⟨hA, hB⟩ := not_operator_class _ hO
  cases hb with
  | ready p w cb hp =>
    have hd' : inp.drop p = runesToString ws ++ R := by
      simpa [cur] using hd
    have h1 := NextToken_illegal pr inp ws R p w cb hp hws hne hS hL hN hA hB hd'
    exact ⟨_, NextTokens_succ pr n _ _ _ _ _ h1 (NextTokens_finished pr _ _ _ _ _ n)⟩
  | finished s p w cb hs hp => exact absurd rfl hst

/-- A call that returns a token of kind EOF returns the EOF token and leaves a finished
lexer, on which every later call returns the EOF token and changes nothing. -/
theorem eof_absorbs (pr : Int → Bool) (inp : List Nat) (l l1 : goLex) (t : Token)
    (hb : Boundary inp l) (h : l.NextToken pr = .ok (t, l1)) (hk : t.Kind = EOF) (m : Nat) :
    t.Literal = [] ∧
      l1.NextTokens pr m = .ok (List.replicate m { Kind := EOF, Literal := [] }, l1) := by
  obtain ⟨t', l1', h', _, hcase⟩ := NextToken_boundary pr inp l hb
  rw [h] at h'
  cases h'
  rcases hcase with ⟨p, w, cb, _, _, hst⟩ | ⟨hs, he, hl⟩
  · cases hst with
    | token ws lit rest tok w cb hws hl hd => exact absurd hk (lexeme_kind lit _ hl).1
    | eof ws hws hd => exact ⟨rfl, NextTokens_finished pr _ _ _ _ _ m⟩
    | illegal ws bad rest msg w cb hws hb hd =>
      have hk' : ILLEGAL = EOF := hk
      exact absurd hk' (by decide)
  · subst he
    subst hl
    cases hb with
    | ready p w cb hp => cases hs
    | finished s p w cb hs hp => exact ⟨rfl, NextTokens_finished pr _ _ _ _ _ m⟩

/-- The first token of an input that starts, after whitespace, with a digit run that no
digit, letter or underscore follows. -/
theorem first_int (pr : Int → Bool) (ws : List Int) (b : Nat) (d t : List Nat)
    (hws : ∀ r ∈ ws, isSpace r = true) (hdig : ∀ x ∈ b :: d, isNumber (x : Int) = true)
    (ht : ∀ x, t.head? = some x → isNumber (x : Int) = false ∧ isAlpha (x : Int) = false) :
    ∃ l, (NewGoLex (runesToString ws ++ ((b :: d) ++ t))).NextToken pr =
      .ok ({ Kind := INT, Literal := b :: d }, l) :=
  ⟨_, NextToken_int pr _ ws b d t 0 0 false (Nat.zero_le _) hws hdig
    (runeAt_class_of_head' isNumber isNumber_small t (fun x hx => (ht x hx).1))
    (runeAt_class_of_head' isAlpha isAlpha_small t (fun x hx => (ht x hx).2)) rfl⟩

/-- A `-` in front of a digit run is a token of its own. -/
theorem minus_int (pr : Int → Bool) (b : Nat) (d t : List Nat)
    (hdig : ∀ x ∈ b :: d, isNumber (x : Int) = true)
    (ht : ∀ x, t.head? = some x → isNumber (x : Int) = false ∧ isAlpha (x : Int) = false) :
    ∃ l, (NewGoLex (45 :: ((b :: d) ++ t))).NextTokens pr 2 =
      .ok ([{ Kind := [45], Literal := [45] }, { Kind := INT, Literal := b :: d }], l) := by
  have h1 := NextToken_single pr (45 :: ((b :: d) ++ t)) [] 45 ((b :: d) ++ t) 0 0 false
    (Nat.zero_le _) (by simp) (by decide) rfl
  have h2 := NextToken_int pr (45 :: ((b :: d) ++ t)) [] b d t (0 + (runesToString []).length + 1)
    1 true (by simp [runesToString]) (by simp) hdig
    (runeAt_class_of_head' isNumber isNumber_small t (fun x hx => (ht x hx).1))
    (runeAt_class_of_head' isAlpha isAlpha_small t (fun x hx => (ht x hx).2)) rfl
  exact ⟨_, NextTokens_succ pr 1 _ _ _ _ _ h1
    (NextTokens_succ pr 0 _ _ _ _ _ h2 (NextTokens_zero pr _))⟩

end lexer

namespace lexer

open token

/-- The cursor of a lexer met between two calls is within the input. -/
theorem boundary_cursor (inp : List Nat) (l : goLex) (hb : Boundary inp l) :
    l.input = inp ∧ 0 ≤ l.start ∧ l.start ≤ l.pos ∧ l.pos ≤ (inp.length : Int) := by
  cases hb with
  | ready p w cb hp =>
    refine ⟨rfl, ?_, ?_, ?_⟩
    · show (0 : Int) ≤ (p : Int); omega
    · show (p : Int) ≤ (p : Int); omega
    · show (p : Int) ≤ (inp.length : Int); omega
  | finished s p w cb hs hp =>
    refine ⟨rfl, ?_, ?_, ?_⟩
    · show (0 : Int) ≤ (s : Int); omega
    · show (s : Int) ≤ (p : Int); omega
    · show (p : Int) ≤ (inp.length : Int); omega

/-- `backup` returns only right after a read; it moves `pos` back by the width of that read
and cannot be repeated. -/
theorem backup_after_read (l l1 : goLex) (h : l.backup = .ok l1) :
    l.canBackup = true ∧ l1.canBackup = false ∧ l1.pos = l.pos - l.width := by
  unfold goLex.backup at h
  split at h
  · rename_i hc
    cases h
    exact ⟨hc, rfl, rfl⟩
  · cases h

theorem removeSpaceLoop_fuel : ∀ (n m : Nat) (s : List Nat), s.length ≤ n → s.length ≤ m →
    removeSpaceLoop n s = removeSpaceLoop m s := by
  intro n
  induction n with
  | zero =>
    intro m s hn _
    have : s = [] := List.eq_nil_of_length_eq_zero (by omega)
    subst this
    cases m <;> rfl
  | succ n ih =>
    intro m s hn hm
    rcases s with _ | ⟨b, t⟩
    · cases m <;> rfl
    · obtain ⟨k, rfl⟩ : ∃ k, m = k + 1 := ⟨m - 1, by simp at hm; omega⟩
      have hw := widthAt_pos (b :: t) (by simp)
      have hl : ((b :: t).drop (widthAt (b :: t))).length ≤ t.length := by
        rw [List.length_drop]
        simp
        omega
      simp only [removeSpaceLoop]
      rw [ih k _ (by simp at hn; omega) (by simp at hm; omega)]

theorem removeSpace_nil : removeSpace [] = [] := rfl

theorem removeSpace_cons (b : Nat) (t : List Nat) :
    removeSpace (b :: t) =
      if isSpace (runeAt (b :: t)) then removeSpace ((b :: t).drop (widthAt (b :: t)))
      else (b :: t).take (widthAt (b :: t))
        ++ removeSpace ((b :: t).drop (widthAt (b :: t))) := by
  have hw := widthAt_pos (b :: t) (by simp)
  have hl : ((b :: t).drop (widthAt (b :: t))).length ≤ t.length := by
    rw [List.length_drop]
    simp
    omega
  unfold removeSpace
  simp only [List.length_cons, removeSpaceLoop]
  rw [removeSpaceLoop_fuel t.length _ _ hl (le_refl _)]

theorem removeSpace_space (r : Int) (t : List Nat) (h : isSpace r = true) :
    removeSpace (utf8.AppendRune r ++ t) = removeSpace t := by
  obtain ⟨h1, h2⟩ := runeAt_appendRune r t h
  have hpos := appendRune_length_pos r
  rcases hs : utf8.AppendRune r ++ t with _ | ⟨b, u⟩
  · have := congrArg List.length hs
    rw [List.length_append, List.length_nil] at this
    omega
  · rw [removeSpace_cons, ← hs, h1, h, if_pos rfl, h2, List.drop_left]

theorem removeSpace_byte (b : Nat) (t : List Nat) (hb : b < 0x80)
    (hs : isSpace (b : Int) = false) : removeSpace (b :: t) = b :: removeSpace t := by
  obtain ⟨h1, h2⟩ := runeAt_ascii b t hb
  rw [removeSpace_cons, h1, hs, h2]
  rfl

theorem removeSpace_spaces (ws : List Int) (hws : ∀ r ∈ ws, isSpace r = true) (t : List Nat) :
    removeSpace (runesToString ws ++ t) = removeSpace t := by
  induction ws with
  | nil => rfl
  | cons r ws ih =>
    simp only [runesToString, List.append_assoc]
    rw [removeSpace_space r _ (hws r (List.mem_cons_self _ _)),
      ih (fun x hx => hws x (List.mem_cons_of_mem _ hx))]

theorem removeSpace_bytes (lit : List Nat)
    (h : ∀ x ∈ lit, x < 0x80 ∧ isSpace (x : Int) = false) (t : List Nat) :
    removeSpace (lit ++ t) = lit ++ removeSpace t := by
  induction lit with
  | nil => rfl
  | cons b lit ih =>
    obtain ⟨h1, h2⟩ := h b (List.mem_cons_self _ _)
    rw [List.cons_append, removeSpace_byte b _ h1 h2,
      ih (fun x hx => h x (List.mem_cons_of_mem _ hx))]
    rfl

theorem operators_plain : ∀ lit ∈ operators, ∀ x ∈ lit, x < 0x80 ∧ isSpace (x : Int) = false := by
  decide

/-- The text of a lexeme is made of ASCII characters that are no whitespace. -/
theorem lexeme_plain (lit : List Nat) (tok : Token) (h : Lexeme lit tok) :
    ∀ x ∈ lit, x < 0x80 ∧ isSpace (x : Int) = false := by
  cases h with
  | op lit h => exact operators_plain lit h
  | ident b a h =>
    intro x hx
    have h1 := h x hx
    have h2 := isAlpha_small _ h1
    exact ⟨by omega, (isAlpha_class _ h1).2.2.1⟩
  | int b d h =>
    intro x hx
    have h1 := h x hx
    have h2 := isNumber_small _ h1
    exact ⟨by omega, (isNumber_class _ h1).2.2.1⟩

theorem beforeEnd_cons_of_lexeme (lit : List Nat) (t : Token) (ts : List Token)
    (h : Lexeme lit t) : beforeEnd (t :: ts) = t :: beforeEnd ts := by
  obtain ⟨h1, h2, _, _⟩ := lexeme_kind lit t h
  unfold beforeEnd
  rw [List.takeWhile_cons_of_pos]
  simp only [decide_eq_true_eq]
  exact ⟨h2, h1⟩

theorem beforeEnd_cons_eof (t : Token) (ts : List Token) (h : t.Kind = EOF ∨ t.Kind = ILLEGAL) :
    beforeEnd (t :: ts) = [] := by
  unfold beforeEnd
  rw [List.takeWhile_cons_of_neg]
  simp only [decide_eq_true_eq]
  rintro ⟨h1, h2⟩
  rcases h with h | h
  · exact h2 h
  · exact h1 h

/-- The tokens returned before the first ILLEGAL or EOF token lie in the unread input in
source order, each after a gap of whitespace characters only. -/
theorem tokens_in_order (pr : Int → Bool) (inp : List Nat) :
    ∀ (n p w : Nat) (cb : Bool) (ts : List Token) (l : goLex), p ≤ inp.length →
      (cur (some stateFn.lex) inp p p w [] cb).NextTokens pr n = .ok (ts, l) →
      ∃ (gaps : List (List Int)) (rest : List Nat),
        gaps.length = (beforeEnd ts).length ∧ (∀ g ∈ gaps, ∀ r ∈ g, isSpace r = true) ∧
        (∀ t ∈ beforeEnd ts, t.Literal ≠ []) ∧
        inp.drop p = interleave gaps ((beforeEnd ts).map Token.Literal) ++ rest := by
  intro n
  induction n with
  | zero =>
    intro p w cb ts l _ h
    rw [NextTokens_zero] at h
    cases h
    exact ⟨[], inp.drop p, rfl, by simp, by simp [beforeEnd], rfl⟩
  | succ n ih =>
    intro p w cb ts l hp h
    obtain ⟨t, l1, ts1, h1, h2, rfl⟩ := NextTokens_succ_inv pr n _ l ts h
    obtain ⟨t', l1', h1', hst⟩ := NextToken_step pr inp p w cb hp
    rw [h1] at h1'
    cases h1'
    cases hst with
    | token ws lit rest tok w1 cb1 hws hl hd =>
      have hq1 := le_length_of_drop inp _ _ p hp hd
      have hdq1 := drop_add_of_eq inp _ _ p hd
      have hq2 := le_length_of_drop inp _ _ _ hq1 hdq1
      have hdq2 := drop_add_of_eq inp _ _ _ hdq1
      obtain ⟨gaps, rest1, g1, g2, g3, g4⟩ := ih _ w1 cb1 ts1 l hq2 h2
      obtain ⟨_, _, k3, k4⟩ := lexeme_kind lit _ hl
      rw [beforeEnd_cons_of_lexeme lit _ ts1 hl]
      refine ⟨ws :: gaps, rest1, by simp [g1], ?_, ?_, ?_⟩
      · intro g hg
        rcases List.mem_cons.mp hg with rfl | hg
        · exact hws
        · exact g2 g hg
      · intro x hx
        rcases List.mem_cons.mp hx with rfl | hx
        · rw [k3]; exact k4
        · exact g3 x hx
      · rw [hd, ← hdq2, g4]
        simp only [List.map_cons, interleave, List.append_assoc, k3]
    | eof ws hws hd =>
      rw [beforeEnd_cons_eof _ ts1 (Or.inl rfl)]
      exact ⟨[], inp.drop p, rfl, by simp, by simp, rfl⟩
    | illegal ws bad rest msg w1 cb1 hws hb hd =>
      rw [beforeEnd_cons_eof _ ts1 (Or.inr rfl)]
      exact ⟨[], inp.drop p, rfl, by simp, by simp, rfl⟩

/-- Where the calls reach the EOF token without an ILLEGAL token, the literals of the
tokens before it are, in a row, the unread input without its whitespace characters. -/
theorem literals_concat (pr : Int → Bool) (inp : List Nat) :
    ∀ (n p w : Nat) (cb : Bool) (ts : List Token) (l : goLex), p ≤ inp.length →
      (cur (some stateFn.lex) inp p p w [] cb).NextTokens pr n = .ok (ts, l) →
      (∃ t ∈ ts, t.Kind = EOF) → (∀ t ∈ ts, t.Kind ≠ ILLEGAL) →
      ((beforeEnd ts).map Token.Literal).flatten = removeSpace (inp.drop p) := by
  intro n
  induction n with
  | zero =>
    intro p w cb ts l _ h he _
    rw [NextTokens_zero] at h
    cases h
    obtain ⟨t, ht, _⟩ := he
    cases ht
  | succ n ih =>
    intro p w cb ts l hp h he hi
    obtain ⟨t, l1, ts1, h1, h2, rfl⟩ := NextTokens_succ_inv pr n _ l ts h
    obtain ⟨t', l1', h1', hst⟩ := NextToken_step pr inp p w cb hp
    rw [h1] at h1'
    cases h1'
    cases hst with
    | token ws lit rest tok w1 cb1 hws hl hd =>
      have hq1 := le_length_of_drop inp _ _ p hp hd
      have hdq1 := drop_add_of_eq inp _ _ p hd
      have hq2 := le_length_of_drop inp _ _ _ hq1 hdq1
      have hdq2 := drop_add_of_eq inp _ _ _ hdq1
      obtain ⟨k1, _, k3, _⟩ := lexeme_kind lit _ hl
      have he1 : ∃ t ∈ ts1, t.Kind = EOF := by
        obtain ⟨x, hx, hxk⟩ := he
        rcases List.mem_cons.mp hx with rfl | hx
        · exact absurd hxk k1
        · exact ⟨x, hx, hxk⟩
      have e := ih _ w1 cb1 ts1 l hq2 h2 he1 (fun x hx => hi x (List.mem_cons_of_mem _ hx))
      rw [beforeEnd_cons_of_lexeme lit _ ts1 hl, hd, removeSpace_spaces ws hws,
        removeSpace_bytes lit (lexeme_plain lit _ hl), ← hdq2, ← e]
      simp only [List.map_cons, List.flatten_cons, k3]
    | eof ws hws hd =>
      have hd' : inp.drop p = runesToString ws ++ [] := by rw [List.append_nil]; exact hd
      rw [beforeEnd_cons_eof _ ts1 (Or.inl rfl), hd', removeSpace_spaces ws hws]
      rfl
    | illegal ws bad rest msg w1 cb1 hws hb hd =>
      exact absurd rfl (hi _ (List.mem_cons_self _ _))

end lexer

/-! ## The properties -/

namespace lexer

open token

/-- C1: for every input made only of the characters `= ! ; ( ) , + - / * < > { }` in which
no `=` directly follows a `=` or a `!`, `len(input) + 1` calls of `NextToken` return one
token per character, in source order, each with kind and literal equal to that one
character, and then the EOF token. -/
theorem C1_one_token_per_operator_character (pr : Int → Bool) (cs : List Nat)
    (hmem : ∀ c ∈ cs, c ∈ str "=!;(),+-/*<>\x7b\x7d")
    (hch : noEqualsAfter cs = true) :
    ∃ l, (NewGoLex cs).NextTokens pr (cs.length + 1) =
      .ok (cs.map (fun c => ({ Kind := [c], Literal := [c] } : Token))
        ++ [{ Kind := EOF, Literal := [] }], l) :=
  ops_run pr cs cs 0 0 false (Nat.zero_le _) rfl hmem hch

/-- C1 at the input `=+(){},;`: the kinds are `=`, `+`, `(`, `)`, `{`, `}`, `,`, `;`, EOF. -/
theorem C1_one_token_per_operator_character_witness :
    ∃ l, (NewGoLex (str "=+()\x7b\x7d,;")).NextTokens (fun _ => true) 9 =
      .ok ([{ Kind := str "=", Literal := str "=" }, { Kind := str "+", Literal := str "+" },
        { Kind := str "(", Literal := str "(" }, { Kind := str ")", Literal := str ")" },
        { Kind := str "\x7b", Literal := str "\x7b" }, { Kind := str "\x7d", Literal := str "\x7d" },
        { Kind := str ",", Literal := str "," }, { Kind := str ";", Literal := str ";" },
        { Kind := EOF, Literal := [] }], l) :=
  C1_one_token_per_operator_character (fun _ => true) (str "=+()\x7b\x7d,;") (by decide) (by decide)

/-- C2: the two-character operators are matched greedily: an input whose first characters
after whitespace are `==` (or `!=`) gives that operator as first token, with kind equal to
literal, whatever follows; a `=` or `!` that no `=` follows gives the single character. -/
theorem C2_two_character_operators_greedy (pr : Int → Bool) (ws : List Int) (c : Nat)
    (t : List Nat) (hws : ∀ r ∈ ws, isSpace r = true) (hc : c = 33 ∨ c = 61) :
    (∃ l, (NewGoLex (runesToString ws ++ c :: 61 :: t)).NextToken pr =
        .ok ({ Kind := [c, 61], Literal := [c, 61] }, l)) ∧
      (t.head? ≠ some 61 →
        ∃ l, (NewGoLex (runesToString ws ++ c :: t)).NextToken pr =
          .ok ({ Kind := [c], Literal := [c] }, l)) :=
  ⟨⟨_, NextToken_op2 pr _ ws c t 0 0 false (Nat.zero_le _) hws hc rfl⟩,
    fun ht => ⟨_, NextToken_op1 pr _ ws c t 0 0 false (Nat.zero_le _) hws hc
      (runeAt_ne_of_head t 61 (by omega) ht) rfl⟩⟩

/-- C2 at the inputs ` !==` and ` !x`. -/
theorem C2_two_character_operators_greedy_witness :
    (∃ l, (NewGoLex (str " !==")).NextToken (fun _ => true) =
        .ok ({ Kind := str "!=", Literal := str "!=" }, l)) ∧
      (∃ l, (NewGoLex (str " !x")).NextToken (fun _ => true) =
        .ok ({ Kind := str "!", Literal := str "!" }, l)) :=
  ⟨(C2_two_character_operators_greedy (fun _ => true) [0x20] 33 (str "=") (by decide)
      (by decide)).1,
    (C2_two_character_operators_greedy (fun _ => true) [0x20] 33 (str "x") (by decide)
      (by decide)).2 (by decide)⟩

/-- C3: identifiers are scanned by maximal munch: for an input that starts, after
whitespace, with a letter or underscore `b`, the first token's literal is `b` and the longest
run of letters and underscores after it, its kind is `LookupIdent` of that literal, the
literal holds no digit, and the character after it, if any, is no letter or underscore. -/
theorem C3_identifier_maximal_munch (pr : Int → Bool) (ws : List Int) (b : Nat) (s : List Nat)
    (hws : ∀ r ∈ ws, isSpace r = true) (hb : isAlpha (b : Int) = true) :
    (∃ l, (NewGoLex (runesToString ws ++ b :: s)).NextToken pr =
        .ok ({ Kind := LookupIdent (b :: s.takeWhile (fun x : Nat => isAlpha (x : Int))),
               Literal := b :: s.takeWhile (fun x : Nat => isAlpha (x : Int)) }, l)) ∧
      b :: s = (b :: s.takeWhile (fun x : Nat => isAlpha (x : Int)))
        ++ s.dropWhile (fun x : Nat => isAlpha (x : Int)) ∧
      (∀ x ∈ b :: s.takeWhile (fun x : Nat => isAlpha (x : Int)),
        isAlpha (x : Int) = true ∧ isNumber (x : Int) = false) ∧
      (∀ x, (s.dropWhile (fun x : Nat => isAlpha (x : Int))).head? = some x →
        isAlpha (x : Int) = false) := by
  refine ⟨first_ident pr ws b s hws hb, by simp [List.takeWhile_append_dropWhile], ?_, ?_⟩
  · intro x hx
    have hx' : isAlpha (x : Int) = true := by
      rcases List.mem_cons.mp hx with rfl | hx
      · exact hb
      · exact @List.mem_takeWhile_imp Nat (fun x : Nat => isAlpha (x : Int)) s x hx
    exact ⟨hx', (isAlpha_class _ hx').2.2.2⟩
  · intro x hx
    rcases hs : s.dropWhile (fun x : Nat => isAlpha (x : Int)) with _ | ⟨y, u⟩
    · rw [hs] at hx; cases hx
    · rw [hs] at hx
      cases hx
      exact dropWhile_head (fun x : Nat => isAlpha (x : Int)) s x u hs

/-- C3 at the input ` let_x1 = 5`: the identifier `let_x` stops in front of the digit. -/
theorem C3_identifier_maximal_munch_witness :
    ∃ l, (NewGoLex (str " let_x1 = 5")).NextToken (fun _ => true) =
      .ok ({ Kind := IDENT, Literal := str "let_x" }, l) :=
  (C3_identifier_maximal_munch (fun _ => true) [0x20] 108 (str "et_x1 = 5") (by decide)
    (by decide)).1

/-- C4: integer literals are raw digit runs without sign: a non-empty run `b :: d` of digits
that is followed by the end of the input or by a character that is no digit, letter or
underscore gives the token INT with exactly that literal; a `-` in front of it is a token
of its own; and every INT token ever returned, on any input, has a non-empty literal of
digits only. -/
theorem C4_integer_literals_are_digit_runs (pr : Int → Bool) (ws : List Int) (b : Nat)
    (d t : List Nat) (hws : ∀ r ∈ ws, isSpace r = true)
    (hdig : ∀ x ∈ b :: d, isNumber (x : Int) = true)
    (ht : ∀ x, t.head? = some x → isNumber (x : Int) = false ∧ isAlpha (x : Int) = false) :
    (∃ l, (NewGoLex (runesToString ws ++ ((b :: d) ++ t))).NextToken pr =
        .ok ({ Kind := INT, Literal := b :: d }, l)) ∧
      (∃ l, (NewGoLex (45 :: ((b :: d) ++ t))).NextTokens pr 2 =
        .ok ([{ Kind := [45], Literal := [45] }, { Kind := INT, Literal := b :: d }], l)) ∧
      (∀ (input : List Nat) (n : Nat) (ts : List Token) (l : goLex),
        (NewGoLex input).NextTokens pr n = .ok (ts, l) →
        ∀ tok ∈ ts, tok.Kind = INT →
          tok.Literal ≠ [] ∧ ∀ x ∈ tok.Literal, isNumber (x : Int) = true) :=
  ⟨first_int pr ws b d t hws hdig ht, minus_int pr b d t hdig ht,
    fun input n ts l h tok htok hk => int_tokens_digits pr input n ts l h tok htok hk⟩

/-- C4 at the inputs `15;` and `-15;`. -/
theorem C4_integer_literals_are_digit_runs_witness :
    (∃ l, (NewGoLex (str "15;")).NextToken (fun _ => true) =
        .ok ({ Kind := INT, Literal := str "15" }, l)) ∧
      (∃ l, (NewGoLex (str "-15;")).NextTokens (fun _ => true) 2 =
        .ok ([{ Kind := str "-", Literal := str "-" }, { Kind := INT, Literal := str "15" }],
          l)) :=
  ⟨(C4_integer_literals_are_digit_runs (fun _ => true) [] 49 [53] (str ";") (by decide)
      (by decide) (by decide)).1,
    (C4_integer_literals_are_digit_runs (fun _ => true) [] 49 [53] (str ";") (by decide)
      (by decide) (by decide)).2.1⟩

/-- C5: a malformed number gives a single ILLEGAL token: for every input that starts with
a non-empty digit run `b :: d` directly followed by a letter or underscore `a`, the first
call returns an ILLEGAL token whose literal is `bad number syntax: ` and, in double
quotes, the digit run with the character `a`; every later call returns the EOF token, so
there is no INT and no identifier token. -/
theorem C5_malformed_number_single_illegal (pr : Int → Bool) (b : Nat) (d : List Nat) (a : Nat)
    (t : List Nat) (hdig : ∀ x ∈ b :: d, isNumber (x : Int) = true)
    (ha : isAlpha (a : Int) = true) (n : Nat) :
    ∃ l, (NewGoLex ((b :: d) ++ a :: t)).NextTokens pr (n + 1) =
      .ok ({ Kind := ILLEGAL,
             Literal := str "bad number syntax: " ++ ([0x22] ++ ((b :: d) ++ [a]) ++ [0x22]) }
        :: List.replicate n { Kind := EOF, Literal := [] }, l) :=
  bad_number_run pr b d a t hdig ha n

/-- C5 at the input `12abc`. -/
theorem C5_malformed_number_single_illegal_witness :
    ∃ l, (NewGoLex (str "12abc")).NextTokens (fun _ => true) 3 =
      .ok ([{ Kind := ILLEGAL, Literal := str "bad number syntax: \"12a\"" },
        { Kind := EOF, Literal := [] }, { Kind := EOF, Literal := [] }], l) :=
  C5_malformed_number_single_illegal (fun _ => true) 49 [50] 97 (str "bc") (by decide)
    (by decide) 2

/-- C6 as stated fails: on the input `@+` the calls return ILLEGAL, EOF, EOF; the `+`
behind the unrecognized character is never returned. -/
theorem C6_lexical_errors_recoverable_counterexample :
    ((NewGoLex (str "@+")).NextTokens (fun _ => true) 3).map Prod.fst =
        .ok [{ Kind := ILLEGAL, Literal := str "Illegal character: '@'" },
          { Kind := EOF, Literal := [] }, { Kind := EOF, Literal := [] }] ∧
      ((NewGoLex (str "@+")).NextTokens (fun _ => true) 3).map Prod.fst ≠
        .ok [{ Kind := ILLEGAL, Literal := str "Illegal character: '@'" },
          { Kind := str "+", Literal := str "+" }, { Kind := EOF, Literal := [] }] := by
  decide

/-- C6 as amended: where a token is expected (the scan has not ended) and, after
whitespace, an unrecognized character stands (no whitespace, operator, delimiter, letter,
underscore or digit), `NextToken` returns an ILLEGAL token whose literal quotes that
character, and the scan ends there: every later call returns the EOF token. -/
theorem C6_illegal_character_ends_scan (pr : Int → Bool) (input : List Nat) (k : Nat)
    (ts : List Token) (l : goLex) (ws : List Int) (R : List Nat) (n : Nat)
    (hreach : (NewGoLex input).NextTokens pr k = .ok (ts, l)) (hst : l.state ≠ none)
    (hws : ∀ r ∈ ws, isSpace r = true)
    (hd : input.drop l.pos.toNat = runesToString ws ++ R) (hne : R ≠ [])
    (hS : isSpace (runeAt R) = false) (hL : isAlpha (runeAt R) = false)
    (hN : isNumber (runeAt R) = false)
    (hO : ∀ c ∈ str "=!;(),+-/*<>\x7b\x7d", runeAt R ≠ (c : Int)) :
    ∃ l1, l.NextTokens pr (n + 1) =
      .ok ({ Kind := ILLEGAL,
             Literal := str "Illegal character: " ++ fmt.Sprintf_q_rune pr (runeAt R) }
        :: List.replicate n { Kind := EOF, Literal := [] }, l1) :=
  illegal_ends_scan pr input l (reachable_boundary pr input k ts l hreach) hst ws R hws hd hne
    hS hL hN hO n

/-- C6 as amended at the input `+ @+`, after one call: ILLEGAL, then EOF twice. -/
theorem C6_illegal_character_ends_scan_witness :
    ∃ l1, (cur (some stateFn.lex) (str "+ @+") 1 1 1 [] true).NextTokens (fun _ => true) 3 =
      .ok ([{ Kind := ILLEGAL, Literal := str "Illegal character: '@'" },
        { Kind := EOF, Literal := [] }, { Kind := EOF, Literal := [] }], l1) :=
  C6_illegal_character_ends_scan (fun _ => true) (str "+ @+") 1
    [{ Kind := str "+", Literal := str "+" }] (cur (some stateFn.lex) (str "+ @+") 1 1 1 [] true)
    [0x20] (str "@+") 2 (by decide) (by decide) (by decide) (by decide) (by decide) (by decide)
    (by decide) (by decide) (by decide)

/-- C7: for every input that consists of whitespace characters only (the empty input
too), the first call and every later call of `NextToken` return the EOF token with empty
literal; no token of another kind is returned. -/
theorem C7_whitespace_only_gives_eof (pr : Int → Bool) (ws : List Int)
    (hws : ∀ r ∈ ws, isSpace r = true) (n : Nat) :
    ∃ l, (NewGoLex (runesToString ws)).NextTokens pr n =
      .ok (List.replicate n { Kind := EOF, Literal := [] }, l) :=
  whitespace_run pr ws hws n

/-- C7 at the input of a space, a tab, a line feed and the character U+2003. -/
theorem C7_whitespace_only_gives_eof_witness :
    ∃ l, (NewGoLex (str " \t\n" ++ [0xE2, 0x80, 0x83])).NextTokens (fun _ => true) 2 =
      .ok ([{ Kind := EOF, Literal := [] }, { Kind := EOF, Literal := [] }], l) :=
  C7_whitespace_only_gives_eof (fun _ => true) [0x20, 0x09, 0x0A, 0x2003] (by decide) 2

/-- C8: EOF is absorbing: on every input and after any number of calls, once a call of
`NextToken` returns a token of kind EOF, its literal is empty and every later call returns
the EOF token and leaves the lexer, its cursor included, as it is. -/
theorem C8_eof_is_absorbing (pr : Int → Bool) (input : List Nat) (k : Nat) (ts : List Token)
    (l l1 : goLex) (t : Token) (m : Nat)
    (hreach : (NewGoLex input).NextTokens pr k = .ok (ts, l))
    (hcall : l.NextToken pr = .ok (t, l1)) (hk : t.Kind = EOF) :
    t.Literal = [] ∧
      l1.NextTokens pr m = .ok (List.replicate m { Kind := EOF, Literal := [] }, l1) :=
  eof_absorbs pr input l l1 t (reachable_boundary pr input k ts l hreach) hcall hk m

/-- C8 at the input `a `: the second call returns EOF, and so do the next three. -/
theorem C8_eof_is_absorbing_witness :
    (cur none (str "a ") 2 2 0 [] false).NextTokens (fun _ => true) 3 =
      .ok (List.replicate 3 { Kind := EOF, Literal := [] }, cur none (str "a ") 2 2 0 [] false) :=
  (C8_eof_is_absorbing (fun _ => true) (str "a ") 1 [{ Kind := IDENT, Literal := str "a" }]
    (cur (some stateFn.lex) (str "a ") 1 1 1 [] false) (cur none (str "a ") 2 2 0 [] false)
    { Kind := EOF, Literal := [] } 3 (by decide) (by decide) (by decide)).2

/-- C9: token literals are the exact source text in source order: on every input and
after any number of calls, the tokens returned before the first ILLEGAL or EOF token have
non-empty literals that lie in the input one after the other, each after a gap that holds
whitespace characters only (`input = gap, literal, gap, literal, ..., rest`); and where
the calls reach the EOF token without an ILLEGAL token, the literals of the tokens before
EOF, in a row, are the input without its whitespace characters. -/
theorem C9_literals_are_source_text (pr : Int → Bool) (input : List Nat) (n : Nat)
    (ts : List Token) (l : goLex) (h : (NewGoLex input).NextTokens pr n = .ok (ts, l)) :
    (∃ (gaps : List (List Int)) (rest : List Nat),
        gaps.length = (beforeEnd ts).length ∧ (∀ g ∈ gaps, ∀ r ∈ g, isSpace r = true) ∧
        (∀ t ∈ beforeEnd ts, t.Literal ≠ []) ∧
        input = interleave gaps ((beforeEnd ts).map Token.Literal) ++ rest) ∧
      ((∃ t ∈ ts, t.Kind = EOF) → (∀ t ∈ ts, t.Kind ≠ ILLEGAL) →
        ((beforeEnd ts).map Token.Literal).flatten = removeSpace input) :=
  ⟨tokens_in_order pr input n 0 0 false ts l (Nat.zero_le _) h,
    literals_concat pr input n 0 0 false ts l (Nat.zero_le _) h⟩

/-- C9 at the input ` a =<tab>1;`: the literals `a`, `=`, `1`, `;` in a row are the input
without its whitespace. -/
theorem C9_literals_are_source_text_witness :
    [str "a", str "=", str "1", str ";"].flatten = removeSpace (str " a =\t1;") :=
  (C9_literals_are_source_text (fun _ => true) (str " a =\t1;") 5
    [{ Kind := IDENT, Literal := str "a" }, { Kind := str "=", Literal := str "=" },
      { Kind := INT, Literal := str "1" }, { Kind := str ";", Literal := str ";" },
      { Kind := EOF, Literal := [] }]
    (cur none (str " a =\t1;") 7 7 0 [] false) (by decide)).2
    ⟨{ Kind := EOF, Literal := [] }, by decide, rfl⟩ (by decide)

/-- C10: the cursor invariant `0 <= start <= pos <= len(input)` holds for a fresh lexer and
after any number of calls of `NextToken`, on every input (every byte sequence, invalid
UTF-8 included) and on the error paths; the calls return without a fault, so no slice is
out of range and every `backup` comes right after a read; and `backup` returns only right
after a read, which it undoes by moving `pos` back by that read's width, once. -/
theorem C10_cursor_invariant (pr : Int → Bool) (input : List Nat) (n : Nat) :
    (∃ (ts : List Token) (l : goLex), (NewGoLex input).NextTokens pr n = .ok (ts, l) ∧
        l.input = input ∧ 0 ≤ l.start ∧ l.start ≤ l.pos ∧ l.pos ≤ (input.length : Int)) ∧
      (∀ l0 l1 : goLex, l0.backup = .ok l1 →
        l0.canBackup = true ∧ l1.canBackup = false ∧ l1.pos = l0.pos - l0.width) := by
  obtain ⟨ts, l, h, hb⟩ := NextTokens_boundary pr input n _ (NewGoLex_boundary input)
  exact ⟨⟨ts, l, h, boundary_cursor input l hb⟩, backup_after_read⟩

end lexer

/-! ## Rendering of the syntax tree -/

namespace ast

open token

theorem writeString_foldl (xs : List (List Nat)) (acc : List Nat) :
    xs.foldl (fun buffer s => buffer ++ s) acc = acc ++ xs.flatten := by
  induction xs generalizing acc with
  | nil => simp
  | cons x xs ih => simp [List.foldl_cons, ih, List.append_assoc]

theorem writeString_flatten (xs : List (List Nat)) : writeString xs = xs.flatten := by
  unfold writeString
  rw [writeString_foldl]
  rfl

theorem writeString_append (xs ys : List (List Nat)) :
    writeString (xs ++ ys) = writeString xs ++ writeString ys := by
  simp [writeString_flatten]

theorem string_prefixExpression (t : Token) (op : List Nat) (r : Expression) :
    (Expression.PrefixExpression t op r).String = 40 :: (op ++ (r.String ++ [41])) := by
  simp [Expression.String, writeString_flatten, str]

theorem string_infixExpression (t : Token) (l : Expression) (op : List Nat) (r : Expression) :
    (Expression.InfixExpression t l op r).String =
      40 :: (l.String ++ (32 :: (op ++ (32 :: (r.String ++ [41]))))) := by
  simp [Expression.String, writeString_flatten, str]

/-- A `LetStatement` without value renders as the token literal and ` = ;`: the name is
not written. -/
theorem string_let_nil (t : Token) (name : Option Identifier) :
    (Statement.LetStatement t name Expression.nil).String = t.Literal ++ Monkey.str " = ;" := by
  simp [Statement.String, writeString_flatten, str]

theorem program_string_append (xs ys : List Statement) :
    Program.String { Statements := xs ++ ys } =
      Program.String { Statements := xs } ++ Program.String { Statements := ys } := by
  simp [Program.String, writeString_append]

/-- Two runs of bytes of one class that end where the class ends are equal when the texts
they start are equal. -/
theorem run_unique (P : Nat → Bool) : ∀ (v1 v2 r1 r2 : List Nat),
    (∀ x ∈ v1, P x = true) → (∀ x ∈ v2, P x = true) →
    (∀ x, r1.head? = some x → P x = false) → (∀ x, r2.head? = some x → P x = false) →
    v1 ++ r1 = v2 ++ r2 → v1 = v2 ∧ r1 = r2 := by
  intro v1
  induction v1 with
  | nil =>
    intro v2 r1 r2 _ h2 hr1 _ h
    rcases v2 with _ | ⟨y, v2⟩
    · exact ⟨rfl, h⟩
    · simp only [List.nil_append, List.cons_append] at h
      have := hr1 y (by rw [h]; rfl)
      rw [h2 y (List.mem_cons_self _ _)] at this
      exact absurd this (by decide)
  | cons x v1 ih =>
    intro v2 r1 r2 h1 h2 hr1 hr2 h
    rcases v2 with _ | ⟨y, v2⟩
    · simp only [List.nil_append, List.cons_append] at h
      have := hr2 x (by rw [← h]; rfl)
      rw [h1 x (List.mem_cons_self _ _)] at this
      exact absurd this (by decide)
    · simp only [List.cons_append, List.cons.injEq] at h
      obtain ⟨rfl, h⟩ := h
      obtain ⟨e1, e2⟩ := ih v2 r1 r2 (fun z hz => h1 z (List.mem_cons_of_mem _ hz))
        (fun z hz => h2 z (List.mem_cons_of_mem _ hz)) hr1 hr2 h
      exact ⟨by rw [e1], e2⟩

/-- The rendering of a well-formed tree starts with a letter, an underscore, a digit or
`(`. -/
theorem string_head (e : Expression) (h : e.WellFormed) :
    ∃ c t, e.String = c :: t ∧
      (lexer.isAlpha (c : Int) = true ∨ lexer.isNumber (c : Int) = true ∨ c = 40) := by
  cases e with
  | nil => exact absurd h (by simp [Expression.WellFormed])
  | Identifier t v =>
    obtain ⟨h1, h2⟩ := h
    rcases v with _ | ⟨c, v⟩
    · exact absurd rfl h1
    · exact ⟨c, v, rfl, Or.inl (h2 c (List.mem_cons_self _ _))⟩
  | IntegerLiteral t n =>
    obtain ⟨h1, h2⟩ := h
    rcases hl : t.Literal with _ | ⟨c, v⟩
    · exact absurd hl h1
    · refine ⟨c, v, hl, Or.inr (Or.inl (h2 c ?_))⟩
      rw [hl]
      exact List.mem_cons_self _ _
  | PrefixExpression t op r => exact ⟨40, _, string_prefixExpression t op r, Or.inr (Or.inr rfl)⟩
  | InfixExpression t l op r =>
    exact ⟨40, _, string_infixExpression t l op r, Or.inr (Or.inr rfl)⟩

theorem head_not_operator (c : Nat)
    (h : lexer.isAlpha (c : Int) = true ∨ lexer.isNumber (c : Int) = true ∨ c = 40) :
    c ≠ 33 ∧ c ≠ 45 := by
  unfold lexer.isAlpha lexer.isNumber at h
  simp only [decide_eq_true_eq] at h
  omega

theorem stop_space (t : List Nat) :
    ∀ x, (32 :: t).head? = some x →
      lexer.isAlpha (x : Int) = false ∧ lexer.isNumber (x : Int) = false := by
  intro x hx
  cases hx
  decide

theorem stop_paren (t : List Nat) :
    ∀ x, (41 :: t).head? = some x →
      lexer.isAlpha (x : Int) = false ∧ lexer.isNumber (x : Int) = false := by
  intro x hx
  cases hx
  decide

theorem binaryOperator_cases (op : List Nat) (h : op ∈ binaryOperators) :
    op = [61, 61] ∨ op = [33, 61] ∨ op = [60] ∨ op = [62] ∨ op = [43] ∨ op = [45] ∨ op = [42]
      ∨ op = [47] := by
  have e : binaryOperators = [[61, 61], [33, 61], [60], [62], [43], [45], [42], [47]] := by
    decide
  rw [e] at h
  simpa using h

/-- An infix operator followed by a space is read off the text in one way only. -/
theorem operator_unique (o1 o2 x1 x2 : List Nat) (h1 : o1 ∈ binaryOperators)
    (h2 : o2 ∈ binaryOperators) (h : o1 ++ 32 :: x1 = o2 ++ 32 :: x2) : o1 = o2 ∧ x1 = x2 := by
  rcases binaryOperator_cases o1 h1 with rfl | rfl | rfl | rfl | rfl | rfl | rfl | rfl <;>
  rcases binaryOperator_cases o2 h2 with rfl | rfl | rfl | rfl | rfl | rfl | rfl | rfl <;>
  simp at h <;> simp [h]

/-- The rendering of well-formed trees is read back in one way only: where two renderings
start equal texts and each is followed by no letter, underscore or digit, the trees have
the same shape and the texts after them are equal. -/
theorem string_unique : ∀ (e1 : Expression), e1.WellFormed →
    ∀ (e2 : Expression) (r1 r2 : List Nat), e2.WellFormed →
      (∀ x, r1.head? = some x →
        lexer.isAlpha (x : Int) = false ∧ lexer.isNumber (x : Int) = false) →
      (∀ x, r2.head? = some x →
        lexer.isAlpha (x : Int) = false ∧ lexer.isNumber (x : Int) = false) →
      e1.String ++ r1 = e2.String ++ r2 → e1.SameShape e2 ∧ r1 = r2 := by
  intro e1
  induction e1 with
  | nil => intro h; exact absurd h (by simp [Expression.WellFormed])
  | Identifier t1 v1 =>
    intro h1 e2 r1 r2 h2 hr1 hr2 h
    obtain ⟨hne, hall⟩ := h1
    rcases v1 with _ | ⟨c, v1⟩
    · exact absurd rfl hne
    have hc := hall c (List.mem_cons_self _ _)
    obtain ⟨c2, u2, hs2, hk2⟩ := string_head e2 h2
    have hcc : c = c2 := by
      rw [hs2] at h
      simp only [Expression.String, List.cons_append, List.cons.injEq] at h
      exact h.1
    subst hcc
    cases e2 with
    | nil => exact absurd h2 (by simp [Expression.WellFormed])
    | Identifier t2 v2 =>
      obtain ⟨_, hall2⟩ := h2
      obtain ⟨e, er⟩ := run_unique (fun x => lexer.isAlpha (x : Int)) (c :: v1) v2 r1 r2 hall
        hall2 (fun x hx => (hr1 x hx).1) (fun x hx => (hr2 x hx).1) h
      exact ⟨e, er⟩
    | IntegerLiteral t2 n2 =>
      obtain ⟨_, hall2⟩ := h2
      have hd : lexer.isNumber (c : Int) = true := by
        apply hall2
        have : t2.Literal = c :: u2 := hs2
        rw [this]
        exact List.mem_cons_self _ _
      exact absurd hd (by rw [(lexer.isAlpha_class _ hc).2.2.2]; decide)
    | PrefixExpression t2 op2 x2 =>
      rw [string_prefixExpression] at hs2
      obtain ⟨rfl, _⟩ := List.cons.inj hs2
      exact absurd hc (by decide)
    | InfixExpression t2 l2 op2 x2 =>
      rw [string_infixExpression] at hs2
      obtain ⟨rfl, _⟩ := List.cons.inj hs2
      exact absurd hc (by decide)
  | IntegerLiteral t1 n1 =>
    intro h1 e2 r1 r2 h2 hr1 hr2 h
    obtain ⟨hne, hall⟩ := h1
    rcases hl : t1.Literal with _ | ⟨c, v1⟩
    · exact absurd hl hne
    have hc : lexer.isNumber (c : Int) = true := by
      apply hall
      rw [hl]
      exact List.mem_cons_self _ _
    obtain ⟨c2, u2, hs2, hk2⟩ := string_head e2 h2
    have hcc : c = c2 := by
      rw [hs2] at h
      simp only [Expression.String, hl, List.cons_append, List.cons.injEq] at h
      exact h.1
    subst hcc
    cases e2 with
    | nil => exact absurd h2 (by simp [Expression.WellFormed])
    | Identifier t2 v2 =>
      obtain ⟨_, hall2⟩ := h2
      have hd : lexer.isAlpha (c : Int) = true := by
        apply hall2
        have : v2 = c :: u2 := hs2
        rw [this]
        exact List.mem_cons_self _ _
      exact absurd hd (by rw [(lexer.isNumber_class _ hc).2.2.2]; decide)
    | IntegerLiteral t2 n2 =>
      obtain ⟨_, hall2⟩ := h2
      obtain ⟨e, er⟩ := run_unique (fun x => lexer.isNumber (x : Int)) t1.Literal t2.Literal
        r1 r2 hall hall2 (fun x hx => (hr1 x hx).2) (fun x hx => (hr2 x hx).2) h
      exact ⟨e, er⟩
    | PrefixExpression t2 op2 x2 =>
      rw [string_prefixExpression] at hs2
      obtain ⟨rfl, _⟩ := List.cons.inj hs2
      exact absurd hc (by decide)
    | InfixExpression t2 l2 op2 x2 =>
      rw [string_infixExpression] at hs2
      obtain ⟨rfl, _⟩ := List.cons.inj hs2
      exact absurd hc (by decide)
  | PrefixExpression t1 op1 x1 ih =>
    intro h1 e2 r1 r2 h2 hr1 hr2 h
    obtain ⟨hop1, hx1⟩ := h1
    rw [string_prefixExpression] at h
    cases e2 with
    | nil => exact absurd h2 (by simp [Expression.WellFormed])
    | Identifier t2 v2 =>
      obtain ⟨c2, u2, hs2, _⟩ := string_head _ h2
      have hv : v2 = c2 :: u2 := hs2
      have hc := h2.2 c2 (by rw [hv]; exact List.mem_cons_self _ _)
      rw [hs2] at h
      simp only [List.cons_append, List.cons.injEq] at h
      rw [← h.1] at hc
      exact absurd hc (by decide)
    | IntegerLiteral t2 n2 =>
      obtain ⟨c2, u2, hs2, _⟩ := string_head _ h2
      have hv : t2.Literal = c2 :: u2 := hs2
      have hc := h2.2 c2 (by rw [hv]; exact List.mem_cons_self _ _)
      rw [hs2] at h
      simp only [List.cons_append, List.cons.injEq] at h
      rw [← h.1] at hc
      exact absurd hc (by decide)
    | PrefixExpression t2 op2 x2 =>
      obtain ⟨hop2, hx2⟩ := h2
      rw [string_prefixExpression] at h
      simp only [List.cons_append, List.cons.injEq, true_and, List.append_assoc] at h
      have hops : op1 = op2 ∧ x1.String ++ (41 :: r1) = x2.String ++ (41 :: r2) := by
        rcases hop1 with rfl | rfl <;> rcases hop2 with rfl | rfl <;>
          simp [str] at h <;> simp [h, str]
      obtain ⟨e, er⟩ := ih hx1 x2 (41 :: r1) (41 :: r2) hx2 (stop_paren r1) (stop_paren r2)
        hops.2
      exact ⟨⟨hops.1, e⟩, (List.cons.inj er).2⟩
    | InfixExpression t2 l2 op2 x2 =>
      obtain ⟨_, hl2, _⟩ := h2
      obtain ⟨c2, u2, hs2, hk2⟩ := string_head l2 hl2
      obtain ⟨n1, n2⟩ := head_not_operator c2 hk2
      rw [string_infixExpression, hs2] at h
      rcases hop1 with rfl | rfl <;> simp [str] at h <;> omega
  | InfixExpression t1 l1 op1 x1 ihl ihx =>
    intro h1 e2 r1 r2 h2 hr1 hr2 h
    obtain ⟨hop1, hl1, hx1⟩ := h1
    rw [string_infixExpression] at h
    cases e2 with
    | nil => exact absurd h2 (by simp [Expression.WellFormed])
    | Identifier t2 v2 =>
      obtain ⟨c2, u2, hs2, _⟩ := string_head _ h2
      have hv : v2 = c2 :: u2 := hs2
      have hc := h2.2 c2 (by rw [hv]; exact List.mem_cons_self _ _)
      rw [hs2] at h
      simp only [List.cons_append, List.cons.injEq] at h
      rw [← h.1] at hc
      exact absurd hc (by decide)
    | IntegerLiteral t2 n2 =>
      obtain ⟨c2, u2, hs2, _⟩ := string_head _ h2
      have hv : t2.Literal = c2 :: u2 := hs2
      have hc := h2.2 c2 (by rw [hv]; exact List.mem_cons_self _ _)
      rw [hs2] at h
      simp only [List.cons_append, List.cons.injEq] at h
      rw [← h.1] at hc
      exact absurd hc (by decide)
    | PrefixExpression t2 op2 x2 =>
      obtain ⟨hop2, _⟩ := h2
      obtain ⟨c1, u1, hs1, hk1⟩ := string_head l1 hl1
      obtain ⟨n1, n2⟩ := head_not_operator c1 hk1
      rw [string_prefixExpression, hs1] at h
      rcases hop2 with rfl | rfl <;> simp [str] at h <;> omega
    | InfixExpression t2 l2 op2 x2 =>
      obtain ⟨hop2, hl2, hx2⟩ := h2
      rw [string_infixExpression] at h
      simp only [List.cons_append, List.cons.injEq, true_and, List.append_assoc] at h
      obtain ⟨el, erl⟩ := ihl hl1 l2 _ _ hl2 (stop_space _) (stop_space _) h
      obtain ⟨eo, ero⟩ := operator_unique op1 op2 _ _ hop1 hop2 (List.cons.inj erl).2
      obtain ⟨ex, erx⟩ := ihx hx1 x2 (41 :: r1) (41 :: r2) hx2 (stop_paren r1) (stop_paren r2)
        ero
      exact ⟨⟨el, eo, ex⟩, (List.cons.inj erx).2⟩

/-- The program of one statement renders as the statement. -/
theorem program_string_one (s : Statement) :
    Program.String { Statements := [s] } = s.String := by
  simp [Program.String, writeString_flatten]

end ast

namespace ast

open token

/-- C11: rendering fully parenthesizes every infix and prefix expression: for all operands
`L`, `R` and operator strings `op`, an `InfixExpression` renders as `(`, `L`, a space, `op`,
a space, `R`, `)` and a `PrefixExpression` as `(`, `op`, `R`, `)`, where an operand is
rendered by its own `String` (a nil operand as `<nil>`); an `Identifier` renders as its
`Value` and an `IntegerLiteral` as its token literal; the tree of `a + (b * c)` renders as
`(a + (b * c))`. -/
theorem C11_rendering_fully_parenthesized (t : Token) (L R : Expression) (op v : List Nat)
    (n : Int) :
    (Expression.InfixExpression t L op R).String =
        Monkey.str "(" ++ L.String ++ Monkey.str " " ++ op ++ Monkey.str " " ++ R.String
          ++ Monkey.str ")" ∧
      (Expression.PrefixExpression t op R).String =
        Monkey.str "(" ++ op ++ R.String ++ Monkey.str ")" ∧
      (Expression.Identifier t v).String = v ∧
      (Expression.IntegerLiteral t n).String = t.Literal ∧
      (Expression.InfixExpression { Kind := Monkey.str "+", Literal := Monkey.str "+" }
        (Expression.Identifier { Kind := IDENT, Literal := Monkey.str "a" } (Monkey.str "a"))
        (Monkey.str "+")
        (Expression.InfixExpression { Kind := Monkey.str "*", Literal := Monkey.str "*" }
          (Expression.Identifier { Kind := IDENT, Literal := Monkey.str "b" } (Monkey.str "b"))
          (Monkey.str "*")
          (Expression.Identifier { Kind := IDENT, Literal := Monkey.str "c" }
            (Monkey.str "c")))).String = Monkey.str "(a + (b * c))" := by
  refine ⟨?_, ?_, rfl, rfl, by decide⟩
  · rw [string_infixExpression]
    simp [str]
  · rw [string_prefixExpression]
    simp [str]

/-- C12: a program renders as its statements' renderings in a row, without separator:
`Program{xs ++ ys}` renders as `Program{xs}` followed by `Program{ys}`, the empty program
renders as the empty string, an `ExpressionStatement` renders exactly as its expression
(no `;` after it), and the two expression statements `(3 + 4)` and `((-5) * 5)` render as
`(3 + 4)((-5) * 5)`.  The program of one statement `s`, of whatever kind, renders as `s`
does, so the rendering of any program is the concatenation of the renderings of its
statements in order; the program of the statement `let x = 5;` renders as `let x = 5;`. -/
theorem C12_program_rendering_concatenates (xs ys : List Statement) (t : Token)
    (e : Expression) (s : Statement) :
    Program.String { Statements := xs ++ ys } =
        Program.String { Statements := xs } ++ Program.String { Statements := ys } ∧
      Program.String { Statements := [] } = [] ∧
      (e ≠ Expression.nil → (Statement.ExpressionStatement t e).String = e.String) ∧
      Program.String { Statements :=
        [Statement.ExpressionStatement { Kind := INT, Literal := Monkey.str "3" }
          (Expression.InfixExpression { Kind := Monkey.str "+", Literal := Monkey.str "+" }
            (Expression.IntegerLiteral { Kind := INT, Literal := Monkey.str "3" } 3)
            (Monkey.str "+")
            (Expression.IntegerLiteral { Kind := INT, Literal := Monkey.str "4" } 4)),
         Statement.ExpressionStatement { Kind := Monkey.str "-", Literal := Monkey.str "-" }
          (Expression.InfixExpression { Kind := Monkey.str "*", Literal := Monkey.str "*" }
            (Expression.PrefixExpression { Kind := Monkey.str "-", Literal := Monkey.str "-" }
              (Monkey.str "-")
              (Expression.IntegerLiteral { Kind := INT, Literal := Monkey.str "5" } 5))
            (Monkey.str "*")
            (Expression.IntegerLiteral { Kind := INT, Literal := Monkey.str "5" } 5))] } =
        Monkey.str "(3 + 4)((-5) * 5)" ∧
      Program.String { Statements := [s] } = s.String ∧
      Program.String { Statements := xs } = (xs.map Statement.String).flatten ∧
      Program.String { Statements :=
        [Statement.LetStatement { Kind := Monkey.str "LET", Literal := Monkey.str "let" }
          (some { Token := { Kind := IDENT, Literal := Monkey.str "x" }, Value := Monkey.str "x" })
          (Expression.IntegerLiteral { Kind := INT, Literal := Monkey.str "5" } 5)] } =
        Monkey.str "let x = 5;" := by
  refine ⟨program_string_append xs ys, rfl, ?_, by decide, program_string_one s,
    writeString_flatten _, by decide⟩
  intro h
  simp [Statement.String, h]

/-- C13 fails on the code: the `LetStatement` with token literal `let`, name `x` and no
value renders as `let = ;`, without the name, and not as `let x = ;`. -/
theorem C13_let_without_value_drops_name :
    (Statement.LetStatement { Kind := Monkey.str "LET", Literal := Monkey.str "let" }
        (some { Token := { Kind := IDENT, Literal := Monkey.str "x" }, Value := Monkey.str "x" })
        Expression.nil).String = Monkey.str "let = ;" ∧
      (Statement.LetStatement { Kind := Monkey.str "LET", Literal := Monkey.str "let" }
        (some { Token := { Kind := IDENT, Literal := Monkey.str "x" }, Value := Monkey.str "x" })
        Expression.nil).String ≠ Monkey.str "let x = ;" := by
  decide

/-- C20: rendering distinguishes tree shapes: two well-formed expression trees (identifiers
that are non-empty runs of letters and underscores, integer literals with non-empty digit
runs as token literals, prefix operators `!` and `-`, infix operators among
`== != < > + - * /`) with the same rendered string have the same shape, the same operators
and the same leaf texts. -/
theorem C20_rendering_is_injective (e1 e2 : Expression) (h1 : e1.WellFormed)
    (h2 : e2.WellFormed) (h : e1.String = e2.String) : e1.SameShape e2 :=
  (string_unique e1 h1 e2 [] [] h2 (by simp) (by simp)
    (by rw [List.append_nil, List.append_nil]; exact h)).1

/-- C20 at two trees that both render as `(a + 1)` and differ in the tokens they keep. -/
theorem C20_rendering_is_injective_witness :
    (Expression.InfixExpression { Kind := Monkey.str "+", Literal := Monkey.str "+" }
        (Expression.Identifier { Kind := IDENT, Literal := Monkey.str "a" } (Monkey.str "a"))
        (Monkey.str "+")
        (Expression.IntegerLiteral { Kind := INT, Literal := Monkey.str "1" } 1)).SameShape
      (Expression.InfixExpression { Kind := ILLEGAL, Literal := [] }
        (Expression.Identifier { Kind := ILLEGAL, Literal := [] } (Monkey.str "a"))
        (Monkey.str "+")
        (Expression.IntegerLiteral { Kind := ILLEGAL, Literal := Monkey.str "1" } 7)) :=
  C20_rendering_is_injective _ _
    ⟨by decide, ⟨by decide, by decide⟩, ⟨by decide, by decide⟩⟩
    ⟨by decide, ⟨by decide, by decide⟩, ⟨by decide, by decide⟩⟩ (by decide)

end ast

/-! ## The token buffer and the number of scanning steps -/

namespace lexer

open token

theorem bind_ok {α β : Type} (x : Except Fault α) (f : α → Except Fault β) (b : β)
    (h : (x >>= f) = .ok b) : ∃ a, x = .ok a ∧ f a = .ok b := by
  cases x with
  | error e => cases h
  | ok a => exact ⟨a, rfl, h⟩

theorem next_tokens (l l1 : goLex) (r : Int) (h : l.next = .ok (r, l1)) :
    l1.tokens = l.tokens := by
  unfold goLex.next at h
  split at h
  · cases h; rfl
  · obtain ⟨s, _, h2⟩ := bind_ok _ _ _ h
    cases h2
    rfl

theorem backup_tokens (l l1 : goLex) (h : l.backup = .ok l1) : l1.tokens = l.tokens := by
  unfold goLex.backup at h
  split at h
  · cases h; rfl
  · cases h

theorem peek_tokens (l l1 : goLex) (r : Int) (h : l.peek = .ok (r, l1)) :
    l1.tokens = l.tokens := by
  unfold goLex.peek at h
  obtain ⟨⟨r1, l2⟩, h1, h2⟩ := bind_ok _ _ _ h
  obtain ⟨l3, h3, h4⟩ := bind_ok _ _ _ h2
  cases h4
  rw [backup_tokens _ _ h3, next_tokens _ _ _ h1]

theorem accept_tokens (l l1 : goLex) (valid : List Nat) (b : Bool)
    (h : l.accept valid = .ok (b, l1)) : l1.tokens = l.tokens := by
  unfold goLex.accept at h
  obtain ⟨⟨r1, l2⟩, h1, h2⟩ := bind_ok _ _ _ h
  dsimp only at h2
  split at h2
  · cases h2
    exact next_tokens _ _ _ h1
  · obtain ⟨l3, h3, h4⟩ := bind_ok _ _ _ h2
    cases h4
    rw [backup_tokens _ _ h3, next_tokens _ _ _ h1]

theorem ignoreWhitespaceLoop_tokens : ∀ (n : Nat) (l l1 : goLex),
    goLex.ignoreWhitespaceLoop n l = .ok l1 → l1.tokens = l.tokens := by
  intro n
  induction n with
  | zero => intro l l1 h; cases h
  | succ n ih =>
    intro l l1 h
    simp only [goLex.ignoreWhitespaceLoop] at h
    obtain ⟨⟨r1, l2⟩, h1, h2⟩ := bind_ok _ _ _ h
    dsimp only at h2
    split at h2
    · rw [ih _ _ h2]
      exact next_tokens l l2 r1 h1
    · rw [backup_tokens _ _ h2, next_tokens _ _ _ h1]

theorem acceptRunLoop_tokens (valid : List Nat) : ∀ (n : Nat) (l l1 : goLex),
    goLex.acceptRunLoop valid n l = .ok l1 → l1.tokens = l.tokens := by
  intro n
  induction n with
  | zero => intro l l1 h; cases h
  | succ n ih =>
    intro l l1 h
    simp only [goLex.acceptRunLoop] at h
    obtain ⟨⟨r1, l2⟩, h1, h2⟩ := bind_ok _ _ _ h
    dsimp only at h2
    split at h2
    · rw [ih _ _ h2]
      exact next_tokens _ _ _ h1
    · rw [backup_tokens _ _ h2, next_tokens _ _ _ h1]

theorem send_tokens (l l1 : goLex) (t : Token) (h : l.send t = .ok l1) :
    l1.tokens = l.tokens ++ [t] ∧ l.tokens.length < 2 := by
  unfold goLex.send at h
  split at h
  · rename_i hl
    cases h
    exact ⟨rfl, hl⟩
  · cases h

theorem emit_tokens (l l1 : goLex) (k : TokenType) (h : l.emit k = .ok l1) :
    ∃ t, l1.tokens = l.tokens ++ [t] := by
  unfold goLex.emit at h
  obtain ⟨lit, _, h2⟩ := bind_ok _ _ _ h
  obtain ⟨l2, h3, h4⟩ := bind_ok _ _ _ h2
  cases h4
  exact ⟨_, (send_tokens _ _ _ h3).1⟩

theorem errorf_tokens (l l1 : goLex) (msg : List Nat) (st : Option stateFn)
    (h : l.errorf msg = .ok (st, l1)) : st = none ∧ ∃ t, l1.tokens = l.tokens ++ [t] := by
  unfold goLex.errorf at h
  obtain ⟨l2, h3, h4⟩ := bind_ok _ _ _ h
  cases h4
  exact ⟨rfl, _, (send_tokens _ _ _ h3).1⟩

theorem lexIdentifierLoop_tokens : ∀ (n : Nat) (l l1 : goLex),
    lexIdentifierLoop n l = .ok l1 → ∃ t, l1.tokens = l.tokens ++ [t] := by
  intro n
  induction n with
  | zero => intro l l1 h; cases h
  | succ n ih =>
    intro l l1 h
    simp only [lexIdentifierLoop] at h
    obtain ⟨⟨r1, l2⟩, h1, h2⟩ := bind_ok _ _ _ h
    dsimp only at h2
    split at h2
    · obtain ⟨l3, h3, h4⟩ := bind_ok _ _ _ h2
      obtain ⟨lit, _, h5⟩ := bind_ok _ _ _ h4
      obtain ⟨t, ht⟩ := emit_tokens _ _ _ h5
      exact ⟨t, by rw [ht, backup_tokens _ _ h3, next_tokens _ _ _ h1]⟩
    · obtain ⟨t, ht⟩ := ih _ _ h2
      exact ⟨t, by rw [ht, next_tokens _ _ _ h1]⟩

/-- `lexIdentifier` puts exactly one token into the buffer. -/
theorem lexIdentifier_tokens (l l1 : goLex) (st : Option stateFn)
    (h : lexIdentifier l = .ok (st, l1)) : ∃ t, l1.tokens = l.tokens ++ [t] := by
  unfold lexIdentifier at h
  obtain ⟨l2, h1, h2⟩ := bind_ok _ _ _ h
  cases h2
  exact lexIdentifierLoop_tokens _ _ _ h1

/-- `lexNumber` puts exactly one token into the buffer. -/
theorem lexNumber_tokens (pr : Int → Bool) (l l1 : goLex) (st : Option stateFn)
    (h : lexNumber pr l = .ok (st, l1)) : ∃ t, l1.tokens = l.tokens ++ [t] := by
  unfold lexNumber at h
  obtain ⟨l2, h1, h2⟩ := bind_ok _ _ _ h
  obtain ⟨⟨r, l3⟩, h3, h4⟩ := bind_ok _ _ _ h2
  have e2 : l2.tokens = l.tokens := acceptRunLoop_tokens _ _ _ _ h1
  have e3 : l3.tokens = l2.tokens := peek_tokens _ _ _ h3
  dsimp only at h4
  split at h4
  · obtain ⟨⟨r4, l4⟩, h5, h6⟩ := bind_ok _ _ _ h4
    dsimp only at h6
    obtain ⟨lit, _, h7⟩ := bind_ok _ _ _ h6
    obtain ⟨_, t, ht⟩ := errorf_tokens _ _ _ _ h7
    exact ⟨t, by rw [ht, next_tokens _ _ _ h5, e3, e2]⟩
  · obtain ⟨l4, h5, h6⟩ := bind_ok _ _ _ h4
    cases h6
    obtain ⟨t, ht⟩ := emit_tokens _ _ _ h5
    exact ⟨t, by rw [ht, e3, e2]⟩

/-- `lex` puts one token into the buffer when it returns `lex`, none when it hands over to
`lexIdentifier` or `lexNumber`, and none or one when it returns nil. -/
theorem lex_tokens (pr : Int → Bool) (l l1 : goLex) (st : Option stateFn)
    (h : lex pr l = .ok (st, l1)) :
    (st = some stateFn.lex ∧ ∃ t, l1.tokens = l.tokens ++ [t]) ∨
      ((st = some stateFn.lexIdentifier ∨ st = some stateFn.lexNumber) ∧ l1.tokens = l.tokens) ∨
      (st = none ∧ (l1.tokens = l.tokens ∨ ∃ t, l1.tokens = l.tokens ++ [t])) := by
  unfold lex at h
  obtain ⟨l2, h1, h2⟩ := bind_ok _ _ _ h
  have e2 : l2.tokens = l.tokens := ignoreWhitespaceLoop_tokens _ _ _ h1
  obtain ⟨⟨b3, l3⟩, h3, h4⟩ := bind_ok _ _ _ h2
  have e3 : l3.tokens = l2.tokens := accept_tokens _ _ _ _ h3
  dsimp only at h4
  split at h4
  · obtain ⟨⟨b5, l5⟩, h5, h6⟩ := bind_ok _ _ _ h4
    have e5 : l5.tokens = l3.tokens := accept_tokens _ _ _ _ h5
    dsimp only at h6
    split at h6
    all_goals
      obtain ⟨lit, _, h7⟩ := bind_ok _ _ _ h6
      obtain ⟨l8, h8, h9⟩ := bind_ok _ _ _ h7
      cases h9
      obtain ⟨t, ht⟩ := emit_tokens _ _ _ h8
      exact Or.inl ⟨rfl, t, by rw [ht, e5, e3, e2]⟩
  · obtain ⟨⟨b5, l5⟩, h5, h6⟩ := bind_ok _ _ _ h4
    have e5 : l5.tokens = l3.tokens := accept_tokens _ _ _ _ h5
    dsimp only at h6
    split at h6
    · obtain ⟨lit, _, h7⟩ := bind_ok _ _ _ h6
      obtain ⟨l8, h8, h9⟩ := bind_ok _ _ _ h7
      cases h9
      obtain ⟨t, ht⟩ := emit_tokens _ _ _ h8
      exact Or.inl ⟨rfl, t, by rw [ht, e5, e3, e2]⟩
    · obtain ⟨⟨r6, l6⟩, h7, h8⟩ := bind_ok _ _ _ h6
      have e6 : l6.tokens = l5.tokens := peek_tokens _ _ _ h7
      dsimp only at h8
      split at h8
      · cases h8
        exact Or.inr (Or.inl ⟨Or.inl rfl, by rw [e6, e5, e3, e2]⟩)
      · obtain ⟨⟨r7, l7⟩, h9, h10⟩ := bind_ok _ _ _ h8
        have e7 : l7.tokens = l6.tokens := peek_tokens _ _ _ h9
        dsimp only at h10
        split at h10
        · cases h10
          exact Or.inr (Or.inl ⟨Or.inr rfl, by rw [e7, e6, e5, e3, e2]⟩)
        · obtain ⟨⟨r8, l8⟩, h11, h12⟩ := bind_ok _ _ _ h10
          have e8 : l8.tokens = l7.tokens := peek_tokens _ _ _ h11
          dsimp only at h12
          split at h12
          · cases h12
            exact Or.inr (Or.inr ⟨rfl, Or.inl (by rw [e8, e7, e6, e5, e3, e2])⟩)
          · obtain ⟨⟨r9, l9⟩, h13, h14⟩ := bind_ok _ _ _ h12
            dsimp only at h14
            obtain ⟨hs, t, ht⟩ := errorf_tokens _ _ _ _ h14
            exact Or.inr (Or.inr ⟨hs, Or.inr ⟨t, by
              rw [ht, next_tokens _ _ _ h13, e8, e7, e6, e5, e3, e2]⟩⟩)

/-- Every scanning step puts at most one token into the buffer. -/
theorem call_tokens (pr : Int → Bool) (f : stateFn) (l l1 : goLex) (st : Option stateFn)
    (h : f.call pr l = .ok (st, l1)) :
    l1.tokens = l.tokens ∨ ∃ t, l1.tokens = l.tokens ++ [t] := by
  cases f with
  | lex =>
    rcases lex_tokens pr l l1 st h with ⟨_, h1⟩ | ⟨_, h1⟩ | ⟨_, h1⟩
    · exact Or.inr h1
    · exact Or.inl h1
    · exact h1
  | lexIdentifier => exact Or.inr (lexIdentifier_tokens l l1 st h)
  | lexNumber => exact Or.inr (lexNumber_tokens pr l l1 st h)

end lexer

namespace lexer

open token

/-- With a token in the buffer `NextToken` receives it and runs no scanning step. -/
theorem NextTokenLoop_receive (pr : Int → Bool) (k : Nat) (l : goLex) (t : Token)
    (rest : List Token) (h : l.tokens = t :: rest) :
    goLex.NextTokenLoop pr (k + 1) l = .ok (t, { l with tokens := rest }) := by
  simp only [goLex.NextTokenLoop, h]

/-- From an empty buffer three rounds of the loop of `NextToken` are enough: two scanning
steps at most, and the round that returns. -/
theorem NextTokenLoop_three (pr : Int → Bool) (l : goLex) (hl : l.tokens = []) (n m : Nat)
    (r : Token × goLex) (h : goLex.NextTokenLoop pr (n + 3) l = .ok r) :
    goLex.NextTokenLoop pr (m + 3) l = .ok r := by
  have hn : goLex.NextTokenLoop pr ((n + 2) + 1) l = .ok r := h
  show goLex.NextTokenLoop pr ((m + 2) + 1) l = .ok r
  simp only [goLex.NextTokenLoop, hl] at hn ⊢
  cases hs : l.state with
  | none =>
    rw [hs] at hn
    exact hn
  | some f =>
    rw [hs] at hn
    dsimp only at hn ⊢
    obtain ⟨⟨st1, l1⟩, h1, h2⟩ := bind_ok _ _ _ hn
    rw [h1]
    dsimp only [bind, Except.bind] at h2 ⊢
    have h2' : goLex.NextTokenLoop pr ((n + 1) + 1) { l1 with state := st1 } = .ok r := h2
    show goLex.NextTokenLoop pr ((m + 1) + 1) { l1 with state := st1 } = .ok r
    have hc : l1.tokens = [] ∨ ∃ t rest, l1.tokens = t :: rest := by
      cases l1.tokens with
      | nil => exact Or.inl rfl
      | cons t rest => exact Or.inr ⟨t, rest, rfl⟩
    rcases hc with ht | ⟨t, rest, ht⟩
    · -- no token yet: the step was `lex` and it handed over or ended the scan
      have hf : (st1 = some stateFn.lexIdentifier ∨ st1 = some stateFn.lexNumber) ∨ st1 = none := by
        cases f with
        | lex =>
          rcases lex_tokens pr l l1 st1 h1 with ⟨_, t, h3⟩ | ⟨h3, _⟩ | ⟨h3, _⟩
          · rw [ht, hl] at h3; cases h3
          · exact Or.inl h3
          · exact Or.inr h3
        | lexIdentifier =>
          obtain ⟨t, h3⟩ := lexIdentifier_tokens l l1 st1 h1
          rw [ht, hl] at h3; cases h3
        | lexNumber =>
          obtain ⟨t, h3⟩ := lexNumber_tokens pr l l1 st1 h1
          rw [ht, hl] at h3; cases h3
      simp only [goLex.NextTokenLoop, ht] at h2' ⊢
      rcases hf with hf | hf
      · obtain ⟨g, hg, hg2⟩ : ∃ g, st1 = some g ∧ (g = stateFn.lexIdentifier ∨ g = stateFn.lexNumber) := by
          rcases hf with hf | hf
          · exact ⟨_, hf, Or.inl rfl⟩
          · exact ⟨_, hf, Or.inr rfl⟩
        subst hg
        dsimp only at h2' ⊢
        obtain ⟨⟨st2, l2⟩, h3, h4⟩ := bind_ok _ _ _ h2'
        rw [h3]
        dsimp only [bind, Except.bind] at h4 ⊢
        have h5 : ∃ t, l2.tokens = [t] := by
          rcases hg2 with rfl | rfl
          · obtain ⟨t, h6⟩ := lexIdentifier_tokens _ l2 st2 h3
            exact ⟨t, by rw [h6]; rfl⟩
          · obtain ⟨t, h6⟩ := lexNumber_tokens pr _ l2 st2 h3
            exact ⟨t, by rw [h6]; rfl⟩
        obtain ⟨t, h5⟩ := h5
        have h4' : goLex.NextTokenLoop pr (n + 1) { l2 with state := st2 } = .ok r := h4
        rw [NextTokenLoop_receive pr n { l2 with state := st2 } t [] h5] at h4'
        show goLex.NextTokenLoop pr (m + 1) { l2 with state := st2 } = .ok r
        rw [NextTokenLoop_receive pr m { l2 with state := st2 } t [] h5]
        exact h4'
      · subst hf
        exact h2'
    · rw [NextTokenLoop_receive pr (n + 1) { l1 with state := st1 } t rest ht] at h2'
      rw [NextTokenLoop_receive pr (m + 1) { l1 with state := st1 } t rest ht]
      exact h2'

theorem boundary_tokens (inp : List Nat) (l : goLex) (hb : Boundary inp l) : l.tokens = [] := by
  cases hb <;> rfl

/-- A call on a lexer met between two calls returns within three rounds of its loop, and
a token other than EOF moves `pos` forward. -/
theorem call_progress (pr : Int → Bool) (inp : List Nat) (l : goLex) (hb : Boundary inp l) :
    ∃ t l1, goLex.NextTokenLoop pr 3 l = .ok (t, l1) ∧ l.NextToken pr = .ok (t, l1) ∧
      (t.Kind ≠ EOF → l.pos < l1.pos) := by
  obtain ⟨t, l1, h1, _, hcase⟩ := NextToken_boundary pr inp l hb
  refine ⟨t, l1, ?_, h1, ?_⟩
  · have h3 : goLex.NextTokenLoop pr (l.input.length + 3) l = .ok (t, l1) := h1
    exact NextTokenLoop_three pr l (boundary_tokens inp l hb) _ 0 _ h3
  · intro hk
    rcases hcase with ⟨p, w, cb, hp, rfl, hst⟩ | ⟨_, he, _⟩
    · cases hst with
      | token ws lit rest tok w1 cb1 hws hl hd =>
        have := (lexeme_kind lit _ hl).2.2.2
        have hpos : 0 < lit.length := List.length_pos.mpr this
        show (p : Int) < ((p + (runesToString ws).length + lit.length : Nat) : Int)
        omega
      | eof ws hws hd => exact absurd rfl hk
      | illegal ws bad rest msg w1 cb1 hws hbad hd =>
        have hpos : 0 < bad.length := List.length_pos.mpr hbad
        show (p : Int) < ((p + (runesToString ws).length + bad.length : Nat) : Int)
        omega
    · rw [he] at hk
      exact absurd rfl hk

theorem filter_replicate_eof (n : Nat) :
    (List.replicate n ({ Kind := EOF, Literal := [] } : Token)).filter
      (fun t => decide (t.Kind ≠ EOF)) = [] := by
  induction n with
  | zero => rfl
  | succ n ih =>
    rw [List.replicate_succ, List.filter_cons_of_neg, ih]
    simp

/-- The tokens other than EOF returned from byte `p` on are at most the bytes left. -/
theorem count_bound (pr : Int → Bool) (inp : List Nat) :
    ∀ (n p w : Nat) (cb : Bool) (ts : List Token) (l : goLex), p ≤ inp.length →
      (cur (some stateFn.lex) inp p p w [] cb).NextTokens pr n = .ok (ts, l) →
      (ts.filter (fun t => decide (t.Kind ≠ EOF))).length + p ≤ inp.length := by
  intro n
  induction n with
  | zero =>
    intro p w cb ts l hp h
    rw [NextTokens_zero] at h
    cases h
    simpa using hp
  | succ n ih =>
    intro p w cb ts l hp h
    obtain ⟨t, l1, ts1, h1, h2, rfl⟩ := NextTokens_succ_inv pr n _ l ts h
    obtain ⟨t', l1', h1', hst⟩ := NextToken_step pr inp p w cb hp
    rw [h1] at h1'
    cases h1'
    cases hst with
    | token ws lit rest tok w1 cb1 hws hl hd =>
      have hq1 := le_length_of_drop inp _ _ p hp hd
      have hq2 := le_length_of_drop inp _ _ _ hq1 (drop_add_of_eq inp _ _ p hd)
      obtain ⟨k1, _, _, k4⟩ := lexeme_kind lit _ hl
      have hpos : 0 < lit.length := List.length_pos.mpr k4
      have e := ih _ w1 cb1 ts1 l hq2 h2
      rw [List.filter_cons_of_pos (by simpa using k1), List.length_cons]
      omega
    | eof ws hws hd =>
      rw [NextTokens_finished] at h2
      cases h2
      rw [List.filter_cons_of_neg (by simp), filter_replicate_eof]
      simpa using hp
    | illegal ws bad rest msg w1 cb1 hws hbad hd =>
      have hq1 := le_length_of_drop inp _ _ p hp hd
      have hq2 := le_length_of_drop inp _ _ _ hq1 (drop_add_of_eq inp _ _ p hd)
      have hpos : 0 < bad.length := List.length_pos.mpr hbad
      rw [NextTokens_finished] at h2
      cases h2
      rw [List.filter_cons_of_pos (by show decide (ILLEGAL ≠ EOF) = true; decide),
        filter_replicate_eof]
      simp only [List.length_cons, List.length_nil]
      omega

theorem runeAt_le (s : List Nat) : runeAt s ≤ 0x10FFFF := by
  unfold runeAt
  split
  · decide
  · unfold utf8.DecodeRuneInString
    split
    · simp [utf8.RuneError]
    · repeat' split
      all_goals simp [utf8.RuneError]
      all_goals omega

/-- The verb `%q` on a rune that `next` has read is `strconv.QuoteRune` of it. -/
theorem sprintf_q_rune_read (pr : Int → Bool) (R : List Nat) (hne : R ≠ []) :
    fmt.Sprintf_q_rune pr (runeAt R) = strconv.QuoteRune pr (runeAt R) := by
  unfold fmt.Sprintf_q_rune
  rw [if_pos ⟨runeAt_nonneg R hne, runeAt_le R⟩]

/-- A printable ASCII character other than `'` and `\` is quoted as itself between two
apostrophes. -/
theorem quoteRune_ascii (pr : Int → Bool) (c : Nat) (h1 : 0x20 ≤ c) (h2 : c ≤ 0x7E)
    (h3 : c ≠ 0x27) (h4 : c ≠ 0x5C) : strconv.QuoteRune pr (c : Int) = [0x27, c, 0x27] := by
  unfold strconv.QuoteRune utf8.ValidRune
  have hv : ((decide ((0 : Int) ≤ (c : Int)) && decide ((c : Int) < 0xD800))
      || (decide ((0xDFFF : Int) < (c : Int)) && decide ((c : Int) ≤ 0x10FFFF))) = true := by
    simp only [Bool.or_eq_true, Bool.and_eq_true, decide_eq_true_eq]
    omega
  rw [if_pos hv]
  unfold strconv.appendEscapedRune
  rw [if_neg (by omega)]
  have hp : strconv.IsPrint pr (c : Int) = true := by
    unfold strconv.IsPrint
    rw [if_pos (by omega), if_pos (by omega)]
  rw [if_pos hp, appendRune_cast, if_pos (by omega)]
  rfl

/-- The scan ended by an unrecognized character, with the literal written with
`strconv.QuoteRune`; a printable ASCII character is quoted as itself. -/
theorem illegal_quoted (pr : Int → Bool) (inp : List Nat) (l : goLex)
    (hb : Boundary inp l) (hst : l.state ≠ none) (ws : List Int) (R : List Nat)
    (hws : ∀ r ∈ ws, isSpace r = true) (hd : inp.drop l.pos.toNat = runesToString ws ++ R)
    (hne : R ≠ []) (hS : isSpace (runeAt R) = false) (hL : isAlpha (runeAt R) = false)
    (hN : isNumber (runeAt R) = false)
    (hO : ∀ c ∈ str "=!;(),+-/*<>\x7b\x7d", runeAt R ≠ (c : Int)) (n : Nat) :
    (∃ l1, l.NextTokens pr (n + 1) =
      .ok ({ Kind := ILLEGAL,
             Literal := str "Illegal character: " ++ strconv.QuoteRune pr (runeAt R) }
        :: List.replicate n { Kind := EOF, Literal := [] }, l1)) ∧
      (∀ (c : Nat) (t : List Nat), R = c :: t → 0x20 ≤ c → c ≤ 0x7E → c ≠ 0x27 → c ≠ 0x5C →
        strconv.QuoteRune pr (runeAt R) = [0x27, c, 0x27]) := by
  constructor
  · rw [← sprintf_q_rune_read pr R hne]
    exact illegal_ends_scan pr inp l hb hst ws R hws hd hne hS hL hN hO n
  · intro c t hR h1 h2 h3 h4
    rw [hR, (runeAt_ascii c t (by omega)).1]
    exact quoteRune_ascii pr c h1 h2 h3 h4

/-- Any number of calls from a fresh lexer return; the next call returns within three
rounds of its loop and a token other than EOF moves `pos` forward; the tokens other than
EOF returned so far are at most the bytes of the input. -/
theorem progress_run (pr : Int → Bool) (inp : List Nat) (k : Nat) :
    ∃ ts l, (NewGoLex inp).NextTokens pr k = .ok (ts, l) ∧
      (∃ t l1, goLex.NextTokenLoop pr 3 l = .ok (t, l1) ∧ l.NextToken pr = .ok (t, l1) ∧
        (t.Kind ≠ EOF → l.pos < l1.pos)) ∧
      (ts.filter (fun t => decide (t.Kind ≠ EOF))).length ≤ inp.length := by
  obtain ⟨ts, l, h1, hb⟩ := NextTokens_boundary pr inp k _ (NewGoLex_boundary inp)
  refine ⟨ts, l, h1, call_progress pr inp l hb, ?_⟩
  rw [NewGoLex_eq] at h1
  have := count_bound pr inp k 0 0 false ts l (Nat.zero_le _) h1
  omega

/-- The buffer of tokens: a scanning step adds at most one token; from an empty buffer it
leaves at most one; with a token buffered `NextToken` returns it and runs no step; any
number of calls from a fresh lexer return (no send blocks) and leave the buffer empty. -/
theorem buffer_discipline (pr : Int → Bool) (inp : List Nat) (k : Nat) :
    (∀ (f : stateFn) (l l1 : goLex) (st : Option stateFn), f.call pr l = .ok (st, l1) →
        l1.tokens = l.tokens ∨ ∃ t, l1.tokens = l.tokens ++ [t]) ∧
      (∀ (f : stateFn) (l l1 : goLex) (st : Option stateFn), l.tokens = [] →
        f.call pr l = .ok (st, l1) → l1.tokens.length ≤ 1) ∧
      (∀ (l : goLex) (t : Token) (rest : List Token) (n : Nat), l.tokens = t :: rest →
        goLex.NextTokenLoop pr (n + 1) l = .ok (t, { l with tokens := rest })) ∧
      (∃ ts l, (NewGoLex inp).NextTokens pr k = .ok (ts, l) ∧ l.tokens = []) := by
  refine ⟨fun f l l1 st h => call_tokens pr f l l1 st h, ?_, ?_, ?_⟩
  · intro f l l1 st hl h
    rcases call_tokens pr f l l1 st h with h1 | ⟨t, h1⟩
    · rw [h1, hl]; exact Nat.zero_le _
    · rw [h1, hl]; exact Nat.le_refl _
  · intro l t rest n h
    exact NextTokenLoop_receive pr n l t rest h
  · obtain ⟨ts, l, h1, hb⟩ := NextTokens_boundary pr inp k _ (NewGoLex_boundary inp)
    exact ⟨ts, l, h1, boundary_tokens inp l hb⟩

end lexer

namespace lexer

open token

/-- C17: an illegal character terminates scanning. Where a token is expected (the scan
has not ended) and, after whitespace, a character stands that is no whitespace and starts
no operator, delimiter, identifier or number, the next call of `NextToken` returns one
ILLEGAL token whose literal is `Illegal character: ` followed by that character as
`strconv.QuoteRune` writes it (a printable ASCII character between two apostrophes), and
each of the `n` calls after it returns the EOF token, whatever follows the character. -/
theorem C17_illegal_character_terminates_scanning (pr : Int → Bool) (input : List Nat)
    (k : Nat) (ts : List Token) (l : goLex) (ws : List Int) (R : List Nat) (n : Nat)
    (hreach : (NewGoLex input).NextTokens pr k = .ok (ts, l)) (hst : l.state ≠ none)
    (hws : ∀ r ∈ ws, isSpace r = true)
    (hd : input.drop l.pos.toNat = runesToString ws ++ R) (hne : R ≠ [])
    (hS : isSpace (runeAt R) = false) (hL : isAlpha (runeAt R) = false)
    (hN : isNumber (runeAt R) = false)
    (hO : ∀ c ∈ str "=!;(),+-/*<>\x7b\x7d", runeAt R ≠ (c : Int)) :
    (∃ l1, l.NextTokens pr (n + 1) =
      .ok ({ Kind := ILLEGAL,
             Literal := str "Illegal character: " ++ strconv.QuoteRune pr (runeAt R) }
        :: List.replicate n { Kind := EOF, Literal := [] }, l1)) ∧
      (∀ (c : Nat) (t : List Nat), R = c :: t → 0x20 ≤ c → c ≤ 0x7E → c ≠ 0x27 → c ≠ 0x5C →
        strconv.QuoteRune pr (runeAt R) = [0x27, c, 0x27]) :=
  illegal_quoted pr input l (reachable_boundary pr input k ts l hreach) hst ws R hws hd hne
    hS hL hN hO n

/-- C17 at the input `  #x = 1;`, from the fresh lexer: ILLEGAL for `#`, then EOF. -/
theorem C17_illegal_character_terminates_scanning_witness :
    (∃ l1, (NewGoLex (str "  #x = 1;")).NextTokens (fun _ => true) 3 =
      .ok ({ Kind := ILLEGAL,
             Literal := str "Illegal character: " ++
               strconv.QuoteRune (fun _ => true) (runeAt (str "#x = 1;")) }
        :: List.replicate 2 { Kind := EOF, Literal := [] }, l1)) ∧
      (∀ (c : Nat) (t : List Nat), str "#x = 1;" = c :: t → 0x20 ≤ c → c ≤ 0x7E → c ≠ 0x27 →
        c ≠ 0x5C → strconv.QuoteRune (fun _ => true) (runeAt (str "#x = 1;")) = [0x27, c, 0x27]) :=
  C17_illegal_character_terminates_scanning (fun _ => true) (str "  #x = 1;") 0 []
    (NewGoLex (str "  #x = 1;")) [0x20, 0x20] (str "#x = 1;") 2 (by decide) (by decide)
    (by decide) (by decide) (by decide) (by decide) (by decide) (by decide) (by decide)

/-- C18: lexing terminates with progress. On every input, after any number `k` of calls
(all of which return), the next call of `NextToken` returns already when its loop is given
three rounds, that is after at most two scanning steps and the round that receives the
token; a returned token other than EOF leaves `pos` strictly greater than before; and the
tokens other than EOF among those returned are at most `len(input)`. -/
theorem C18_lexing_terminates_with_progress (pr : Int → Bool) (input : List Nat) (k : Nat) :
    ∃ ts l, (NewGoLex input).NextTokens pr k = .ok (ts, l) ∧
      (∃ t l1, goLex.NextTokenLoop pr 3 l = .ok (t, l1) ∧ l.NextToken pr = .ok (t, l1) ∧
        (t.Kind ≠ EOF → l.pos < l1.pos)) ∧
      (ts.filter (fun t => decide (t.Kind ≠ EOF))).length ≤ input.length :=
  progress_run pr input k

/-- C19: the token buffer never overflows. Each scanning step (`lex`, `lexIdentifier`,
`lexNumber`) that returns has put at most one token into the buffer, so from an empty
buffer it leaves at most one; with a token in the buffer `NextToken` returns it and runs
no step; and on every input any number of calls return, so that no `emit` or `errorf`
blocks, and leave the buffer empty. -/
theorem C19_token_buffer_never_overflows (pr : Int → Bool) (input : List Nat) (k : Nat) :
    (∀ (f : stateFn) (l l1 : goLex) (st : Option stateFn), f.call pr l = .ok (st, l1) →
        l1.tokens = l.tokens ∨ ∃ t, l1.tokens = l.tokens ++ [t]) ∧
      (∀ (f : stateFn) (l l1 : goLex) (st : Option stateFn), l.tokens = [] →
        f.call pr l = .ok (st, l1) → l1.tokens.length ≤ 1) ∧
      (∀ (l : goLex) (t : Token) (rest : List Token) (n : Nat), l.tokens = t :: rest →
        goLex.NextTokenLoop pr (n + 1) l = .ok (t, { l with tokens := rest })) ∧
      (∃ ts l, (NewGoLex input).NextTokens pr k = .ok (ts, l) ∧ l.tokens = []) :=
  buffer_discipline pr input k

end lexer

namespace parser

open token ast lexer

theorem item_lexeme (rest lit : List Nat) (tok : Token) (h : Item rest lit tok) :
    Lexeme lit tok := by
  cases h with
  | op2 c hc =>
    refine Lexeme.op _ ?_
    rcases hc with rfl | rfl <;> decide
  | op1 c hc ht =>
    refine Lexeme.op _ ?_
    rcases hc with rfl | rfl <;> decide
  | single c hc =>
    refine Lexeme.op _ ?_
    revert c
    decide
  | ident b a ha ht => exact Lexeme.ident b a ha
  | int b d hd ht hta => exact Lexeme.int b d hd

/-- `NextToken` before the text of an item returns its token and stops behind the text. -/
theorem NextToken_item (pr : Int → Bool) (inp : List Nat) (ws : List Int)
    (lit rest : List Nat) (tok : Token) (p w : Nat) (cb : Bool) (hp : p ≤ inp.length)
    (hws : ∀ r ∈ ws, isSpace r = true) (hi : Item rest lit tok)
    (hd : inp.drop p = runesToString ws ++ (lit ++ rest)) :
    ∃ w1 cb1, (cur (some stateFn.lex) inp p p w [] cb).NextToken pr =
      .ok (tok, cur (some stateFn.lex) inp (p + (runesToString ws).length + lit.length)
        (p + (runesToString ws).length + lit.length) w1 [] cb1) := by
  cases hi with
  | op2 c hc => exact ⟨_, _, NextToken_op2 pr inp ws c rest p w cb hp hws hc hd⟩
  | op1 c hc ht => exact ⟨_, _, NextToken_op1 pr inp ws c rest p w cb hp hws hc ht hd⟩
  | single c hc => exact ⟨_, _, NextToken_single pr inp ws c rest p w cb hp hws hc hd⟩
  | ident b a ha ht => exact ⟨_, _, NextToken_ident pr inp ws b a rest p w cb hp hws ha ht hd⟩
  | int b d hdig ht hta =>
    exact ⟨_, _, NextToken_int pr inp ws b d rest p w cb hp hws hdig ht hta hd⟩

/-- The calls of `NextToken` on a source text of well separated items return the tokens
of the items in order and then the EOF token. -/
theorem NextTokens_items (pr : Int → Bool) (inp : List Nat) :
    ∀ (items : List (List Int × List Nat × Token)) (tail : List Int) (p w : Nat) (cb : Bool),
      p ≤ inp.length → Spaced items tail → inp.drop p = sourceText items tail →
      ∀ m : Nat, ∃ l, (cur (some stateFn.lex) inp p p w [] cb).NextTokens pr (items.length + m) =
        .ok (items.map (fun i => i.2.2) ++ List.replicate m { Kind := EOF, Literal := [] }, l) := by
  intro items
  induction items with
  | nil =>
    intro tail p w cb hp hs hd m
    simp only [List.length_nil, Nat.zero_add, List.map_nil, List.nil_append]
    cases m with
    | zero => exact ⟨_, rfl⟩
    | succ m =>
      have h1 := NextToken_eof pr inp tail p w cb hp hs hd
      exact ⟨_, NextTokens_succ pr m _ _ _ _ _ h1 (NextTokens_finished pr _ _ _ _ _ m)⟩
  | cons i rest ih =>
    intro tail p w cb hp hs hd m
    obtain ⟨ws, lit, tok⟩ := i
    obtain ⟨hws, hi, hrest⟩ := hs
    have hd' : inp.drop p = runesToString ws ++ (lit ++ sourceText rest tail) := hd
    obtain ⟨w1, cb1, h1⟩ := NextToken_item pr inp ws lit _ tok p w cb hp hws hi hd'
    have hq1 := le_length_of_drop inp _ _ p hp hd'
    have hd2 := drop_add_of_eq inp _ _ p hd'
    have hq2 := le_length_of_drop inp _ _ _ hq1 hd2
    have hd3 := drop_add_of_eq inp _ _ _ hd2
    obtain ⟨l, h2⟩ := ih tail _ w1 cb1 hq2 hrest hd3 m
    refine ⟨l, ?_⟩
    have hn : ((ws, lit, tok) :: rest).length + m = (rest.length + m) + 1 := by
      simp only [List.length_cons]; omega
    rw [hn]
    exact NextTokens_succ pr _ _ _ _ _ _ h1 h2

theorem items_length_le : ∀ (items : List (List Int × List Nat × Token)) (tail : List Int),
    Spaced items tail → items.length ≤ (sourceText items tail).length := by
  intro items
  induction items with
  | nil => intro tail _; exact Nat.zero_le _
  | cons i rest ih =>
    intro tail hs
    obtain ⟨ws, lit, tok⟩ := i
    obtain ⟨_, hi, hrest⟩ := hs
    have := ih tail hrest
    have hne := (lexeme_kind lit tok (item_lexeme _ lit tok hi)).2.2.2
    have hpos : 0 < lit.length := List.length_pos.mpr hne
    simp only [sourceText, List.length_cons, List.length_append]
    omega

theorem items_not_eof : ∀ (items : List (List Int × List Nat × Token)) (tail : List Int),
    Spaced items tail → ∀ t ∈ items.map (fun i => i.2.2), t.Kind ≠ EOF := by
  intro items
  induction items with
  | nil => intro tail _ t ht; cases ht
  | cons i rest ih =>
    intro tail hs t ht
    obtain ⟨ws, lit, tok⟩ := i
    obtain ⟨_, hi, hrest⟩ := hs
    rw [List.map_cons, List.mem_cons] at ht
    rcases ht with rfl | ht
    · exact (lexeme_kind lit _ (item_lexeme _ lit _ hi)).1
    · exact ih tail hrest t ht

theorem takeWhile_tokens (ts : List Token) (m : Nat) (h : ∀ t ∈ ts, t.Kind ≠ EOF) :
    (ts ++ List.replicate m ({ Kind := EOF, Literal := [] } : Token)).takeWhile
      (fun t => decide (t.Kind ≠ EOF)) = ts := by
  induction ts with
  | nil =>
    cases m with
    | zero => rfl
    | succ m =>
      rw [List.nil_append, List.replicate_succ, List.takeWhile_cons_of_neg]
      simp
  | cons t ts ih =>
    rw [List.cons_append, List.takeWhile_cons_of_pos, ih]
    · intro x hx; exact h x (List.mem_cons_of_mem _ hx)
    · simpa using h t (List.mem_cons_self _ _)

/-- The parser gets the tokens of the items of a source text of well separated items. -/
theorem tokenStream_items (pr : Int → Bool) (items : List (List Int × List Nat × Token))
    (tail : List Int) (h : Spaced items tail) :
    tokenStream pr (sourceText items tail) = .ok (items.map (fun i => i.2.2)) := by
  have hlen := items_length_le items tail h
  obtain ⟨l, hl⟩ := NextTokens_items pr (sourceText items tail) items tail 0 0 false
    (Nat.zero_le _) h rfl ((sourceText items tail).length + 1 - items.length)
  have hn : items.length + ((sourceText items tail).length + 1 - items.length)
      = (sourceText items tail).length + 1 := by omega
  rw [hn, ← NewGoLex_eq] at hl
  unfold tokenStream
  rw [hl]
  simp only
  rw [takeWhile_tokens _ _ (items_not_eof items tail h)]

theorem after_space (t : List Nat) :
    isAlpha (runeAt (32 :: t)) = false ∧ isNumber (runeAt (32 :: t)) = false ∧
      runeAt (32 :: t) ≠ 61 := by
  rw [(runeAt_ascii 32 t (by decide)).1]
  decide

theorem after_semicolon (t : List Nat) :
    isAlpha (runeAt (59 :: t)) = false ∧ isNumber (runeAt (59 :: t)) = false ∧
      runeAt (59 :: t) ≠ 61 := by
  rw [(runeAt_ascii 59 t (by decide)).1]
  decide

theorem after_end :
    isAlpha (runeAt []) = false ∧ isNumber (runeAt []) = false ∧ runeAt [] ≠ 61 := by
  decide

theorem spaces_one : ∀ r ∈ [(32 : Int)], isSpace r = true := by decide

theorem spaces_none : ∀ r ∈ ([] : List Int), isSpace r = true := by
  intro r hr; cases hr

/-- An identifier before a space, a `;` or the end of the input is an item. -/
theorem item_identifier (a rest : List Nat) (ha : identifierText a)
    (hr : isAlpha (runeAt rest) = false) : Item rest a { Kind := IDENT, Literal := a } := by
  obtain ⟨hne, hal, hk⟩ := ha
  rcases a with _ | ⟨b, a⟩
  · exact absurd rfl hne
  · have := Item.ident b a hal hr
    rw [hk] at this
    exact this

/-- An integer literal before a space, a `;` or the end of the input is an item. -/
theorem item_integer (d rest : List Nat) (hd : integerText d)
    (hr : isNumber (runeAt rest) = false) (hra : isAlpha (runeAt rest) = false) :
    Item rest d { Kind := INT, Literal := d } := by
  obtain ⟨hne, hdig, _⟩ := hd
  rcases d with _ | ⟨b, d⟩
  · exact absurd rfl hne
  · exact Item.int b d hdig hr hra

end parser

namespace parser

open token ast lexer

theorem NextTokens_length (pr : Int → Bool) : ∀ (n : Nat) (l l1 : goLex) (ts : List Token),
    l.NextTokens pr n = .ok (ts, l1) → ts.length = n := by
  intro n
  induction n with
  | zero =>
    intro l l1 ts h
    rw [NextTokens_zero] at h
    cases h
    rfl
  | succ n ih =>
    intro l l1 ts h
    obtain ⟨t, l2, ts1, _, h2, rfl⟩ := NextTokens_succ_inv pr n l l1 ts h
    rw [List.length_cons, ih l2 l1 ts1 h2]

/-- Once the calls of `NextToken` have returned an EOF token, the tokens before it
followed by any number of EOF tokens are what the calls return. -/
theorem stream_then_eof (pr : Int → Bool) (inp : List Nat) :
    ∀ (n : Nat) (l l1 : goLex) (ts : List Token), Boundary inp l →
      l.NextTokens pr n = .ok (ts, l1) → (∃ t ∈ ts, t.Kind = EOF) →
      ∀ k : Nat, ∃ l2,
        l.NextTokens pr ((ts.takeWhile (fun t => decide (t.Kind ≠ EOF))).length + k) =
          .ok (ts.takeWhile (fun t => decide (t.Kind ≠ EOF))
            ++ List.replicate k { Kind := EOF, Literal := [] }, l2) := by
  intro n
  induction n with
  | zero =>
    intro l l1 ts _ h he
    rw [NextTokens_zero] at h
    cases h
    obtain ⟨t, ht, _⟩ := he
    cases ht
  | succ n ih =>
    intro l l1 ts hb h he k
    obtain ⟨t, l2, ts1, h1, h2, rfl⟩ := NextTokens_succ_inv pr n l l1 ts h
    by_cases hk : t.Kind = EOF
    · rw [List.takeWhile_cons_of_neg (by simpa using hk)]
      simp only [List.length_nil, Nat.zero_add, List.nil_append]
      cases k with
      | zero => exact ⟨l, rfl⟩
      | succ k =>
        obtain ⟨hlit, hrun⟩ := eof_absorbs pr inp l l2 t hb h1 hk k
        have ht : t = { Kind := EOF, Literal := [] } := by
          cases t
          simp only at hk hlit
          rw [hk, hlit]
        rw [ht] at h1
        exact ⟨l2, NextTokens_succ pr k _ _ _ _ _ h1 hrun⟩
    · rw [List.takeWhile_cons_of_pos (by simpa using hk)]
      have hb2 : Boundary inp l2 := by
        obtain ⟨t', l2', h', hb', _⟩ := NextToken_boundary pr inp l hb
        rw [h1] at h'
        cases h'
        exact hb'
      have he2 : ∃ t ∈ ts1, t.Kind = EOF := by
        obtain ⟨x, hx, hxk⟩ := he
        rw [List.mem_cons] at hx
        rcases hx with rfl | hx
        · exact absurd hxk hk
        · exact ⟨x, hx, hxk⟩
      obtain ⟨l3, h3⟩ := ih l2 l1 ts1 hb2 h2 he2 k
      refine ⟨l3, ?_⟩
      have hn : (t :: ts1.takeWhile (fun t => decide (t.Kind ≠ EOF))).length + k =
          ((ts1.takeWhile (fun t => decide (t.Kind ≠ EOF))).length + k) + 1 := by
        simp only [List.length_cons]; omega
      rw [hn, List.cons_append]
      exact NextTokens_succ pr _ _ _ _ _ _ h1 h3

/-- The tokens before the first EOF token are returned one after the other. -/
theorem stream_before_eof (pr : Int → Bool) :
    ∀ (n : Nat) (l l1 : goLex) (ts : List Token), l.NextTokens pr n = .ok (ts, l1) →
      ∀ j : Nat, j ≤ (ts.takeWhile (fun t => decide (t.Kind ≠ EOF))).length →
      ∃ l2, l.NextTokens pr j =
        .ok ((ts.takeWhile (fun t => decide (t.Kind ≠ EOF))).take j, l2) := by
  intro n
  induction n with
  | zero =>
    intro l l1 ts h j hj
    rw [NextTokens_zero] at h
    cases h
    have : j = 0 := by simpa using hj
    subst this
    exact ⟨l, rfl⟩
  | succ n ih =>
    intro l l1 ts h j hj
    cases j with
    | zero => exact ⟨l, rfl⟩
    | succ j =>
      obtain ⟨t, l2, ts1, h1, h2, rfl⟩ := NextTokens_succ_inv pr n l l1 ts h
      by_cases hk : t.Kind = EOF
      · rw [List.takeWhile_cons_of_neg (by simpa using hk)] at hj
        simp at hj
      · rw [List.takeWhile_cons_of_pos (by simpa using hk)] at hj ⊢
        rw [List.length_cons] at hj
        obtain ⟨l3, h3⟩ := ih l2 l1 ts1 h2 j (by omega)
        exact ⟨l3, NextTokens_succ pr _ _ _ _ _ _ h1 h3⟩

/-- The token stream of the parser is what the lexer returns: for every input it is
defined, the first calls of `NextToken` return its tokens one after the other, and all
calls after them return the EOF token. -/
theorem tokenStream_faithful (pr : Int → Bool) (input : List Nat) :
    ∃ s, tokenStream pr input = .ok s ∧
      (∀ j : Nat, j ≤ s.length → ∃ l, (NewGoLex input).NextTokens pr j = .ok (s.take j, l)) ∧
      (∀ k : Nat, ∃ l, (NewGoLex input).NextTokens pr (s.length + k) =
        .ok (s ++ List.replicate k { Kind := EOF, Literal := [] }, l)) := by
  obtain ⟨ts, l, h1, _⟩ := NextTokens_boundary pr input (input.length + 1) _
    (NewGoLex_boundary input)
  have hlen := NextTokens_length pr _ _ _ _ h1
  have hcount : (ts.filter (fun t => decide (t.Kind ≠ EOF))).length ≤ input.length := by
    have h1' := h1
    rw [NewGoLex_eq] at h1'
    have := count_bound pr input _ 0 0 false ts l (Nat.zero_le _) h1'
    omega
  have he : ∃ t ∈ ts, t.Kind = EOF := by
    by_contra hno
    have hall : ∀ t ∈ ts, decide (t.Kind ≠ EOF) = true := by
      intro t ht
      simp only [decide_eq_true_eq]
      intro hk
      exact hno ⟨t, ht, hk⟩
    rw [List.filter_eq_self.mpr hall] at hcount
    omega
  refine ⟨ts.takeWhile (fun t => decide (t.Kind ≠ EOF)), ?_, ?_, ?_⟩
  · unfold tokenStream
    rw [h1]
  · exact stream_before_eof pr _ _ _ _ h1
  · exact stream_then_eof pr input _ _ _ _ (NewGoLex_boundary input) h1 he

end parser

namespace parser

open token ast lexer

theorem unaryOperator_cases (u : List Nat) (h : u ∈ unaryOperators) : u = [33] ∨ u = [45] := by
  have e : unaryOperators = [[33], [45]] := by decide
  rw [e] at h
  simpa using h

/-- The program of `let x = v;` for an operand `v`. -/
theorem program_let (boolean : Token → Expression) (x v : List Nat) (tv : Token)
    (ev : Expression) (hv : Operand v tv ev) :
    (New [{ Kind := LET, Literal := str "let" }, { Kind := IDENT, Literal := x },
        { Kind := ASSIGN, Literal := str "=" }, tv,
        { Kind := SEMICOLON, Literal := str ";" }]).ParseProgram boolean =
      .ok ({ Statements := [Statement.LetStatement { Kind := LET, Literal := str "let" }
        (some { Token := { Kind := IDENT, Literal := x }, Value := x }) ev] }, finished []) := by
  cases hv with
  | ident h => rfl
  | int n h hn =>
    simp +decide [New, Parser.nextToken, Parser.ParseProgram, Parser.ParseProgramLoop,
      Parser.parseStatement, Parser.parseLetStatement, Parser.expectPeek, Parser.fuel,
      Parser.parseExpression, Parser.parseExpressionLoop, Parser.skipSemicolon, finished, hn]

/-- The program of `let x = true;`: the value is the node of the boolean literal. -/
theorem program_let_true (boolean : Token → Expression) (x : List Nat)
    (hb : boolean { Kind := TRUE, Literal := str "true" } ≠ Expression.nil) :
    (New [{ Kind := LET, Literal := str "let" }, { Kind := IDENT, Literal := x },
        { Kind := ASSIGN, Literal := str "=" }, { Kind := TRUE, Literal := str "true" },
        { Kind := SEMICOLON, Literal := str ";" }]).ParseProgram boolean =
      .ok ({ Statements := [Statement.LetStatement { Kind := LET, Literal := str "let" }
        (some { Token := { Kind := IDENT, Literal := x }, Value := x })
        (boolean { Kind := TRUE, Literal := str "true" })] }, finished []) := by
  simp +decide [New, Parser.nextToken, Parser.ParseProgram, Parser.ParseProgramLoop,
    Parser.parseStatement, Parser.parseLetStatement, Parser.expectPeek, Parser.fuel,
    Parser.parseExpression, Parser.parseExpressionLoop, Parser.skipSemicolon, finished, hb]

/-- The program of `a o1 b o2 c` for identifiers `a`, `b`, `c`: the operator in the higher
row of the table takes `b`, and of two operators of one row the left one. -/
theorem program_three (boolean : Token → Expression) (a b c o1 o2 : List Nat)
    (h1 : o1 ∈ binaryOperators) (h2 : o2 ∈ binaryOperators) :
    (New [{ Kind := IDENT, Literal := a }, { Kind := o1, Literal := o1 },
        { Kind := IDENT, Literal := b }, { Kind := o2, Literal := o2 },
        { Kind := IDENT, Literal := c }]).ParseProgram boolean =
      .ok ({ Statements := [Statement.ExpressionStatement { Kind := IDENT, Literal := a }
        (if operatorRow o2 ≤ operatorRow o1 then
          Expression.InfixExpression { Kind := o2, Literal := o2 }
            (Expression.InfixExpression { Kind := o1, Literal := o1 }
              (Expression.Identifier { Kind := IDENT, Literal := a } a) o1
              (Expression.Identifier { Kind := IDENT, Literal := b } b)) o2
            (Expression.Identifier { Kind := IDENT, Literal := c } c)
        else
          Expression.InfixExpression { Kind := o1, Literal := o1 }
            (Expression.Identifier { Kind := IDENT, Literal := a } a) o1
            (Expression.InfixExpression { Kind := o2, Literal := o2 }
              (Expression.Identifier { Kind := IDENT, Literal := b } b) o2
              (Expression.Identifier { Kind := IDENT, Literal := c } c)))] }, finished []) := by
  rcases binaryOperator_cases o1 h1 with rfl | rfl | rfl | rfl | rfl | rfl | rfl | rfl <;>
  rcases binaryOperator_cases o2 h2 with rfl | rfl | rfl | rfl | rfl | rfl | rfl | rfl <;>
  rfl

/-- The program of `u a o b` for identifiers `a`, `b`: the unary operator takes `a`. -/
theorem program_unary_binary (boolean : Token → Expression) (u a o b : List Nat)
    (hu : u ∈ unaryOperators) (ho : o ∈ binaryOperators) :
    (New [{ Kind := u, Literal := u }, { Kind := IDENT, Literal := a },
        { Kind := o, Literal := o }, { Kind := IDENT, Literal := b }]).ParseProgram boolean =
      .ok ({ Statements := [Statement.ExpressionStatement { Kind := u, Literal := u }
        (Expression.InfixExpression { Kind := o, Literal := o }
          (Expression.PrefixExpression { Kind := u, Literal := u } u
            (Expression.Identifier { Kind := IDENT, Literal := a } a)) o
          (Expression.Identifier { Kind := IDENT, Literal := b } b))] }, finished []) := by
  rcases unaryOperator_cases u hu with rfl | rfl <;>
  rcases binaryOperator_cases o ho with rfl | rfl | rfl | rfl | rfl | rfl | rfl | rfl <;>
  rfl

/-- A parse is the parse of the token stream of the input. -/
theorem render_of_stream (pr : Int → Bool) (boolean : Token → Expression) (input : List Nat)
    (l : List Token) (program : Program) (p : Parser) (h1 : tokenStream pr input = .ok l)
    (h2 : (New l).ParseProgram boolean = .ok (program, p)) :
    parse pr boolean input = .ok (program, p.errors) ∧
      render pr boolean input = .ok (program.String, p.errors) := by
  have e : parse pr boolean input = .ok (program, p.errors) := by
    unfold parse
    rw [h1]
    simp only
    rw [h2]
    rfl
  refine ⟨e, ?_⟩
  unfold render
  rw [e]

end parser

namespace parser

open token ast lexer

theorem runesToString_nil : runesToString [] = [] := rfl

theorem runesToString_space : runesToString [32] = [32] := by decide

theorem str_space : str " " = [32] := by decide

theorem space_class (r : Int) (h : isSpace r = true) :
    isAlpha r = false ∧ isNumber r = false ∧ r ≠ 61 := by
  refine ⟨?_, ?_, ?_⟩
  · cases ha : isAlpha r with
    | false => rfl
    | true => rw [(isAlpha_class r ha).2.2.1] at h; cases h
  · cases hn : isNumber r with
    | false => rfl
    | true => rw [(isNumber_class r hn).2.2.1] at h; cases h
  · intro e
    rw [e] at h
    exact absurd h (by decide)

/-- What the lexer reads behind a gap of whitespace: a whitespace character, or what it
reads behind the gap if the gap is empty. -/
theorem after_gap (ws : List Int) (t : List Nat) (hws : ∀ r ∈ ws, isSpace r = true) :
    runeAt (runesToString ws ++ t) = runeAt t ∨ isSpace (runeAt (runesToString ws ++ t)) = true := by
  cases ws with
  | nil => exact Or.inl rfl
  | cons r ws =>
    right
    have hr := hws r (List.mem_cons_self _ _)
    have e : runesToString (r :: ws) ++ t = utf8.AppendRune r ++ (runesToString ws ++ t) := by
      simp only [runesToString, List.append_assoc]
    rw [e, (runeAt_appendRune r _ hr).1]
    exact hr

theorem after_gap_class (ws : List Int) (t : List Nat) (hws : ∀ r ∈ ws, isSpace r = true)
    (h1 : isAlpha (runeAt t) = false) (h2 : isNumber (runeAt t) = false) :
    isAlpha (runeAt (runesToString ws ++ t)) = false ∧
      isNumber (runeAt (runesToString ws ++ t)) = false := by
  rcases after_gap ws t hws with e | e
  · rw [e]; exact ⟨h1, h2⟩
  · exact ⟨(space_class _ e).1, (space_class _ e).2.1⟩

theorem after_gap_ne (ws : List Int) (t : List Nat) (hws : ∀ r ∈ ws, isSpace r = true)
    (h : runeAt t ≠ 61) : runeAt (runesToString ws ++ t) ≠ 61 := by
  rcases after_gap ws t hws with e | e
  · rw [e]; exact h
  · exact (space_class _ e).2.2

theorem after_tail (ws : List Int) (hws : ∀ r ∈ ws, isSpace r = true) :
    isAlpha (runeAt (runesToString ws)) = false ∧
      isNumber (runeAt (runesToString ws)) = false := by
  have := after_gap_class ws [] hws (by decide) (by decide)
  rw [List.append_nil] at this
  exact this

theorem after_paren (t : List Nat) :
    isAlpha (runeAt (41 :: t)) = false ∧ isNumber (runeAt (41 :: t)) = false := by
  rw [(runeAt_ascii 41 t (by decide)).1]
  decide

/-- The first character of an operand is a letter, an underscore or a digit, so no `=`. -/
theorem operand_head (x t : List Nat) (tok : Token) (e : Expression) (h : Operand x tok e) :
    runeAt (x ++ t) ≠ 61 := by
  cases h with
  | ident h =>
    obtain ⟨hne, hal, _⟩ := h
    rcases x with _ | ⟨b, a⟩
    · exact absurd rfl hne
    · have hb := hal b (List.mem_cons_self _ _)
      have hs := isAlpha_small _ hb
      rw [List.cons_append, (runeAt_ascii b _ (by omega)).1]
      intro e
      rw [e] at hb
      exact absurd hb (by decide)
  | int n h hn =>
    obtain ⟨hne, hdig, _⟩ := h
    rcases x with _ | ⟨b, d⟩
    · exact absurd rfl hne
    · have hb := hdig b (List.mem_cons_self _ _)
      have hs := isNumber_small _ hb
      rw [List.cons_append, (runeAt_ascii b _ (by omega)).1]
      intro e
      rw [e] at hb
      exact absurd hb (by decide)

/-- The first character of a binary operator is no letter, underscore or digit. -/
theorem binary_head (o t : List Nat) (h : o ∈ binaryOperators) :
    isAlpha (runeAt (o ++ t)) = false ∧ isNumber (runeAt (o ++ t)) = false := by
  rcases binaryOperator_cases o h with rfl | rfl | rfl | rfl | rfl | rfl | rfl | rfl <;>
  · simp only [List.cons_append, List.nil_append]
    rw [(runeAt_ascii _ _ (by decide)).1]
    decide

theorem item_operand (x rest : List Nat) (tok : Token) (e : Expression) (h : Operand x tok e)
    (hr : isAlpha (runeAt rest) = false ∧ isNumber (runeAt rest) = false) :
    Item rest x tok := by
  cases h with
  | ident h => exact item_identifier x rest h hr.1
  | int n h hn => exact item_integer x rest h hr.2 hr.1

theorem item_binary (o rest : List Nat) (h : o ∈ binaryOperators) :
    Item rest o { Kind := o, Literal := o } := by
  rcases binaryOperator_cases o h with rfl | rfl | rfl | rfl | rfl | rfl | rfl | rfl
  · exact Item.op2 61 (Or.inr rfl)
  · exact Item.op2 33 (Or.inl rfl)
  all_goals exact Item.single _ (by decide)

theorem item_unary (u rest : List Nat) (h : u ∈ unaryOperators) (hr : runeAt rest ≠ 61) :
    Item rest u { Kind := u, Literal := u } := by
  rcases unaryOperator_cases u h with rfl | rfl
  · exact Item.op1 33 (Or.inl rfl) hr
  · exact Item.single _ (by decide)

/-- The tokens of `a o1 b o2 c`. -/
theorem stream_three (pr : Int → Bool) (a b c o1 o2 : List Nat) (ha : identifierText a)
    (hb : identifierText b) (hc : identifierText c) (h1 : o1 ∈ binaryOperators)
    (h2 : o2 ∈ binaryOperators) :
    tokenStream pr (a ++ str " " ++ o1 ++ str " " ++ b ++ str " " ++ o2 ++ str " " ++ c) =
      .ok [{ Kind := IDENT, Literal := a }, { Kind := o1, Literal := o1 },
        { Kind := IDENT, Literal := b }, { Kind := o2, Literal := o2 },
        { Kind := IDENT, Literal := c }] := by
  have hs : Spaced [([], a, { Kind := IDENT, Literal := a }),
      ([32], o1, { Kind := o1, Literal := o1 }), ([32], b, { Kind := IDENT, Literal := b }),
      ([32], o2, { Kind := o2, Literal := o2 }), ([32], c, { Kind := IDENT, Literal := c })] [] :=
    ⟨spaces_none, item_identifier a _ ha (after_space _).1,
      spaces_one, item_binary o1 _ h1,
      spaces_one, item_identifier b _ hb (after_space _).1,
      spaces_one, item_binary o2 _ h2,
      spaces_one, item_identifier c _ hc after_end.1, spaces_none⟩
  have h := tokenStream_items pr _ [] hs
  simp only [sourceText, runesToString_nil, runesToString_space, List.nil_append,
    List.append_nil, List.map_cons, List.map_nil] at h
  simp only [str_space, List.append_assoc]
  exact h

/-- The tokens of `u a o b`, the unary operator `u` directly before `a`. -/
theorem stream_unary_binary (pr : Int → Bool) (u a o b : List Nat) (hu : u ∈ unaryOperators)
    (ha : identifierText a) (hb : identifierText b) (ho : o ∈ binaryOperators) :
    tokenStream pr (u ++ a ++ str " " ++ o ++ str " " ++ b) =
      .ok [{ Kind := u, Literal := u }, { Kind := IDENT, Literal := a },
        { Kind := o, Literal := o }, { Kind := IDENT, Literal := b }] := by
  have hs : Spaced [([], u, { Kind := u, Literal := u }),
      ([], a, { Kind := IDENT, Literal := a }), ([32], o, { Kind := o, Literal := o }),
      ([32], b, { Kind := IDENT, Literal := b })] [] :=
    ⟨spaces_none, item_unary u _ hu (operand_head a _ _ _ (Operand.ident a ha)),
      spaces_none, item_identifier a _ ha (after_space _).1,
      spaces_one, item_binary o _ ho,
      spaces_one, item_identifier b _ hb after_end.1, spaces_none⟩
  have h := tokenStream_items pr _ [] hs
  simp only [sourceText, runesToString_nil, runesToString_space, List.nil_append,
    List.append_nil, List.map_cons, List.map_nil] at h
  simp only [str_space, List.append_assoc]
  exact h

/-- The tokens of `let x = v;`. -/
theorem stream_let (pr : Int → Bool) (x v : List Nat) (tv : Token) (ev : Expression)
    (hx : identifierText x) (hv : Operand v tv ev) :
    tokenStream pr (str "let " ++ x ++ str " = " ++ v ++ str ";") =
      .ok [{ Kind := LET, Literal := str "let" }, { Kind := IDENT, Literal := x },
        { Kind := ASSIGN, Literal := str "=" }, tv,
        { Kind := SEMICOLON, Literal := str ";" }] := by
  have hs : Spaced [([], str "let", { Kind := LET, Literal := str "let" }),
      ([32], x, { Kind := IDENT, Literal := x }),
      ([32], str "=", { Kind := ASSIGN, Literal := str "=" }), ([32], v, tv),
      ([], str ";", { Kind := SEMICOLON, Literal := str ";" })] [] :=
    ⟨spaces_none, Item.ident 108 [101, 116] (by decide) (after_space _).1,
      spaces_one, item_identifier x _ hx (after_space _).1,
      spaces_one, Item.op1 61 (Or.inr rfl) (after_space _).2.2,
      spaces_one, item_operand v _ tv ev hv ⟨(after_semicolon _).1, (after_semicolon _).2.1⟩,
      spaces_none, Item.single 59 (by decide), spaces_none⟩
  have h := tokenStream_items pr _ [] hs
  simp only [sourceText, runesToString_nil, runesToString_space, List.nil_append,
    List.append_nil, List.map_cons, List.map_nil] at h
  have e1 : str "let " = str "let" ++ [32] := by decide
  have e2 : str " = " = 32 :: (str "=" ++ [32]) := by decide
  simp only [e1, e2, List.append_assoc, List.cons_append, List.nil_append]
  exact h

end parser

namespace parser

open token ast lexer

theorem stateOf_cur (t : Token) (ts : List Token) (es : List ParseError) :
    (stateOf (t :: ts) es).curToken = t := rfl

theorem stateOf_peek (t u : Token) (ts : List Token) (es : List ParseError) :
    (stateOf (t :: u :: ts) es).peekToken = u := rfl

theorem stateOf_peek_end (t : Token) (es : List ParseError) :
    (stateOf [t] es).peekToken = { Kind := EOF, Literal := [] } := rfl

theorem stateOf_errors (ts : List Token) (es : List ParseError) :
    (stateOf ts es).errors = es := rfl

theorem nextToken_stateOf (ts : List Token) (es : List ParseError) :
    (stateOf ts es).nextToken = stateOf ts.tail es := by
  rcases ts with _ | ⟨a, _ | ⟨b, _ | ⟨c, ts⟩⟩⟩ <;> rfl

theorem New_stateOf (ts : List Token) : New ts = stateOf ts [] := by
  rcases ts with _ | ⟨a, _ | ⟨b, _ | ⟨c, ts⟩⟩⟩ <;> rfl

theorem parseExpression_ident (boolean : Token → Expression) (f m : Nat) (p : Parser)
    (h : p.curToken.Kind = IDENT) :
    Parser.parseExpression boolean (f + 1) m p =
      Parser.parseExpressionLoop boolean f m
        (Expression.Identifier p.curToken p.curToken.Literal) p := by
  simp only [Parser.parseExpression]
  rw [if_pos h]

theorem parseExpression_int (boolean : Token → Expression) (f m : Nat) (p : Parser)
    (h : p.curToken.Kind = INT) :
    Parser.parseExpression boolean (f + 1) m p =
      match parseInt64 p.curToken.Literal with
      | some v =>
        Parser.parseExpressionLoop boolean f m (Expression.IntegerLiteral p.curToken v) p
      | none => .ok (Expression.nil, p.addError (.badInteger p.curToken.Literal)) := by
  simp only [Parser.parseExpression]
  rw [if_neg (by rw [h]; decide), if_pos h]
  try rfl

theorem parseExpression_bool (boolean : Token → Expression) (f m : Nat) (p : Parser)
    (h : p.curToken.Kind = TRUE ∨ p.curToken.Kind = FALSE) :
    Parser.parseExpression boolean (f + 1) m p =
      Parser.parseExpressionLoop boolean f m (boolean p.curToken) p := by
  have h1 : p.curToken.Kind ≠ IDENT := by
    rcases h with h | h <;> rw [h] <;> decide
  have h2 : p.curToken.Kind ≠ INT := by
    rcases h with h | h <;> rw [h] <;> decide
  simp only [Parser.parseExpression]
  rw [if_neg h1, if_neg h2, if_pos h]

theorem parseExpression_unary (boolean : Token → Expression) (f m : Nat) (p : Parser)
    (h : p.curToken.Kind = BANG ∨ p.curToken.Kind = MINUS) :
    Parser.parseExpression boolean (f + 1) m p =
      match Parser.parsePrefixExpression boolean f p with
      | .error e => .error e
      | .ok (left, p) =>
        if left = Expression.nil then .ok (Expression.nil, p)
        else Parser.parseExpressionLoop boolean f m left p := by
  have h1 : p.curToken.Kind ≠ IDENT := by
    rcases h with h | h <;> rw [h] <;> decide
  have h2 : p.curToken.Kind ≠ INT := by
    rcases h with h | h <;> rw [h] <;> decide
  have h3 : ¬ (p.curToken.Kind = TRUE ∨ p.curToken.Kind = FALSE) := by
    rcases h with h | h <;> rw [h] <;> decide
  simp only [Parser.parseExpression]
  rw [if_neg h1, if_neg h2, if_neg h3, if_pos h]
  try rfl

theorem parseExpression_group (boolean : Token → Expression) (f m : Nat) (p : Parser)
    (h : p.curToken.Kind = LPAREN) :
    Parser.parseExpression boolean (f + 1) m p =
      match Parser.parseGroupedExpression boolean f p with
      | .error e => .error e
      | .ok (left, p) =>
        if left = Expression.nil then .ok (Expression.nil, p)
        else Parser.parseExpressionLoop boolean f m left p := by
  simp only [Parser.parseExpression]
  rw [if_neg (by rw [h]; decide), if_neg (by rw [h]; decide), if_neg (by rw [h]; decide),
    if_neg (by rw [h]; decide), if_pos h]
  try rfl

theorem parseExpression_other (boolean : Token → Expression) (f m : Nat) (p : Parser)
    (h1 : p.curToken.Kind ≠ IDENT) (h2 : p.curToken.Kind ≠ INT)
    (h3 : ¬ (p.curToken.Kind = TRUE ∨ p.curToken.Kind = FALSE))
    (h4 : ¬ (p.curToken.Kind = BANG ∨ p.curToken.Kind = MINUS))
    (h5 : p.curToken.Kind ≠ LPAREN) :
    Parser.parseExpression boolean (f + 1) m p =
      .ok (Expression.nil, p.addError (.noPrefixParseFn p.curToken.Kind)) := by
  simp only [Parser.parseExpression]
  rw [if_neg h1, if_neg h2, if_neg h3, if_neg h4, if_neg h5]

theorem parseExpressionLoop_stop (boolean : Token → Expression) (f m : Nat)
    (left : Expression) (p : Parser) (h : ¬ m < precedence p.peekToken.Kind) :
    Parser.parseExpressionLoop boolean (f + 1) m left p = .ok (left, p) := by
  simp only [Parser.parseExpressionLoop]
  rw [if_neg h]

theorem parseExpressionLoop_step (boolean : Token → Expression) (f m : Nat)
    (left : Expression) (p : Parser) (h : m < precedence p.peekToken.Kind) :
    Parser.parseExpressionLoop boolean (f + 1) m left p =
      match Parser.parseInfixExpression boolean f left p.nextToken with
      | .error e => .error e
      | .ok (left, p) =>
        if left = Expression.nil then .ok (Expression.nil, p)
        else Parser.parseExpressionLoop boolean f m left p := by
  simp only [Parser.parseExpressionLoop]
  rw [if_pos h]
  try rfl

theorem parsePrefixExpression_succ (boolean : Token → Expression) (f : Nat) (p : Parser) :
    Parser.parsePrefixExpression boolean (f + 1) p =
      match Parser.parseExpression boolean f PREFIX p.nextToken with
      | .error e => .error e
      | .ok (right, p1) =>
        if right = Expression.nil then .ok (Expression.nil, p1)
        else .ok (Expression.PrefixExpression p.curToken p.curToken.Literal right, p1) := by
  simp only [Parser.parsePrefixExpression]
  try rfl

theorem parseGroupedExpression_succ (boolean : Token → Expression) (f : Nat) (p : Parser) :
    Parser.parseGroupedExpression boolean (f + 1) p =
      match Parser.parseExpression boolean f LOWEST p.nextToken with
      | .error e => .error e
      | .ok (exp, p1) =>
        if exp = Expression.nil then .ok (Expression.nil, p1)
        else
          match p1.expectPeek RPAREN with
          | (false, p2) => .ok (Expression.nil, p2)
          | (true, p2) => .ok (exp, p2) := by
  simp only [Parser.parseGroupedExpression]
  try rfl

theorem parseInfixExpression_succ (boolean : Token → Expression) (f : Nat)
    (left : Expression) (p : Parser) :
    Parser.parseInfixExpression boolean (f + 1) left p =
      match Parser.parseExpression boolean f (precedence p.curToken.Kind) p.nextToken with
      | .error e => .error e
      | .ok (right, p1) =>
        if right = Expression.nil then .ok (Expression.nil, p1)
        else .ok (Expression.InfixExpression p.curToken left p.curToken.Literal right, p1) := by
  simp only [Parser.parseInfixExpression]
  try rfl

theorem ParseProgramLoop_succ (boolean : Token → Expression) (n : Nat) (p : Parser)
    (statements : List Statement) :
    Parser.ParseProgramLoop boolean (n + 1) p statements =
      if p.curToken.Kind = EOF then .ok (statements, p)
      else
        match p.parseStatement boolean with
        | .error e => .error e
        | .ok (none, p) => Parser.ParseProgramLoop boolean n p.nextToken statements
        | .ok (some stmt, p) =>
          Parser.ParseProgramLoop boolean n p.nextToken (statements ++ [stmt]) := by
  rfl

theorem precedence_binary (o : List Nat) (h : o ∈ binaryOperators) :
    LOWEST < precedence o ∧ precedence o < PREFIX := by
  rcases binaryOperator_cases o h with rfl | rfl | rfl | rfl | rfl | rfl | rfl | rfl <;> decide

theorem precedence_rparen : precedence RPAREN = LOWEST := by decide

theorem precedence_eof : precedence EOF = LOWEST := by decide

end parser

namespace parser

open token ast lexer

theorem str_parens : str "(" = [40] ∧ str ")" = [41] := by decide

theorem operand_string (x : List Nat) (tok : Token) (e : Expression) (h : Operand x tok e) :
    e.String = x ∧ e ≠ Expression.nil := by
  cases h with
  | ident h => exact ⟨rfl, by intro e; cases e⟩
  | int n h hn => exact ⟨rfl, by intro e; cases e⟩

theorem program_string_single (tok : Token) (e : Expression) (h : e ≠ Expression.nil) :
    Program.String { Statements := [Statement.ExpressionStatement tok e] } = e.String := by
  simp [Program.String, writeString_flatten, Statement.String, h]

/-- The rendering of a parsed tree does not start with `=`. -/
theorem parsed_head (boolean : Token → Expression)
    (hs : ∀ t, (boolean t).String = t.Literal) (e : Expression) (ts : List Token)
    (h : Parsed boolean e ts) (X : List Nat) : runeAt (e.String ++ X) ≠ 61 := by
  cases h with
  | operand x tok e h =>
    rw [(operand_string x tok e h).1]
    exact operand_head x X tok e h
  | bool t ht =>
    rw [hs t]
    rcases ht with rfl | rfl
    · show runeAt (116 :: ([114, 117, 101] ++ X)) ≠ 61
      rw [(runeAt_ascii 116 _ (by decide)).1]
      decide
    · show runeAt (102 :: ([97, 108, 115, 101] ++ X)) ≠ 61
      rw [(runeAt_ascii 102 _ (by decide)).1]
      decide
  | unary u r ts hu hr =>
    rw [string_prefixExpression, List.cons_append, (runeAt_ascii 40 _ (by decide)).1]
    decide
  | binary o l r tl tr ho hl hr =>
    rw [string_infixExpression, List.cons_append, (runeAt_ascii 40 _ (by decide)).1]
    decide

/-- The rendering of a parsed tree, after a gap of whitespace and before well separated
items, is a text of well separated items, and their tokens are the tokens of the tree. -/
theorem rendering_items (boolean : Token → Expression)
    (hs : ∀ t, (boolean t).String = t.Literal) (e : Expression) (ts : List Token)
    (h : Parsed boolean e ts) :
    ∀ (g : List Int) (K : List (List Int × List Nat × Token)) (tail : List Int),
      (∀ r ∈ g, isSpace r = true) → Spaced K tail →
      isAlpha (runeAt (sourceText K tail)) = false →
      isNumber (runeAt (sourceText K tail)) = false →
      ∃ its : List (List Int × List Nat × Token), its.map (fun i => i.2.2) = ts ∧
        sourceText (its ++ K) tail = runesToString g ++ (e.String ++ sourceText K tail) ∧
        Spaced (its ++ K) tail := by
  induction h with
  | operand x tok e h =>
    intro g K tail hg hK ha hn
    refine ⟨[(g, x, tok)], rfl, ?_, hg, item_operand x _ tok e h ⟨ha, hn⟩, hK⟩
    rw [(operand_string x tok e h).1]
    rfl
  | bool t ht =>
    intro g K tail hg hK ha hn
    refine ⟨[(g, t.Literal, t)], rfl, ?_, hg, ?_, hK⟩
    · rw [hs t]
      rfl
    · rcases ht with rfl | rfl
      · exact Item.ident 116 [114, 117, 101] (by decide) ha
      · exact Item.ident 102 [97, 108, 115, 101] (by decide) ha
  | unary u r ts hu hr ih =>
    intro g K tail hg hK ha hn
    have hK1 : Spaced (([], str ")", { Kind := RPAREN, Literal := str ")" }) :: K) tail :=
      ⟨spaces_none, Item.single 41 (by decide), hK⟩
    have hf := after_paren (sourceText K tail)
    obtain ⟨itr, h1, h2, h3⟩ := ih [] _ tail spaces_none hK1 hf.1 hf.2
    refine ⟨(g, str "(", { Kind := LPAREN, Literal := str "(" }) ::
      ([], u, { Kind := u, Literal := u }) :: itr
        ++ [([], str ")", { Kind := RPAREN, Literal := str ")" })], ?_, ?_, ?_⟩
    · simp only [List.cons_append, List.map_cons, List.map_append, List.map_nil, h1]
    · have e1 : ((g, str "(", ({ Kind := LPAREN, Literal := str "(" } : Token)) ::
          ([], u, { Kind := u, Literal := u }) :: itr
            ++ [([], str ")", { Kind := RPAREN, Literal := str ")" })]) ++ K =
          (g, str "(", { Kind := LPAREN, Literal := str "(" }) ::
            ([], u, { Kind := u, Literal := u }) ::
              (itr ++ ([], str ")", { Kind := RPAREN, Literal := str ")" }) :: K) := by
        simp
      rw [e1]
      simp only [sourceText]
      rw [h2]
      simp only [sourceText, string_prefixExpression, runesToString_nil, str_parens.1,
        str_parens.2, List.nil_append, List.cons_append, List.append_assoc]
    · have e1 : ((g, str "(", ({ Kind := LPAREN, Literal := str "(" } : Token)) ::
          ([], u, { Kind := u, Literal := u }) :: itr
            ++ [([], str ")", { Kind := RPAREN, Literal := str ")" })]) ++ K =
          (g, str "(", { Kind := LPAREN, Literal := str "(" }) ::
            ([], u, { Kind := u, Literal := u }) ::
              (itr ++ ([], str ")", { Kind := RPAREN, Literal := str ")" }) :: K) := by
        simp
      rw [e1]
      refine ⟨hg, Item.single 40 (by decide), spaces_none, item_unary u _ hu ?_, h3⟩
      rw [h2, runesToString_nil, List.nil_append]
      exact parsed_head boolean hs r ts hr _
  | binary o l r tl tr ho hl hr ihl ihr =>
    intro g K tail hg hK ha hn
    have hK1 : Spaced (([], str ")", { Kind := RPAREN, Literal := str ")" }) :: K) tail :=
      ⟨spaces_none, Item.single 41 (by decide), hK⟩
    have hf := after_paren (sourceText K tail)
    obtain ⟨itr, r1, r2, r3⟩ := ihr [32] _ tail spaces_one hK1 hf.1 hf.2
    have hK2 : Spaced (([32], o, { Kind := o, Literal := o }) ::
        (itr ++ ([], str ")", { Kind := RPAREN, Literal := str ")" }) :: K)) tail :=
      ⟨spaces_one, item_binary o _ ho, r3⟩
    have hf2 := after_space (o ++ sourceText
      (itr ++ ([], str ")", ({ Kind := RPAREN, Literal := str ")" } : Token)) :: K) tail)
    obtain ⟨itl, l1, l2, l3⟩ := ihl [] _ tail spaces_none hK2
      (by simp only [sourceText, runesToString_space, List.cons_append, List.nil_append]
          exact hf2.1)
      (by simp only [sourceText, runesToString_space, List.cons_append, List.nil_append]
          exact hf2.2.1)
    have e1 : ((g, str "(", ({ Kind := LPAREN, Literal := str "(" } : Token)) :: itl
          ++ ([32], o, { Kind := o, Literal := o }) :: itr
          ++ [([], str ")", { Kind := RPAREN, Literal := str ")" })]) ++ K =
        (g, str "(", { Kind := LPAREN, Literal := str "(" }) ::
          (itl ++ ([32], o, { Kind := o, Literal := o }) ::
            (itr ++ ([], str ")", { Kind := RPAREN, Literal := str ")" }) :: K)) := by
      simp
    refine ⟨(g, str "(", { Kind := LPAREN, Literal := str "(" }) :: itl
      ++ ([32], o, { Kind := o, Literal := o }) :: itr
      ++ [([], str ")", { Kind := RPAREN, Literal := str ")" })], ?_, ?_, ?_⟩
    · simp only [List.cons_append, List.map_cons, List.map_append, List.map_nil, l1, r1,
        List.append_assoc]
    · rw [e1]
      simp only [sourceText]
      rw [l2]
      simp only [sourceText]
      rw [r2]
      simp only [sourceText, string_infixExpression, runesToString_nil,
        runesToString_space, str_parens.1, str_parens.2, List.nil_append, List.cons_append,
        List.append_assoc]
    · rw [e1]
      exact ⟨hg, Item.single 40 (by decide), l3⟩

end parser

namespace parser

open token ast lexer

theorem operand_ne_nil (x : List Nat) (tok : Token) (e : Expression) (h : Operand x tok e) :
    e ≠ Expression.nil := by
  cases h with
  | ident h => intro e; cases e
  | int n h hn => intro e; cases e

theorem parsed_ne_nil (boolean : Token → Expression)
    (hb : ∀ t, boolean t ≠ Expression.nil) (e : Expression) (ts : List Token)
    (h : Parsed boolean e ts) : e ≠ Expression.nil := by
  cases h with
  | operand x tok e h => exact operand_ne_nil x tok e h
  | bool t ht => exact hb t
  | unary u r ts hu hr => intro e; cases e
  | binary o l r tl tr ho hl hr => intro e; cases e

theorem expectPeek_stateOf (z t : Token) (K : List Token) (es : List ParseError) :
    (stateOf (z :: t :: K) es).expectPeek t.Kind = (true, stateOf (t :: K) es) := by
  unfold Parser.expectPeek
  rw [if_pos (show (stateOf (z :: t :: K) es).peekToken.Kind = t.Kind from rfl),
    nextToken_stateOf]
  rfl

/-- The parser on the tokens of a rendering: the prefix parse function of the first token
returns the rendered tree and leaves the last token of the rendering current. -/
theorem parse_rendering (boolean : Token → Expression)
    (hb : ∀ t, boolean t ≠ Expression.nil) (e : Expression) (ts : List Token)
    (h : Parsed boolean e ts) :
    ∃ z, ∀ (f m : Nat) (K : List Token) (es : List ParseError), 2 * ts.length ≤ f →
      Parser.parseExpression boolean (f + 1) m (stateOf (ts ++ K) es) =
        Parser.parseExpressionLoop boolean f m e (stateOf (z :: K) es) := by
  induction h with
  | operand x tok e h =>
    refine ⟨tok, fun f m K es _ => ?_⟩
    cases h with
    | ident ha => exact parseExpression_ident boolean f m _ rfl
    | int n hi hn =>
      rw [parseExpression_int boolean f m _ rfl]
      show (match parseInt64 x with
        | some v => _
        | none => _) = _
      rw [hn]
      rfl
  | bool t ht =>
    refine ⟨t, fun f m K es _ => ?_⟩
    refine parseExpression_bool boolean f m _ ?_
    rcases ht with rfl | rfl
    · exact Or.inl rfl
    · exact Or.inr rfl
  | unary u r ts hu hr ih =>
    obtain ⟨z, ih⟩ := ih
    refine ⟨{ Kind := RPAREN, Literal := str ")" }, fun f m K es hf => ?_⟩
    have hne := parsed_ne_nil boolean hb r ts hr
    have hlen : 2 * ts.length + 6 ≤ f := by
      simp only [List.length_cons, List.length_append, List.length_nil] at hf
      omega
    obtain ⟨k, rfl⟩ : ∃ k, f = k + 5 := ⟨f - 5, by omega⟩
    have hl : ({ Kind := LPAREN, Literal := str "(" } :: { Kind := u, Literal := u } :: ts
        ++ [{ Kind := RPAREN, Literal := str ")" }]) ++ K =
        { Kind := LPAREN, Literal := str "(" } :: { Kind := u, Literal := u } ::
          (ts ++ { Kind := RPAREN, Literal := str ")" } :: K) := by
      simp
    have hk : (u = BANG ∨ u = MINUS) := by
      rcases unaryOperator_cases u hu with rfl | rfl
      · exact Or.inl rfl
      · exact Or.inr rfl
    have e1 : Parser.parseExpression boolean (k + 2) PREFIX
        (stateOf (ts ++ { Kind := RPAREN, Literal := str ")" } :: K) es) =
        .ok (r, stateOf (z :: { Kind := RPAREN, Literal := str ")" } :: K) es) := by
      rw [ih (k + 1) PREFIX _ es (by omega)]
      exact parseExpressionLoop_stop boolean k PREFIX r _
        (by show ¬ PREFIX < precedence RPAREN; decide)
    have e2 : Parser.parsePrefixExpression boolean (k + 3)
        (stateOf ({ Kind := u, Literal := u } ::
          (ts ++ { Kind := RPAREN, Literal := str ")" } :: K)) es) =
        .ok (Expression.PrefixExpression { Kind := u, Literal := u } u r,
          stateOf (z :: { Kind := RPAREN, Literal := str ")" } :: K) es) := by
      rw [parsePrefixExpression_succ, nextToken_stateOf, List.tail_cons, e1]
      dsimp only
      rw [if_neg hne]
      rfl
    have e3 : Parser.parseExpression boolean (k + 4) LOWEST
        (stateOf ({ Kind := u, Literal := u } ::
          (ts ++ { Kind := RPAREN, Literal := str ")" } :: K)) es) =
        .ok (Expression.PrefixExpression { Kind := u, Literal := u } u r,
          stateOf (z :: { Kind := RPAREN, Literal := str ")" } :: K) es) := by
      rw [parseExpression_unary boolean (k + 3) LOWEST _ hk, e2]
      dsimp only
      rw [if_neg (by intro e; cases e)]
      exact parseExpressionLoop_stop boolean (k + 2) LOWEST _ _
        (by show ¬ LOWEST < precedence RPAREN; decide)
    have e4 : Parser.parseGroupedExpression boolean (k + 5)
        (stateOf ({ Kind := LPAREN, Literal := str "(" } :: { Kind := u, Literal := u } ::
          (ts ++ { Kind := RPAREN, Literal := str ")" } :: K)) es) =
        .ok (Expression.PrefixExpression { Kind := u, Literal := u } u r,
          stateOf ({ Kind := RPAREN, Literal := str ")" } :: K) es) := by
      rw [parseGroupedExpression_succ, nextToken_stateOf, List.tail_cons, e3]
      dsimp only
      rw [if_neg (by intro e; cases e),
        expectPeek_stateOf z { Kind := RPAREN, Literal := str ")" } K es]
    rw [hl, parseExpression_group boolean (k + 5) m _ rfl, e4]
    dsimp only
    rw [if_neg (by intro e; cases e)]
  | binary o l r tl tr ho hl hr ihl ihr =>
    obtain ⟨zl, ihl⟩ := ihl
    obtain ⟨zr, ihr⟩ := ihr
    refine ⟨{ Kind := RPAREN, Literal := str ")" }, fun f m K es hf => ?_⟩
    have hnl := parsed_ne_nil boolean hb l tl hl
    have hnr := parsed_ne_nil boolean hb r tr hr
    have hlen : 2 * tl.length + 2 * tr.length + 6 ≤ f := by
      simp only [List.length_cons, List.length_append, List.length_nil] at hf
      omega
    obtain ⟨k, rfl⟩ : ∃ k, f = k + 6 := ⟨f - 6, by omega⟩
    have hlist : ({ Kind := LPAREN, Literal := str "(" } :: tl ++ { Kind := o, Literal := o } :: tr
        ++ [{ Kind := RPAREN, Literal := str ")" }]) ++ K =
        { Kind := LPAREN, Literal := str "(" } ::
          (tl ++ { Kind := o, Literal := o } ::
            (tr ++ { Kind := RPAREN, Literal := str ")" } :: K)) := by
      simp
    obtain ⟨hp1, hp2⟩ := precedence_binary o ho
    have e1 : Parser.parseExpression boolean (k + 2) (precedence o)
        (stateOf (tr ++ { Kind := RPAREN, Literal := str ")" } :: K) es) =
        .ok (r, stateOf (zr :: { Kind := RPAREN, Literal := str ")" } :: K) es) := by
      rw [ihr (k + 1) (precedence o) _ es (by omega)]
      refine parseExpressionLoop_stop boolean k (precedence o) r _ ?_
      show ¬ precedence o < precedence RPAREN
      rw [precedence_rparen]
      omega
    have e2 : Parser.parseInfixExpression boolean (k + 3) l
        (stateOf ({ Kind := o, Literal := o } ::
          (tr ++ { Kind := RPAREN, Literal := str ")" } :: K)) es) =
        .ok (Expression.InfixExpression { Kind := o, Literal := o } l o r,
          stateOf (zr :: { Kind := RPAREN, Literal := str ")" } :: K) es) := by
      rw [parseInfixExpression_succ, nextToken_stateOf, List.tail_cons]
      show (match Parser.parseExpression boolean (k + 2) (precedence o) _ with
        | .error e => _
        | .ok (right, p1) => _) = _
      rw [e1]
      dsimp only
      rw [if_neg hnr]
      rfl
    have e3 : Parser.parseExpressionLoop boolean (k + 4) LOWEST l
        (stateOf (zl :: { Kind := o, Literal := o } ::
          (tr ++ { Kind := RPAREN, Literal := str ")" } :: K)) es) =
        .ok (Expression.InfixExpression { Kind := o, Literal := o } l o r,
          stateOf (zr :: { Kind := RPAREN, Literal := str ")" } :: K) es) := by
      rw [parseExpressionLoop_step boolean (k + 3) LOWEST l _ hp1, nextToken_stateOf,
        List.tail_cons, e2]
      dsimp only
      rw [if_neg (by intro e; cases e)]
      exact parseExpressionLoop_stop boolean (k + 2) LOWEST _ _
        (by show ¬ LOWEST < precedence RPAREN; decide)
    have e4 : Parser.parseGroupedExpression boolean (k + 6)
        (stateOf ({ Kind := LPAREN, Literal := str "(" } ::
          (tl ++ { Kind := o, Literal := o } ::
            (tr ++ { Kind := RPAREN, Literal := str ")" } :: K))) es) =
        .ok (Expression.InfixExpression { Kind := o, Literal := o } l o r,
          stateOf ({ Kind := RPAREN, Literal := str ")" } :: K) es) := by
      rw [parseGroupedExpression_succ, nextToken_stateOf, List.tail_cons,
        ihl (k + 4) LOWEST _ es (by omega), e3]
      dsimp only
      rw [if_neg (by intro e; cases e),
        expectPeek_stateOf zr { Kind := RPAREN, Literal := str ")" } K es]
    rw [hlist, parseExpression_group boolean (k + 6) m _ rfl, e4]
    dsimp only
    rw [if_neg (by intro e; cases e)]

end parser

namespace parser

open token ast lexer

theorem parsed_first (boolean : Token → Expression) (e : Expression) (ts : List Token)
    (h : Parsed boolean e ts) :
    ∃ t rest, ts = t :: rest ∧ t.Kind ≠ EOF ∧ t.Kind ≠ LET ∧ t.Kind ≠ RETURN := by
  cases h with
  | operand x tok e h =>
    cases h with
    | ident h =>
      exact ⟨_, _, rfl, by show IDENT ≠ EOF; decide, by show IDENT ≠ LET; decide,
        by show IDENT ≠ RETURN; decide⟩
    | int n h hn =>
      exact ⟨_, _, rfl, by show INT ≠ EOF; decide, by show INT ≠ LET; decide,
        by show INT ≠ RETURN; decide⟩
  | bool t ht =>
    rcases ht with rfl | rfl
    · exact ⟨_, _, rfl, by decide, by decide, by decide⟩
    · exact ⟨_, _, rfl, by decide, by decide, by decide⟩
  | unary u r ts hu hr =>
    exact ⟨_, _, rfl, by show LPAREN ≠ EOF; decide, by show LPAREN ≠ LET; decide,
      by show LPAREN ≠ RETURN; decide⟩
  | binary o l r tl tr ho hl hr =>
    exact ⟨_, _, rfl, by show LPAREN ≠ EOF; decide, by show LPAREN ≠ LET; decide,
      by show LPAREN ≠ RETURN; decide⟩

/-- The tokens of the rendering of a parsed tree are what the parser gets from the lexer
for the rendering. -/
theorem stream_rendering (pr : Int → Bool) (boolean : Token → Expression)
    (hs : ∀ t, (boolean t).String = t.Literal) (e : Expression) (ts : List Token)
    (h : Parsed boolean e ts) : tokenStream pr e.String = .ok ts := by
  obtain ⟨its, h1, h2, h3⟩ := rendering_items boolean hs e ts h [] [] [] spaces_none
    spaces_none after_end.1 after_end.2.1
  rw [List.append_nil] at h2 h3
  have h4 := tokenStream_items pr its [] h3
  rw [h1, h2] at h4
  simpa [sourceText, runesToString_nil] using h4

/-- The program of the tokens of the rendering of a parsed tree is the tree, as one
expression statement, and the parse records no errors. -/
theorem program_rendering (boolean : Token → Expression)
    (hb : ∀ t, boolean t ≠ Expression.nil) (e : Expression) (ts : List Token)
    (h : Parsed boolean e ts) :
    ∃ t0, (New ts).ParseProgram boolean =
      .ok ({ Statements := [Statement.ExpressionStatement t0 e] }, finished []) := by
  obtain ⟨z, hz⟩ := parse_rendering boolean hb e ts h
  have hne := parsed_ne_nil boolean hb e ts h
  obtain ⟨t0, rest, rfl, k1, k2, k3⟩ := parsed_first boolean e ts h
  refine ⟨t0, ?_⟩
  have hlen : rest.length ≤ rest.tail.length + 1 := by
    cases rest <;> simp
  have e1 : Parser.parseExpression boolean (4 * (rest.tail.length + 2)) LOWEST
      (stateOf (t0 :: rest) []) = .ok (e, stateOf [z] []) := by
    have hf : 4 * (rest.tail.length + 2) = (4 * rest.tail.length + 7) + 1 := by omega
    have h0 := hz (4 * rest.tail.length + 7) LOWEST [] []
      (by simp only [List.length_cons]; omega)
    rw [List.append_nil] at h0
    rw [hf, h0]
    exact parseExpressionLoop_stop boolean (4 * rest.tail.length + 6) LOWEST e _
      (by show ¬ LOWEST < precedence EOF; decide)
  have e2 : (stateOf (t0 :: rest) []).parseExpressionStatement boolean =
      .ok (some (Statement.ExpressionStatement t0 e), stateOf [z] []) := by
    unfold Parser.parseExpressionStatement Parser.fuel
    show (match Parser.parseExpression boolean (4 * (rest.tail.length + 2)) LOWEST
        (stateOf (t0 :: rest) []) with
      | .error e => _
      | .ok (e, p) => _) = _
    rw [e1]
    dsimp only
    rw [if_neg hne]
    rfl
  have e3 : (stateOf (t0 :: rest) []).parseStatement boolean =
      .ok (some (Statement.ExpressionStatement t0 e), stateOf [z] []) := by
    unfold Parser.parseStatement
    rw [if_neg (show (stateOf (t0 :: rest) []).curToken.Kind ≠ LET from k2),
      if_neg (show (stateOf (t0 :: rest) []).curToken.Kind ≠ RETURN from k3), e2]
  rw [New_stateOf]
  unfold Parser.ParseProgram
  show (match Parser.ParseProgramLoop boolean ((rest.tail.length + 2) + 1)
      (stateOf (t0 :: rest) []) [] with
    | .error e => _
    | .ok (statements, p) => _) = _
  have e4 : Parser.ParseProgramLoop boolean ((rest.tail.length + 2) + 1)
      (stateOf (t0 :: rest) []) [] =
      .ok ([Statement.ExpressionStatement t0 e], finished []) := by
    rw [ParseProgramLoop_succ,
      if_neg (show (stateOf (t0 :: rest) []).curToken.Kind ≠ EOF from k1), e3]
    dsimp only
    rw [nextToken_stateOf]
    rfl
  rw [e4]

end parser

namespace parser

open token ast lexer

theorem lookupIdent_cases (a : List Nat) :
    (a = str "fn" ∨ a = str "let" ∨ a = str "true" ∨ a = str "false" ∨ a = str "if"
      ∨ a = str "else" ∨ a = str "return") ∨ LookupIdent a = IDENT := by
  by_cases h1 : a = str "fn"
  · exact Or.inl (Or.inl h1)
  by_cases h2 : a = str "let"
  · exact Or.inl (Or.inr (Or.inl h2))
  by_cases h3 : a = str "true"
  · exact Or.inl (Or.inr (Or.inr (Or.inl h3)))
  by_cases h4 : a = str "false"
  · exact Or.inl (Or.inr (Or.inr (Or.inr (Or.inl h4))))
  by_cases h5 : a = str "if"
  · exact Or.inl (Or.inr (Or.inr (Or.inr (Or.inr (Or.inl h5)))))
  by_cases h6 : a = str "else"
  · exact Or.inl (Or.inr (Or.inr (Or.inr (Or.inr (Or.inr (Or.inl h6))))))
  by_cases h7 : a = str "return"
  · exact Or.inl (Or.inr (Or.inr (Or.inr (Or.inr (Or.inr (Or.inr h7))))))
  right
  unfold LookupIdent keywords
  have e : ∀ k : List Nat, a ≠ k → (a == k) = false := fun k hk => beq_eq_false_iff_ne.mpr hk
  simp only [List.lookup, e _ h1, e _ h2, e _ h3, e _ h4, e _ h5, e _ h6, e _ h7]

theorem lookupIdent_true (a : List Nat) (h : LookupIdent a = TRUE) : a = str "true" := by
  rcases lookupIdent_cases a with (rfl | rfl | rfl | rfl | rfl | rfl | rfl) | h1
  · exact absurd h (by decide)
  · exact absurd h (by decide)
  · rfl
  · exact absurd h (by decide)
  · exact absurd h (by decide)
  · exact absurd h (by decide)
  · exact absurd h (by decide)
  · rw [h1] at h
    exact absurd h (by decide)

theorem lookupIdent_false (a : List Nat) (h : LookupIdent a = FALSE) : a = str "false" := by
  rcases lookupIdent_cases a with (rfl | rfl | rfl | rfl | rfl | rfl | rfl) | h1
  · exact absurd h (by decide)
  · exact absurd h (by decide)
  · exact absurd h (by decide)
  · rfl
  · exact absurd h (by decide)
  · exact absurd h (by decide)
  · exact absurd h (by decide)
  · rw [h1] at h
    exact absurd h (by decide)

theorem lookupIdent_not_operator (a : List Nat) :
    LookupIdent a ∉ operators ∧ LookupIdent a ≠ INT := by
  have h := lookupIdent_mem a
  revert h
  generalize LookupIdent a = k
  intro h
  simp only [List.mem_cons, List.mem_singleton, List.not_mem_nil, or_false] at h
  rcases h with rfl | rfl | rfl | rfl | rfl | rfl | rfl | rfl <;> decide

theorem precedence_cases (k : TokenType) : k ∈ binaryOperators ∨ precedence k = LOWEST := by
  by_cases h1 : k = EQ
  · subst h1; exact Or.inl (by decide)
  by_cases h2 : k = NOT_EQ
  · subst h2; exact Or.inl (by decide)
  by_cases h3 : k = token.LT
  · subst h3; exact Or.inl (by decide)
  by_cases h4 : k = GT
  · subst h4; exact Or.inl (by decide)
  by_cases h5 : k = PLUS
  · subst h5; exact Or.inl (by decide)
  by_cases h6 : k = MINUS
  · subst h6; exact Or.inl (by decide)
  by_cases h7 : k = SLASH
  · subst h7; exact Or.inl (by decide)
  by_cases h8 : k = ASTERISK
  · subst h8; exact Or.inl (by decide)
  right
  unfold precedence precedences
  have e : ∀ x : List Nat, k ≠ x → (k == x) = false := fun x hx => beq_eq_false_iff_ne.mpr hx
  simp only [List.lookup, e _ h1, e _ h2, e _ h3, e _ h4, e _ h5, e _ h6, e _ h7, e _ h8]

/-- A token of the lexer of kind IDENT is the token of an identifier that is no keyword. -/
theorem token_ident (t : Token) (h : tokenOK t) (hk : t.Kind = IDENT) :
    ∃ a, t = { Kind := IDENT, Literal := a } ∧ identifierText a := by
  rcases h with h | h | ⟨lit, h⟩
  · rw [hk] at h; exact absurd h (by decide)
  · rw [hk] at h; exact absurd h (by decide)
  · cases h with
    | op lit h =>
      have hk' : lit = IDENT := hk
      subst hk'
      exact absurd h (by decide)
    | ident b a h =>
      have hk' : LookupIdent (b :: a) = IDENT := hk
      exact ⟨b :: a, by rw [hk'], by simp, h, hk'⟩
    | int b d h =>
      have hk' : INT = IDENT := hk
      exact absurd hk' (by decide)

/-- A token of the lexer of kind INT is the token of a non-empty run of digits. -/
theorem token_int (t : Token) (h : tokenOK t) (hk : t.Kind = INT) :
    ∃ d, t = { Kind := INT, Literal := d } ∧ d ≠ [] ∧
      ∀ x ∈ d, isNumber (x : Int) = true := by
  rcases h with h | h | ⟨lit, h⟩
  · rw [hk] at h; exact absurd h (by decide)
  · rw [hk] at h; exact absurd h (by decide)
  · cases h with
    | op lit h =>
      have hk' : lit = INT := hk
      subst hk'
      exact absurd h (by decide)
    | ident b a h =>
      have hk' : LookupIdent (b :: a) = INT := hk
      exact absurd hk' (lookupIdent_not_operator _).2
    | int b d h => exact ⟨b :: d, rfl, by simp, h⟩

/-- A token of the lexer of kind TRUE or FALSE is the token of `true` or of `false`. -/
theorem token_bool (t : Token) (h : tokenOK t) (hk : t.Kind = TRUE ∨ t.Kind = FALSE) :
    t = { Kind := TRUE, Literal := str "true" }
      ∨ t = { Kind := FALSE, Literal := str "false" } := by
  rcases h with h | h | ⟨lit, h⟩
  · rcases hk with hk | hk <;> rw [hk] at h <;> exact absurd h (by decide)
  · rcases hk with hk | hk <;> rw [hk] at h <;> exact absurd h (by decide)
  · cases h with
    | op lit h =>
      rcases hk with hk | hk
      · have hk' : lit = TRUE := hk
        subst hk'
        exact absurd h (by decide)
      · have hk' : lit = FALSE := hk
        subst hk'
        exact absurd h (by decide)
    | ident b a h =>
      rcases hk with hk | hk
      · have hk' : LookupIdent (b :: a) = TRUE := hk
        have e := lookupIdent_true _ hk'
        left
        rw [hk', e]
      · have hk' : LookupIdent (b :: a) = FALSE := hk
        have e := lookupIdent_false _ hk'
        right
        rw [hk', e]
    | int b d h =>
      rcases hk with hk | hk
      · have hk' : INT = TRUE := hk
        exact absurd hk' (by decide)
      · have hk' : INT = FALSE := hk
        exact absurd hk' (by decide)

/-- A token of the lexer whose kind is one of the given operators has the operator as kind
and as literal. -/
theorem token_operator (ops : List (List Nat)) (hops : ∀ o ∈ ops, o ∈ operators)
    (t : Token) (h : tokenOK t) (hk : t.Kind ∈ ops) :
    ∃ o ∈ ops, t = { Kind := o, Literal := o } := by
  have hko := hops _ hk
  rcases h with h | h | ⟨lit, h⟩
  · rw [h] at hko; exact absurd hko (by decide)
  · rw [h] at hko; exact absurd hko (by decide)
  · cases h with
    | op lit h => exact ⟨lit, hk, rfl⟩
    | ident b a h => exact absurd hko (lookupIdent_not_operator _).1
    | int b d h =>
      have hko' : INT ∈ operators := hko
      exact absurd hko' (by decide)

theorem token_unary (t : Token) (h : tokenOK t) (hk : t.Kind = BANG ∨ t.Kind = MINUS) :
    ∃ u ∈ unaryOperators, t = { Kind := u, Literal := u } := by
  refine token_operator unaryOperators (by decide) t h ?_
  rcases hk with hk | hk <;> rw [hk] <;> decide

theorem token_binary (t : Token) (h : tokenOK t) (hk : LOWEST < precedence t.Kind) :
    ∃ o ∈ binaryOperators, t = { Kind := o, Literal := o } := by
  refine token_operator binaryOperators (by decide) t h ?_
  rcases precedence_cases t.Kind with h1 | h1
  · exact h1
  · rw [h1] at hk
    exact absurd hk (by decide)

theorem tokenOK_eof : tokenOK { Kind := EOF, Literal := [] } := Or.inl rfl

theorem tokensOK_nextToken (p : Parser) (h : p.tokensOK) : p.nextToken.tokensOK := by
  obtain ⟨h1, h2, h3⟩ := h
  unfold Parser.nextToken
  cases hl : p.l with
  | nil =>
    refine ⟨h2, tokenOK_eof, ?_⟩
    intro t ht
    rw [hl] at h3
    exact h3 t ht
  | cons t ts =>
    rw [hl] at h3
    exact ⟨h2, h3 t (List.mem_cons_self _ _), fun x hx => h3 x (List.mem_cons_of_mem _ hx)⟩

theorem tokensOK_addError (p : Parser) (e : ParseError) (h : p.tokensOK) :
    (p.addError e).tokensOK := h

theorem tokensOK_expectPeek (p : Parser) (k : TokenType) (h : p.tokensOK) :
    (p.expectPeek k).2.tokensOK := by
  unfold Parser.expectPeek
  split
  · exact tokensOK_nextToken p h
  · exact h

theorem tokensOK_skipSemicolon (p : Parser) (h : p.tokensOK) : p.skipSemicolon.tokensOK := by
  unfold Parser.skipSemicolon
  split
  · exact tokensOK_nextToken p h
  · exact h

theorem tokensOK_skipLoop : ∀ (n : Nat) (p : Parser), p.tokensOK →
    (Parser.skipLoop n p).tokensOK := by
  intro n
  induction n with
  | zero => intro p h; exact h
  | succ n ih =>
    intro p h
    unfold Parser.skipLoop
    split
    · exact h
    · exact ih _ (tokensOK_nextToken p h)

theorem tokensOK_stateOf (ts : List Token) (es : List ParseError)
    (h : ∀ t ∈ ts, tokenOK t) : (stateOf ts es).tokensOK := by
  rcases ts with _ | ⟨a, _ | ⟨b, ts⟩⟩
  · exact ⟨tokenOK_eof, tokenOK_eof, fun t ht => by cases ht⟩
  · exact ⟨h a (by simp), tokenOK_eof, fun t ht => by cases ht⟩
  · exact ⟨h a (by simp), h b (by simp), fun t ht =>
      h t (List.mem_cons_of_mem _ (List.mem_cons_of_mem _ ht))⟩

end parser

namespace parser

open token ast lexer

theorem sound_error (boolean : Token → Expression) (er : Fault) :
    Sound boolean (.error er) := by
  intro e p h
  cases h

theorem sound_ok (boolean : Token → Expression) (e : Expression) (p : Parser)
    (hp : p.tokensOK) (he : e = Expression.nil ∨ ∃ ts, Parsed boolean e ts) :
    Sound boolean (.ok (e, p)) := by
  intro e1 p1 h
  cases h
  exact ⟨hp, he⟩

/-- Every expression that the expression parser returns on tokens of the lexer is `nil`
or a tree as described by `Parsed`. -/
theorem parser_invariant (boolean : Token → Expression) : ∀ f : Nat,
    (∀ m p, LOWEST ≤ m → p.tokensOK →
      Sound boolean (Parser.parseExpression boolean f m p)) ∧
    (∀ m left p, LOWEST ≤ m → p.tokensOK → (∃ ts, Parsed boolean left ts) →
      Sound boolean (Parser.parseExpressionLoop boolean f m left p)) ∧
    (∀ p, p.tokensOK → (∃ u ∈ unaryOperators, p.curToken = { Kind := u, Literal := u }) →
      Sound boolean (Parser.parsePrefixExpression boolean f p)) ∧
    (∀ p, p.tokensOK → Sound boolean (Parser.parseGroupedExpression boolean f p)) ∧
    (∀ left p, p.tokensOK → (∃ ts, Parsed boolean left ts) →
      (∃ o ∈ binaryOperators, p.curToken = { Kind := o, Literal := o }) →
      Sound boolean (Parser.parseInfixExpression boolean f left p)) := by
  intro f
  induction f with
  | zero =>
    refine ⟨?_, ?_, ?_, ?_, ?_⟩
    · intro m p _ _
      exact sound_error boolean _
    · intro m left p _ _ _
      exact sound_error boolean _
    · intro p _ _
      exact sound_error boolean _
    · intro p _
      exact sound_error boolean _
    · intro left p _ _ _
      exact sound_error boolean _
  | succ f ih =>
    obtain ⟨hE, hL, hU, hG, hI⟩ := ih
    refine ⟨?_, ?_, ?_, ?_, ?_⟩
    · intro m p hm hp
      by_cases k1 : p.curToken.Kind = IDENT
      · rw [parseExpression_ident boolean f m p k1]
        obtain ⟨a, ha, hi⟩ := token_ident p.curToken hp.1 k1
        refine hL m _ p hm hp ⟨[p.curToken], ?_⟩
        rw [ha]
        exact Parsed.operand a _ _ (Operand.ident a hi)
      by_cases k2 : p.curToken.Kind = INT
      · rw [parseExpression_int boolean f m p k2]
        obtain ⟨d, hd, hne, hdig⟩ := token_int p.curToken hp.1 k2
        cases hv : parseInt64 p.curToken.Literal with
        | none => exact sound_ok boolean _ _ (tokensOK_addError p _ hp) (Or.inl rfl)
        | some v =>
          refine hL m _ p hm hp ⟨[p.curToken], ?_⟩
          rw [hd] at hv ⊢
          exact Parsed.operand d _ _ (Operand.int d v ⟨hne, hdig, by
            have hv1 : parseInt64 d = some v := hv
            rw [hv1]; rfl⟩ hv)
      by_cases k3 : p.curToken.Kind = TRUE ∨ p.curToken.Kind = FALSE
      · rw [parseExpression_bool boolean f m p k3]
        exact hL m _ p hm hp ⟨[p.curToken], Parsed.bool _ (token_bool p.curToken hp.1 k3)⟩
      by_cases k4 : p.curToken.Kind = BANG ∨ p.curToken.Kind = MINUS
      · rw [parseExpression_unary boolean f m p k4]
        have hu := hU p hp (token_unary p.curToken hp.1 k4)
        cases hX : Parser.parsePrefixExpression boolean f p with
        | error er => exact sound_error boolean _
        | ok r =>
          obtain ⟨l1, p1⟩ := r
          obtain ⟨hp1, hl1⟩ := hu l1 p1 hX
          by_cases hn : l1 = Expression.nil
          · show Sound boolean (if l1 = Expression.nil then _ else _)
            rw [if_pos hn]
            exact sound_ok boolean _ _ hp1 (Or.inl rfl)
          · show Sound boolean (if l1 = Expression.nil then _ else _)
            rw [if_neg hn]
            exact hL m l1 p1 hm hp1 (hl1.resolve_left hn)
      by_cases k5 : p.curToken.Kind = LPAREN
      · rw [parseExpression_group boolean f m p k5]
        have hg := hG p hp
        cases hX : Parser.parseGroupedExpression boolean f p with
        | error er => exact sound_error boolean _
        | ok r =>
          obtain ⟨l1, p1⟩ := r
          obtain ⟨hp1, hl1⟩ := hg l1 p1 hX
          by_cases hn : l1 = Expression.nil
          · show Sound boolean (if l1 = Expression.nil then _ else _)
            rw [if_pos hn]
            exact sound_ok boolean _ _ hp1 (Or.inl rfl)
          · show Sound boolean (if l1 = Expression.nil then _ else _)
            rw [if_neg hn]
            exact hL m l1 p1 hm hp1 (hl1.resolve_left hn)
      · rw [parseExpression_other boolean f m p k1 k2 k3 k4 k5]
        exact sound_ok boolean _ _ (tokensOK_addError p _ hp) (Or.inl rfl)
    · intro m left p hm hp hleft
      by_cases k : m < precedence p.peekToken.Kind
      · rw [parseExpressionLoop_step boolean f m left p k]
        have hb : ∃ o ∈ binaryOperators, p.nextToken.curToken = { Kind := o, Literal := o } := by
          have e : p.nextToken.curToken = p.peekToken := by
            unfold Parser.nextToken
            split <;> rfl
          rw [e]
          exact token_binary p.peekToken hp.2.1 (lt_of_le_of_lt hm k)
        have hi := hI left p.nextToken (tokensOK_nextToken p hp) hleft hb
        cases hX : Parser.parseInfixExpression boolean f left p.nextToken with
        | error er => exact sound_error boolean _
        | ok r =>
          obtain ⟨l1, p1⟩ := r
          obtain ⟨hp1, hl1⟩ := hi l1 p1 hX
          by_cases hn : l1 = Expression.nil
          · show Sound boolean (if l1 = Expression.nil then _ else _)
            rw [if_pos hn]
            exact sound_ok boolean _ _ hp1 (Or.inl rfl)
          · show Sound boolean (if l1 = Expression.nil then _ else _)
            rw [if_neg hn]
            exact hL m l1 p1 hm hp1 (hl1.resolve_left hn)
      · rw [parseExpressionLoop_stop boolean f m left p k]
        exact sound_ok boolean _ _ hp (Or.inr hleft)
    · intro p hp hu
      obtain ⟨u, hu1, hu2⟩ := hu
      rw [parsePrefixExpression_succ]
      have he := hE PREFIX p.nextToken (by decide) (tokensOK_nextToken p hp)
      cases hX : Parser.parseExpression boolean f PREFIX p.nextToken with
      | error er => exact sound_error boolean _
      | ok r =>
        obtain ⟨l1, p1⟩ := r
        obtain ⟨hp1, hl1⟩ := he l1 p1 hX
        by_cases hn : l1 = Expression.nil
        · show Sound boolean (if l1 = Expression.nil then _ else _)
          rw [if_pos hn]
          exact sound_ok boolean _ _ hp1 (Or.inl rfl)
        · show Sound boolean (if l1 = Expression.nil then _ else _)
          rw [if_neg hn]
          obtain ⟨ts, hts⟩ := hl1.resolve_left hn
          refine sound_ok boolean _ _ hp1 (Or.inr ?_)
          rw [hu2]
          exact ⟨_, Parsed.unary u l1 ts hu1 hts⟩
    · intro p hp
      rw [parseGroupedExpression_succ]
      have he := hE LOWEST p.nextToken (le_refl _) (tokensOK_nextToken p hp)
      cases hX : Parser.parseExpression boolean f LOWEST p.nextToken with
      | error er => exact sound_error boolean _
      | ok r =>
        obtain ⟨l1, p1⟩ := r
        obtain ⟨hp1, hl1⟩ := he l1 p1 hX
        by_cases hn : l1 = Expression.nil
        · show Sound boolean (if l1 = Expression.nil then _ else _)
          rw [if_pos hn]
          exact sound_ok boolean _ _ hp1 (Or.inl rfl)
        · show Sound boolean (if l1 = Expression.nil then _ else _)
          rw [if_neg hn]
          have hq := tokensOK_expectPeek p1 RPAREN hp1
          cases hY : p1.expectPeek RPAREN with
          | mk b p2 =>
            rw [hY] at hq
            cases b with
            | false => exact sound_ok boolean _ _ hq (Or.inl rfl)
            | true => exact sound_ok boolean _ _ hq hl1
    · intro left p hp hleft ho
      obtain ⟨o, ho1, ho2⟩ := ho
      obtain ⟨tl, htl⟩ := hleft
      rw [parseInfixExpression_succ]
      have hm : LOWEST ≤ precedence p.curToken.Kind := by
        rw [ho2]
        exact le_of_lt (precedence_binary o ho1).1
      have he := hE (precedence p.curToken.Kind) p.nextToken hm (tokensOK_nextToken p hp)
      cases hX : Parser.parseExpression boolean f (precedence p.curToken.Kind) p.nextToken with
      | error er => exact sound_error boolean _
      | ok r =>
        obtain ⟨l1, p1⟩ := r
        obtain ⟨hp1, hl1⟩ := he l1 p1 hX
        by_cases hn : l1 = Expression.nil
        · show Sound boolean (if l1 = Expression.nil then _ else _)
          rw [if_pos hn]
          exact sound_ok boolean _ _ hp1 (Or.inl rfl)
        · show Sound boolean (if l1 = Expression.nil then _ else _)
          rw [if_neg hn]
          obtain ⟨ts, hts⟩ := hl1.resolve_left hn
          refine sound_ok boolean _ _ hp1 (Or.inr ?_)
          rw [ho2]
          exact ⟨_, Parsed.binary o left l1 tl ts ho1 htl hts⟩

end parser

namespace parser

open token ast lexer

/-- A statement that the parser returns on tokens of the lexer, if it is an expression
statement, holds a tree as described by `Parsed`. -/
theorem statement_invariant (boolean : Token → Expression) (p p1 : Parser)
    (s : Option Statement) (hp : p.tokensOK)
    (h : p.parseStatement boolean = .ok (s, p1)) :
    p1.tokensOK ∧ ∀ tok e, s = some (Statement.ExpressionStatement tok e) →
      ∃ ts, Parsed boolean e ts := by
  unfold Parser.parseStatement at h
  by_cases k1 : p.curToken.Kind = LET
  · rw [if_pos k1] at h
    unfold Parser.parseLetStatement at h
    have q1 := tokensOK_expectPeek p IDENT hp
    cases hY : p.expectPeek IDENT with
    | mk b p2 =>
      rw [hY] at h q1
      cases b with
      | false =>
        cases h
        exact ⟨tokensOK_skipLoop _ _ q1, fun tok e he => by cases he⟩
      | true =>
        dsimp only at h
        have q2 := tokensOK_expectPeek p2 ASSIGN q1
        cases hZ : p2.expectPeek ASSIGN with
        | mk b p3 =>
          rw [hZ] at h q2
          cases b with
          | false =>
            cases h
            exact ⟨tokensOK_skipLoop _ _ q2, fun tok e he => by cases he⟩
          | true =>
            dsimp only at h
            have hE := (parser_invariant boolean p3.nextToken.fuel).1 LOWEST p3.nextToken
              (le_refl _) (tokensOK_nextToken p3 q2)
            cases hX : Parser.parseExpression boolean p3.nextToken.fuel LOWEST
                p3.nextToken with
            | error er => rw [hX] at h; cases h
            | ok r =>
              obtain ⟨v, p4⟩ := r
              rw [hX] at h
              dsimp only at h
              obtain ⟨q4, _⟩ := hE v p4 hX
              by_cases hn : v = Expression.nil
              · rw [if_pos hn] at h
                cases h
                exact ⟨q4, fun tok e he => by cases he⟩
              · rw [if_neg hn] at h
                cases h
                exact ⟨tokensOK_skipSemicolon p4 q4, fun tok e he => by cases he⟩
  · rw [if_neg k1] at h
    by_cases k2 : p.curToken.Kind = RETURN
    · rw [if_pos k2] at h
      unfold Parser.parseReturnStatement at h
      have hE := (parser_invariant boolean p.nextToken.fuel).1 LOWEST p.nextToken
        (le_refl _) (tokensOK_nextToken p hp)
      cases hX : Parser.parseExpression boolean p.nextToken.fuel LOWEST p.nextToken with
      | error er => rw [hX] at h; cases h
      | ok r =>
        obtain ⟨v, p4⟩ := r
        rw [hX] at h
        dsimp only at h
        obtain ⟨q4, _⟩ := hE v p4 hX
        by_cases hn : v = Expression.nil
        · rw [if_pos hn] at h
          cases h
          exact ⟨q4, fun tok e he => by cases he⟩
        · rw [if_neg hn] at h
          cases h
          exact ⟨tokensOK_skipSemicolon p4 q4, fun tok e he => by cases he⟩
    · rw [if_neg k2] at h
      unfold Parser.parseExpressionStatement at h
      have hE := (parser_invariant boolean p.fuel).1 LOWEST p (le_refl _) hp
      cases hX : Parser.parseExpression boolean p.fuel LOWEST p with
      | error er => rw [hX] at h; cases h
      | ok r =>
        obtain ⟨v, p4⟩ := r
        rw [hX] at h
        dsimp only at h
        obtain ⟨q4, hv⟩ := hE v p4 hX
        by_cases hn : v = Expression.nil
        · rw [if_pos hn] at h
          cases h
          exact ⟨q4, fun tok e he => by cases he⟩
        · rw [if_neg hn] at h
          cases h
          refine ⟨tokensOK_skipSemicolon p4 q4, fun tok e he => ?_⟩
          cases he
          exact hv.resolve_left hn

/-- Every expression statement of a program that the parser returns on tokens of the lexer
holds a tree as described by `Parsed`. -/
theorem program_invariant (boolean : Token → Expression) :
    ∀ (n : Nat) (p p1 : Parser) (acc stmts : List Statement), p.tokensOK →
      (∀ tok e, Statement.ExpressionStatement tok e ∈ acc → ∃ ts, Parsed boolean e ts) →
      Parser.ParseProgramLoop boolean n p acc = .ok (stmts, p1) →
      ∀ tok e, Statement.ExpressionStatement tok e ∈ stmts → ∃ ts, Parsed boolean e ts := by
  intro n
  induction n with
  | zero =>
    intro p p1 acc stmts _ _ h
    cases h
  | succ n ih =>
    intro p p1 acc stmts hp hacc h
    rw [ParseProgramLoop_succ] at h
    by_cases k : p.curToken.Kind = EOF
    · rw [if_pos k] at h
      cases h
      exact hacc
    · rw [if_neg k] at h
      cases hX : p.parseStatement boolean with
      | error er => rw [hX] at h; cases h
      | ok r =>
        obtain ⟨s, p2⟩ := r
        obtain ⟨q2, hs⟩ := statement_invariant boolean p p2 s hp hX
        rw [hX] at h
        cases s with
        | none => exact ih p2.nextToken p1 acc stmts (tokensOK_nextToken p2 q2) hacc h
        | some stmt =>
          refine ih p2.nextToken p1 (acc ++ [stmt]) stmts (tokensOK_nextToken p2 q2) ?_ h
          intro tok e he
          rcases List.mem_append.mp he with he | he
          · exact hacc tok e he
          · rw [List.mem_singleton] at he
            exact hs tok e (by rw [he])

/-- The tokens that the parser pulls from the lexer are tokens of the lexer. -/
theorem tokenStream_tokenOK (pr : Int → Bool) (input : List Nat) (l : List Token)
    (h : tokenStream pr input = .ok l) : ∀ t ∈ l, tokenOK t := by
  unfold tokenStream at h
  cases hX : (NewGoLex input).NextTokens pr (input.length + 1) with
  | error er => rw [hX] at h; cases h
  | ok r =>
    obtain ⟨ts, l1⟩ := r
    rw [hX] at h
    cases h
    intro t ht
    have hw := tokens_wellformed pr input (input.length + 1) (NewGoLex input) l1 ts
      (NewGoLex_boundary input) hX t ((List.takeWhile_sublist _).subset ht)
    rcases hw with hw | hw | hw
    · left; rw [hw]
    · right; left; exact hw
    · right; right; exact hw

/-- If the program of a source is one expression statement, its expression is a tree as
described by `Parsed`. -/
theorem parse_parsed (pr : Int → Bool) (boolean : Token → Expression) (source : List Nat)
    (tok : Token) (e : Expression) (errors : List ParseError)
    (h : parse pr boolean source =
      .ok ({ Statements := [Statement.ExpressionStatement tok e] }, errors)) :
    ∃ ts, Parsed boolean e ts := by
  unfold parse at h
  cases hX : tokenStream pr source with
  | error er => rw [hX] at h; cases h
  | ok l =>
    rw [hX] at h
    dsimp only at h
    have hl := tokenStream_tokenOK pr source l hX
    cases hY : (New l).ParseProgram boolean with
    | error er => rw [hY] at h; cases h
    | ok r =>
      obtain ⟨program, p1⟩ := r
      rw [hY] at h
      cases h
      unfold Parser.ParseProgram at hY
      cases hZ : Parser.ParseProgramLoop boolean ((New l).l.length + 3) (New l) [] with
      | error er => rw [hZ] at hY; cases hY
      | ok r =>
        obtain ⟨stmts, p2⟩ := r
        rw [hZ] at hY
        cases hY
        have hN : (New l).tokensOK := by
          rw [New_stateOf]
          exact tokensOK_stateOf l [] hl
        exact program_invariant boolean _ (New l) p1 [] _ hN
          (fun tok e he => by cases he) hZ tok e (List.mem_singleton.mpr rfl)

/-- The round trip: if the program of a source is one expression statement, its rendering
is the rendering of the expression; the rendering is parsed, without errors, to a program
of one expression statement with the same expression, and so is rendered as itself. -/
theorem expression_round_trip (pr : Int → Bool) (boolean : Token → Expression)
    (hb : ∀ t, boolean t ≠ Expression.nil) (hs : ∀ t, (boolean t).String = t.Literal)
    (source : List Nat) (tok : Token) (e : Expression) (errors : List ParseError)
    (h : parse pr boolean source =
      .ok ({ Statements := [Statement.ExpressionStatement tok e] }, errors)) :
    render pr boolean source = .ok (e.String, errors) ∧
      (∃ t0, parse pr boolean e.String =
        .ok ({ Statements := [Statement.ExpressionStatement t0 e] }, [])) ∧
      render pr boolean e.String = .ok (e.String, []) := by
  obtain ⟨ts, hts⟩ := parse_parsed pr boolean source tok e errors h
  have hne := parsed_ne_nil boolean hb e ts hts
  have h1 := stream_rendering pr boolean hs e ts hts
  obtain ⟨t0, h2⟩ := program_rendering boolean hb e ts hts
  obtain ⟨h3, h4⟩ := render_of_stream pr boolean e.String ts _ _ h1 h2
  refine ⟨?_, ⟨t0, h3⟩, ?_⟩
  · unfold render
    rw [h]
    dsimp only
    rw [program_string_single tok e hne]
  · rw [h4, program_string_single t0 e hne]
    rfl

end parser

namespace parser

open token ast lexer

/-- The tokens of `let x = true;`. -/
theorem stream_let_true (pr : Int → Bool) (x : List Nat) (hx : identifierText x) :
    tokenStream pr (str "let " ++ x ++ str " = true;") =
      .ok [{ Kind := LET, Literal := str "let" }, { Kind := IDENT, Literal := x },
        { Kind := ASSIGN, Literal := str "=" }, { Kind := TRUE, Literal := str "true" },
        { Kind := SEMICOLON, Literal := str ";" }] := by
  have hs : Spaced [([], str "let", { Kind := LET, Literal := str "let" }),
      ([32], x, { Kind := IDENT, Literal := x }),
      ([32], str "=", { Kind := ASSIGN, Literal := str "=" }),
      ([32], str "true", { Kind := TRUE, Literal := str "true" }),
      ([], str ";", { Kind := SEMICOLON, Literal := str ";" })] [] :=
    ⟨spaces_none, Item.ident 108 [101, 116] (by decide) (after_space _).1,
      spaces_one, item_identifier x _ hx (after_space _).1,
      spaces_one, Item.op1 61 (Or.inr rfl) (after_space _).2.2,
      spaces_one, Item.ident 116 [114, 117, 101] (by decide) (after_semicolon _).1,
      spaces_none, Item.single 59 (by decide), spaces_none⟩
  have h := tokenStream_items pr _ [] hs
  simp only [sourceText, runesToString_nil, runesToString_space, List.nil_append,
    List.append_nil, List.map_cons, List.map_nil] at h
  have e1 : str "let " = str "let" ++ [32] := by decide
  have e2 : str " = true;" = 32 :: (str "=" ++ [32] ++ (str "true" ++ str ";")) := by decide
  simp only [e1, e2, List.append_assoc, List.cons_append, List.nil_append]
  exact h

/-- The tokens of `-a * b`. -/
theorem stream_test_1 (pr : Int → Bool) :
    tokenStream pr (str "-a * b") =
      .ok [
        { Kind := str "-", Literal := str "-" }, { Kind := IDENT, Literal := str "a" },
        { Kind := str "*", Literal := str "*" }, { Kind := IDENT, Literal := str "b" }] := by
  have hs : Spaced [
      ([], str "-", { Kind := str "-", Literal := str "-" }),
      ([], str "a", { Kind := IDENT, Literal := str "a" }),
      ([32], str "*", { Kind := str "*", Literal := str "*" }),
      ([32], str "b", { Kind := IDENT, Literal := str "b" })] [] :=
    ⟨
      spaces_none, Item.single 45 (by decide), spaces_none,
      Item.ident 97 [] (by decide) (by decide), spaces_one, Item.single 42 (by decide),
      spaces_one, Item.ident 98 [] (by decide) (by decide), spaces_none⟩
  exact tokenStream_items pr _ [] hs

/-- The tokens of `!-a`. -/
theorem stream_test_2 (pr : Int → Bool) :
    tokenStream pr (str "!-a") =
      .ok [
        { Kind := str "!", Literal := str "!" }, { Kind := str "-", Literal := str "-" },
        { Kind := IDENT, Literal := str "a" }] := by
  have hs : Spaced [
      ([], str "!", { Kind := str "!", Literal := str "!" }),
      ([], str "-", { Kind := str "-", Literal := str "-" }),
      ([], str "a", { Kind := IDENT, Literal := str "a" })] [] :=
    ⟨
      spaces_none, Item.op1 33 (by decide) (by decide), spaces_none, Item.single 45 (by decide),
      spaces_none, Item.ident 97 [] (by decide) (by decide), spaces_none⟩
  exact tokenStream_items pr _ [] hs

/-- The tokens of `a + b + c`. -/
theorem stream_test_3 (pr : Int → Bool) :
    tokenStream pr (str "a + b + c") =
      .ok [
        { Kind := IDENT, Literal := str "a" }, { Kind := str "+", Literal := str "+" },
        { Kind := IDENT, Literal := str "b" }, { Kind := str "+", Literal := str "+" },
        { Kind := IDENT, Literal := str "c" }] := by
  have hs : Spaced [
      ([], str "a", { Kind := IDENT, Literal := str "a" }),
      ([32], str "+", { Kind := str "+", Literal := str "+" }),
      ([32], str "b", { Kind := IDENT, Literal := str "b" }),
      ([32], str "+", { Kind := str "+", Literal := str "+" }),
      ([32], str "c", { Kind := IDENT, Literal := str "c" })] [] :=
    ⟨
      spaces_none, Item.ident 97 [] (by decide) (by decide), spaces_one,
      Item.single 43 (by decide), spaces_one, Item.ident 98 [] (by decide) (by decide),
      spaces_one, Item.single 43 (by decide), spaces_one,
      Item.ident 99 [] (by decide) (by decide), spaces_none⟩
  exact tokenStream_items pr _ [] hs

/-- The tokens of `a + b - c`. -/
theorem stream_test_4 (pr : Int → Bool) :
    tokenStream pr (str "a + b - c") =
      .ok [
        { Kind := IDENT, Literal := str "a" }, { Kind := str "+", Literal := str "+" },
        { Kind := IDENT, Literal := str "b" }, { Kind := str "-", Literal := str "-" },
        { Kind := IDENT, Literal := str "c" }] := by
  have hs : Spaced [
      ([], str "a", { Kind := IDENT, Literal := str "a" }),
      ([32], str "+", { Kind := str "+", Literal := str "+" }),
      ([32], str "b", { Kind := IDENT, Literal := str "b" }),
      ([32], str "-", { Kind := str "-", Literal := str "-" }),
      ([32], str "c", { Kind := IDENT, Literal := str "c" })] [] :=
    ⟨
      spaces_none, Item.ident 97 [] (by decide) (by decide), spaces_one,
      Item.single 43 (by decide), spaces_one, Item.ident 98 [] (by decide) (by decide),
      spaces_one, Item.single 45 (by decide), spaces_one,
      Item.ident 99 [] (by decide) (by decide), spaces_none⟩
  exact tokenStream_items pr _ [] hs

/-- The tokens of `a * b * c`. -/
theorem stream_test_5 (pr : Int → Bool) :
    tokenStream pr (str "a * b * c") =
      .ok [
        { Kind := IDENT, Literal := str "a" }, { Kind := str "*", Literal := str "*" },
        { Kind := IDENT, Literal := str "b" }, { Kind := str "*", Literal := str "*" },
        { Kind := IDENT, Literal := str "c" }] := by
  have hs : Spaced [
      ([], str "a", { Kind := IDENT, Literal := str "a" }),
      ([32], str "*", { Kind := str "*", Literal := str "*" }),
      ([32], str "b", { Kind := IDENT, Literal := str "b" }),
      ([32], str "*", { Kind := str "*", Literal := str "*" }),
      ([32], str "c", { Kind := IDENT, Literal := str "c" })] [] :=
    ⟨
      spaces_none, Item.ident 97 [] (by decide) (by decide), spaces_one,
      Item.single 42 (by decide), spaces_one, Item.ident 98 [] (by decide) (by decide),
      spaces_one, Item.single 42 (by decide), spaces_one,
      Item.ident 99 [] (by decide) (by decide), spaces_none⟩
  exact tokenStream_items pr _ [] hs

/-- The tokens of `a * b / c`. -/
theorem stream_test_6 (pr : Int → Bool) :
    tokenStream pr (str "a * b / c") =
      .ok [
        { Kind := IDENT, Literal := str "a" }, { Kind := str "*", Literal := str "*" },
        { Kind := IDENT, Literal := str "b" }, { Kind := str "/", Literal := str "/" },
        { Kind := IDENT, Literal := str "c" }] := by
  have hs : Spaced [
      ([], str "a", { Kind := IDENT, Literal := str "a" }),
      ([32], str "*", { Kind := str "*", Literal := str "*" }),
      ([32], str "b", { Kind := IDENT, Literal := str "b" }),
      ([32], str "/", { Kind := str "/", Literal := str "/" }),
      ([32], str "c", { Kind := IDENT, Literal := str "c" })] [] :=
    ⟨
      spaces_none, Item.ident 97 [] (by decide) (by decide), spaces_one,
      Item.single 42 (by decide), spaces_one, Item.ident 98 [] (by decide) (by decide),
      spaces_one, Item.single 47 (by decide), spaces_one,
      Item.ident 99 [] (by decide) (by decide), spaces_none⟩
  exact tokenStream_items pr _ [] hs

/-- The tokens of `a + b * c + d / e - f`. -/
theorem stream_test_7 (pr : Int → Bool) :
    tokenStream pr (str "a + b * c + d / e - f") =
      .ok [
        { Kind := IDENT, Literal := str "a" }, { Kind := str "+", Literal := str "+" },
        { Kind := IDENT, Literal := str "b" }, { Kind := str "*", Literal := str "*" },
        { Kind := IDENT, Literal := str "c" }, { Kind := str "+", Literal := str "+" },
        { Kind := IDENT, Literal := str "d" }, { Kind := str "/", Literal := str "/" },
        { Kind := IDENT, Literal := str "e" }, { Kind := str "-", Literal := str "-" },
        { Kind := IDENT, Literal := str "f" }] := by
  have hs : Spaced [
      ([], str "a", { Kind := IDENT, Literal := str "a" }),
      ([32], str "+", { Kind := str "+", Literal := str "+" }),
      ([32], str "b", { Kind := IDENT, Literal := str "b" }),
      ([32], str "*", { Kind := str "*", Literal := str "*" }),
      ([32], str "c", { Kind := IDENT, Literal := str "c" }),
      ([32], str "+", { Kind := str "+", Literal := str "+" }),
      ([32], str "d", { Kind := IDENT, Literal := str "d" }),
      ([32], str "/", { Kind := str "/", Literal := str "/" }),
      ([32], str "e", { Kind := IDENT, Literal := str "e" }),
      ([32], str "-", { Kind := str "-", Literal := str "-" }),
      ([32], str "f", { Kind := IDENT, Literal := str "f" })] [] :=
    ⟨
      spaces_none, Item.ident 97 [] (by decide) (by decide), spaces_one,
      Item.single 43 (by decide), spaces_one, Item.ident 98 [] (by decide) (by decide),
      spaces_one, Item.single 42 (by decide), spaces_one,
      Item.ident 99 [] (by decide) (by decide), spaces_one, Item.single 43 (by decide),
      spaces_one, Item.ident 100 [] (by decide) (by decide), spaces_one,
      Item.single 47 (by decide), spaces_one, Item.ident 101 [] (by decide) (by decide),
      spaces_one, Item.single 45 (by decide), spaces_one,
      Item.ident 102 [] (by decide) (by decide), spaces_none⟩
  exact tokenStream_items pr _ [] hs

/-- The tokens of `3 + 4; -5 * 5`. -/
theorem stream_test_8 (pr : Int → Bool) :
    tokenStream pr (str "3 + 4; -5 * 5") =
      .ok [
        { Kind := INT, Literal := str "3" }, { Kind := str "+", Literal := str "+" },
        { Kind := INT, Literal := str "4" }, { Kind := str ";", Literal := str ";" },
        { Kind := str "-", Literal := str "-" }, { Kind := INT, Literal := str "5" },
        { Kind := str "*", Literal := str "*" }, { Kind := INT, Literal := str "5" }] := by
  have hs : Spaced [
      ([], str "3", { Kind := INT, Literal := str "3" }),
      ([32], str "+", { Kind := str "+", Literal := str "+" }),
      ([32], str "4", { Kind := INT, Literal := str "4" }),
      ([], str ";", { Kind := str ";", Literal := str ";" }),
      ([32], str "-", { Kind := str "-", Literal := str "-" }),
      ([], str "5", { Kind := INT, Literal := str "5" }),
      ([32], str "*", { Kind := str "*", Literal := str "*" }),
      ([32], str "5", { Kind := INT, Literal := str "5" })] [] :=
    ⟨
      spaces_none, Item.int 51 [] (by decide) (by decide) (by decide), spaces_one,
      Item.single 43 (by decide), spaces_one, Item.int 52 [] (by decide) (by decide) (by decide),
      spaces_none, Item.single 59 (by decide), spaces_one, Item.single 45 (by decide),
      spaces_none, Item.int 53 [] (by decide) (by decide) (by decide), spaces_one,
      Item.single 42 (by decide), spaces_one, Item.int 53 [] (by decide) (by decide) (by decide),
      spaces_none⟩
  exact tokenStream_items pr _ [] hs

/-- The tokens of `5 > 4 == 3 < 4`. -/
theorem stream_test_9 (pr : Int → Bool) :
    tokenStream pr (str "5 > 4 == 3 < 4") =
      .ok [
        { Kind := INT, Literal := str "5" }, { Kind := str ">", Literal := str ">" },
        { Kind := INT, Literal := str "4" }, { Kind := str "==", Literal := str "==" },
        { Kind := INT, Literal := str "3" }, { Kind := str "<", Literal := str "<" },
        { Kind := INT, Literal := str "4" }] := by
  have hs : Spaced [
      ([], str "5", { Kind := INT, Literal := str "5" }),
      ([32], str ">", { Kind := str ">", Literal := str ">" }),
      ([32], str "4", { Kind := INT, Literal := str "4" }),
      ([32], str "==", { Kind := str "==", Literal := str "==" }),
      ([32], str "3", { Kind := INT, Literal := str "3" }),
      ([32], str "<", { Kind := str "<", Literal := str "<" }),
      ([32], str "4", { Kind := INT, Literal := str "4" })] [] :=
    ⟨
      spaces_none, Item.int 53 [] (by decide) (by decide) (by decide), spaces_one,
      Item.single 62 (by decide), spaces_one, Item.int 52 [] (by decide) (by decide) (by decide),
      spaces_one, Item.op2 61 (by decide), spaces_one,
      Item.int 51 [] (by decide) (by decide) (by decide), spaces_one, Item.single 60 (by decide),
      spaces_one, Item.int 52 [] (by decide) (by decide) (by decide), spaces_none⟩
  exact tokenStream_items pr _ [] hs

/-- The tokens of `5 < 4 != 3 > 4`. -/
theorem stream_test_10 (pr : Int → Bool) :
    tokenStream pr (str "5 < 4 != 3 > 4") =
      .ok [
        { Kind := INT, Literal := str "5" }, { Kind := str "<", Literal := str "<" },
        { Kind := INT, Literal := str "4" }, { Kind := str "!=", Literal := str "!=" },
        { Kind := INT, Literal := str "3" }, { Kind := str ">", Literal := str ">" },
        { Kind := INT, Literal := str "4" }] := by
  have hs : Spaced [
      ([], str "5", { Kind := INT, Literal := str "5" }),
      ([32], str "<", { Kind := str "<", Literal := str "<" }),
      ([32], str "4", { Kind := INT, Literal := str "4" }),
      ([32], str "!=", { Kind := str "!=", Literal := str "!=" }),
      ([32], str "3", { Kind := INT, Literal := str "3" }),
      ([32], str ">", { Kind := str ">", Literal := str ">" }),
      ([32], str "4", { Kind := INT, Literal := str "4" })] [] :=
    ⟨
      spaces_none, Item.int 53 [] (by decide) (by decide) (by decide), spaces_one,
      Item.single 60 (by decide), spaces_one, Item.int 52 [] (by decide) (by decide) (by decide),
      spaces_one, Item.op2 33 (by decide), spaces_one,
      Item.int 51 [] (by decide) (by decide) (by decide), spaces_one, Item.single 62 (by decide),
      spaces_one, Item.int 52 [] (by decide) (by decide) (by decide), spaces_none⟩
  exact tokenStream_items pr _ [] hs

/-- The tokens of `3 + 4 * 5 == 3 * 1 + 4 * 5`. -/
theorem stream_test_11 (pr : Int → Bool) :
    tokenStream pr (str "3 + 4 * 5 == 3 * 1 + 4 * 5") =
      .ok [
        { Kind := INT, Literal := str "3" }, { Kind := str "+", Literal := str "+" },
        { Kind := INT, Literal := str "4" }, { Kind := str "*", Literal := str "*" },
        { Kind := INT, Literal := str "5" }, { Kind := str "==", Literal := str "==" },
        { Kind := INT, Literal := str "3" }, { Kind := str "*", Literal := str "*" },
        { Kind := INT, Literal := str "1" }, { Kind := str "+", Literal := str "+" },
        { Kind := INT, Literal := str "4" }, { Kind := str "*", Literal := str "*" },
        { Kind := INT, Literal := str "5" }] := by
  have hs : Spaced [
      ([], str "3", { Kind := INT, Literal := str "3" }),
      ([32], str "+", { Kind := str "+", Literal := str "+" }),
      ([32], str "4", { Kind := INT, Literal := str "4" }),
      ([32], str "*", { Kind := str "*", Literal := str "*" }),
      ([32], str "5", { Kind := INT, Literal := str "5" }),
      ([32], str "==", { Kind := str "==", Literal := str "==" }),
      ([32], str "3", { Kind := INT, Literal := str "3" }),
      ([32], str "*", { Kind := str "*", Literal := str "*" }),
      ([32], str "1", { Kind := INT, Literal := str "1" }),
      ([32], str "+", { Kind := str "+", Literal := str "+" }),
      ([32], str "4", { Kind := INT, Literal := str "4" }),
      ([32], str "*", { Kind := str "*", Literal := str "*" }),
      ([32], str "5", { Kind := INT, Literal := str "5" })] [] :=
    ⟨
      spaces_none, Item.int 51 [] (by decide) (by decide) (by decide), spaces_one,
      Item.single 43 (by decide), spaces_one, Item.int 52 [] (by decide) (by decide) (by decide),
      spaces_one, Item.single 42 (by decide), spaces_one,
      Item.int 53 [] (by decide) (by decide) (by decide), spaces_one, Item.op2 61 (by decide),
      spaces_one, Item.int 51 [] (by decide) (by decide) (by decide), spaces_one,
      Item.single 42 (by decide), spaces_one, Item.int 49 [] (by decide) (by decide) (by decide),
      spaces_one, Item.single 43 (by decide), spaces_one,
      Item.int 52 [] (by decide) (by decide) (by decide), spaces_one, Item.single 42 (by decide),
      spaces_one, Item.int 53 [] (by decide) (by decide) (by decide), spaces_none⟩
  exact tokenStream_items pr _ [] hs

/-- The tokens of `let x = 9223372036854775808;`. -/
theorem stream_let_big (pr : Int → Bool) :
    tokenStream pr (str "let x = 9223372036854775808;") =
      .ok [
        { Kind := str "LET", Literal := str "let" }, { Kind := IDENT, Literal := str "x" },
        { Kind := str "=", Literal := str "=" },
        { Kind := INT, Literal := str "9223372036854775808" },
        { Kind := str ";", Literal := str ";" }] := by
  have hs : Spaced [
      ([], str "let", { Kind := str "LET", Literal := str "let" }),
      ([32], str "x", { Kind := IDENT, Literal := str "x" }),
      ([32], str "=", { Kind := str "=", Literal := str "=" }),
      ([32], str "9223372036854775808", { Kind := INT, Literal := str "9223372036854775808" }),
      ([], str ";", { Kind := str ";", Literal := str ";" })] [] :=
    ⟨
      spaces_none, Item.ident 108 [101, 116] (by decide) (by decide), spaces_one,
      Item.ident 120 [] (by decide) (by decide), spaces_one, Item.op1 61 (by decide) (by decide),
      spaces_one,
      Item.int 57 [50, 50, 51, 51, 55, 50, 48, 51, 54, 56, 53, 52, 55, 55, 53, 56, 48, 56]
        (by decide) (by decide) (by decide),
      spaces_none, Item.single 59 (by decide), spaces_none⟩
  exact tokenStream_items pr _ [] hs

/-- The tokens of `return 5;`. -/
theorem stream_return_5 (pr : Int → Bool) :
    tokenStream pr (str "return 5;") =
      .ok [
        { Kind := str "RETURN", Literal := str "return" }, { Kind := INT, Literal := str "5" },
        { Kind := str ";", Literal := str ";" }] := by
  have hs : Spaced [
      ([], str "return", { Kind := str "RETURN", Literal := str "return" }),
      ([32], str "5", { Kind := INT, Literal := str "5" }),
      ([], str ";", { Kind := str ";", Literal := str ";" })] [] :=
    ⟨
      spaces_none, Item.ident 114 [101, 116, 117, 114, 110] (by decide) (by decide), spaces_one,
      Item.int 53 [] (by decide) (by decide) (by decide), spaces_none, Item.single 59 (by decide),
      spaces_none⟩
  exact tokenStream_items pr _ [] hs

/-- The tokens of `return true;`. -/
theorem stream_return_true (pr : Int → Bool) :
    tokenStream pr (str "return true;") =
      .ok [
        { Kind := str "RETURN", Literal := str "return" },
        { Kind := str "TRUE", Literal := str "true" },
        { Kind := str ";", Literal := str ";" }] := by
  have hs : Spaced [
      ([], str "return", { Kind := str "RETURN", Literal := str "return" }),
      ([32], str "true", { Kind := str "TRUE", Literal := str "true" }),
      ([], str ";", { Kind := str ";", Literal := str ";" })] [] :=
    ⟨
      spaces_none, Item.ident 114 [101, 116, 117, 114, 110] (by decide) (by decide), spaces_one,
      Item.ident 116 [114, 117, 101] (by decide) (by decide), spaces_none,
      Item.single 59 (by decide), spaces_none⟩
  exact tokenStream_items pr _ [] hs

/-- The tokens of `return foobar;`. -/
theorem stream_return_foobar (pr : Int → Bool) :
    tokenStream pr (str "return foobar;") =
      .ok [
        { Kind := str "RETURN", Literal := str "return" },
        { Kind := IDENT, Literal := str "foobar" }, { Kind := str ";", Literal := str ";" }] := by
  have hs : Spaced [
      ([], str "return", { Kind := str "RETURN", Literal := str "return" }),
      ([32], str "foobar", { Kind := IDENT, Literal := str "foobar" }),
      ([], str ";", { Kind := str ";", Literal := str ";" })] [] :=
    ⟨
      spaces_none, Item.ident 114 [101, 116, 117, 114, 110] (by decide) (by decide), spaces_one,
      Item.ident 102 [111, 111, 98, 97, 114] (by decide) (by decide), spaces_none,
      Item.single 59 (by decide), spaces_none⟩
  exact tokenStream_items pr _ [] hs

/-- The tokens of `5; a`. -/
theorem stream_two_statements (pr : Int → Bool) :
    tokenStream pr (str "5; a") =
      .ok [
        { Kind := INT, Literal := str "5" }, { Kind := str ";", Literal := str ";" },
        { Kind := IDENT, Literal := str "a" }] := by
  have hs : Spaced [
      ([], str "5", { Kind := INT, Literal := str "5" }),
      ([], str ";", { Kind := str ";", Literal := str ";" }),
      ([32], str "a", { Kind := IDENT, Literal := str "a" })] [] :=
    ⟨
      spaces_none, Item.int 53 [] (by decide) (by decide) (by decide), spaces_none,
      Item.single 59 (by decide), spaces_one, Item.ident 97 [] (by decide) (by decide),
      spaces_none⟩
  exact tokenStream_items pr _ [] hs


end parser

namespace parser

open token ast lexer

theorem str_pairs :
    str "((" = [40, 40] ∧ str ") " = [41, 32] ∧ str " (" = [32, 40] ∧ str "))" = [41, 41] := by
  decide

/-- The source `a o1 b o2 c` parses without errors and renders with the operand `b` given
to the operator of the higher row of the table, and to the left one if both stand in the
same row. -/
theorem render_three (pr : Int → Bool) (boolean : Token → Expression)
    (a b c o1 o2 : List Nat) (ha : identifierText a)
    (hb : identifierText b) (hc : identifierText c) (h1 : o1 ∈ binaryOperators)
    (h2 : o2 ∈ binaryOperators) :
    render pr boolean
        (a ++ str " " ++ o1 ++ str " " ++ b ++ str " " ++ o2 ++ str " " ++ c) =
      .ok (if operatorRow o2 ≤ operatorRow o1 then
          str "((" ++ a ++ str " " ++ o1 ++ str " " ++ b ++ str ") " ++ o2 ++ str " " ++ c
            ++ str ")"
        else
          str "(" ++ a ++ str " " ++ o1 ++ str " (" ++ b ++ str " " ++ o2 ++ str " " ++ c
            ++ str "))", []) := by
  have e := (render_of_stream pr boolean _ _ _ _ (stream_three pr a b c o1 o2 ha hb hc h1 h2)
    (program_three boolean a b c o1 o2 h1 h2)).2
  rw [e]
  by_cases hp : operatorRow o2 ≤ operatorRow o1
  · rw [if_pos hp, if_pos hp, program_string_single _ _ (by intro e; cases e),
      string_infixExpression, string_infixExpression]
    simp only [Expression.String, str_pairs.1, str_pairs.2.1, str_space, str_parens.2,
      List.append_assoc, List.cons_append, List.nil_append]
    rfl
  · rw [if_neg hp, if_neg hp, program_string_single _ _ (by intro e; cases e),
      string_infixExpression, string_infixExpression]
    simp only [Expression.String, str_pairs.2.2.1, str_pairs.2.2.2, str_space, str_parens.1,
      List.append_assoc, List.cons_append, List.nil_append]
    rfl

/-- The source `u a o b` parses without errors and renders with the operand `a` given to
the unary operator. -/
theorem render_unary_binary (pr : Int → Bool) (boolean : Token → Expression)
    (u a o b : List Nat) (hu : u ∈ unaryOperators)
    (ha : identifierText a) (hb : identifierText b) (ho : o ∈ binaryOperators) :
    render pr boolean (u ++ a ++ str " " ++ o ++ str " " ++ b) =
      .ok (str "((" ++ u ++ a ++ str ") " ++ o ++ str " " ++ b ++ str ")", []) := by
  have e := (render_of_stream pr boolean _ _ _ _ (stream_unary_binary pr u a o b hu ha hb ho)
    (program_unary_binary boolean u a o b hu ho)).2
  rw [e, program_string_single _ _ (by intro e; cases e), string_infixExpression,
    string_prefixExpression]
  simp only [Expression.String, str_pairs.1, str_pairs.2.1, str_space, str_parens.2,
    List.append_assoc, List.cons_append, List.nil_append]
  rfl

/-- The source `a + b * c + d / e - f` parses without errors and renders as
`(((a + (b * c)) + (d / e)) - f)`. -/
theorem render_six (pr : Int → Bool) (boolean : Token → Expression) :
    render pr boolean (str "a + b * c + d / e - f") =
      .ok (str "(((a + (b * c)) + (d / e)) - f)", []) := by
  unfold render parse
  rw [stream_test_7 pr]
  rfl

/-- The program of the source `a + b * c + d / e - f` is one expression statement. -/
theorem parse_six (pr : Int → Bool) (boolean : Token → Expression) :
    parse pr boolean (str "a + b * c + d / e - f") =
      .ok ({ Statements := [Statement.ExpressionStatement { Kind := IDENT, Literal := str "a" }
        (Expression.InfixExpression { Kind := str "-", Literal := str "-" }
          (Expression.InfixExpression { Kind := str "+", Literal := str "+" }
            (Expression.InfixExpression { Kind := str "+", Literal := str "+" }
              (Expression.Identifier { Kind := IDENT, Literal := str "a" } (str "a")) (str "+")
              (Expression.InfixExpression { Kind := str "*", Literal := str "*" }
                (Expression.Identifier { Kind := IDENT, Literal := str "b" } (str "b"))
                (str "*")
                (Expression.Identifier { Kind := IDENT, Literal := str "c" } (str "c"))))
            (str "+")
            (Expression.InfixExpression { Kind := str "/", Literal := str "/" }
              (Expression.Identifier { Kind := IDENT, Literal := str "d" } (str "d")) (str "/")
              (Expression.Identifier { Kind := IDENT, Literal := str "e" } (str "e"))))
          (str "-")
          (Expression.Identifier { Kind := IDENT, Literal := str "f" } (str "f")))] }, []) := by
  unfold parse
  rw [stream_test_7 pr]
  rfl

/-- The inputs of `TestOperatorPrecedenceParsing` in `parser_test.go`: each parses without
errors and its program renders as the test expects. -/
theorem render_precedence_tests (pr : Int → Bool) (boolean : Token → Expression) :
    render pr boolean (str "-a * b") = .ok (str "((-a) * b)", []) ∧
      render pr boolean (str "!-a") = .ok (str "(!(-a))", []) ∧
      render pr boolean (str "a + b + c") = .ok (str "((a + b) + c)", []) ∧
      render pr boolean (str "a + b - c") = .ok (str "((a + b) - c)", []) ∧
      render pr boolean (str "a * b * c") = .ok (str "((a * b) * c)", []) ∧
      render pr boolean (str "a * b / c") = .ok (str "((a * b) / c)", []) ∧
      render pr boolean (str "a + b * c + d / e - f") =
        .ok (str "(((a + (b * c)) + (d / e)) - f)", []) ∧
      render pr boolean (str "3 + 4; -5 * 5") = .ok (str "(3 + 4)((-5) * 5)", []) ∧
      render pr boolean (str "5 > 4 == 3 < 4") = .ok (str "((5 > 4) == (3 < 4))", []) ∧
      render pr boolean (str "5 < 4 != 3 > 4") = .ok (str "((5 < 4) != (3 > 4))", []) ∧
      render pr boolean (str "3 + 4 * 5 == 3 * 1 + 4 * 5") =
        .ok (str "((3 + (4 * 5)) == ((3 * 1) + (4 * 5)))", []) := by
  refine ⟨?_, ?_, ?_, ?_, ?_, ?_, ?_, ?_, ?_, ?_, ?_⟩
  · unfold render parse
    rw [stream_test_1 pr]
    rfl
  · unfold render parse
    rw [stream_test_2 pr]
    rfl
  · unfold render parse
    rw [stream_test_3 pr]
    rfl
  · unfold render parse
    rw [stream_test_4 pr]
    rfl
  · unfold render parse
    rw [stream_test_5 pr]
    rfl
  · unfold render parse
    rw [stream_test_6 pr]
    rfl
  · exact render_six pr boolean
  · unfold render parse
    rw [stream_test_8 pr]
    rfl
  · unfold render parse
    rw [stream_test_9 pr]
    rfl
  · unfold render parse
    rw [stream_test_10 pr]
    rfl
  · unfold render parse
    rw [stream_test_11 pr]
    rfl

/-- The source `let x = v;` with an operand `v` parses without errors to one `let`
statement with the name `x` and the node of `v` as value. -/
theorem parse_let (pr : Int → Bool) (boolean : Token → Expression) (x v : List Nat)
    (tv : Token) (ev : Expression) (hx : identifierText x) (hv : Operand v tv ev) :
    parse pr boolean (str "let " ++ x ++ str " = " ++ v ++ str ";") =
      .ok ({ Statements := [Statement.LetStatement { Kind := LET, Literal := str "let" }
        (some { Token := { Kind := IDENT, Literal := x }, Value := x }) ev] }, []) :=
  (render_of_stream pr boolean _ _ _ _ (stream_let pr x v tv ev hx hv)
    (program_let boolean x v tv ev hv)).1

/-- The source `let x = true;` parses without errors to one `let` statement with the name
`x` and the node of `true` as value. -/
theorem parse_let_true (pr : Int → Bool) (boolean : Token → Expression) (x : List Nat)
    (hx : identifierText x)
    (hb : boolean { Kind := TRUE, Literal := str "true" } ≠ Expression.nil) :
    parse pr boolean (str "let " ++ x ++ str " = true;") =
      .ok ({ Statements := [Statement.LetStatement { Kind := LET, Literal := str "let" }
        (some { Token := { Kind := IDENT, Literal := x }, Value := x })
        (boolean { Kind := TRUE, Literal := str "true" })] }, []) :=
  (render_of_stream pr boolean _ _ _ _ (stream_let_true pr x hx)
    (program_let_true boolean x hb)).1

/-- The integer literal `9223372036854775808` does not fit a 64-bit signed integer: the
conversion failure is recorded as an error, and the `let` statement, which cannot be
completed, is dropped. -/
theorem parse_let_big (pr : Int → Bool) (boolean : Token → Expression) :
    parse pr boolean (str "let x = 9223372036854775808;") =
      .ok ({ Statements := [] },
        [.badInteger (str "9223372036854775808"), .noPrefixParseFn (str ";")]) := by
  unfold parse
  rw [stream_let_big pr]
  rfl

/-- The inputs of `TestReturnStatements` in `parser_test.go`: each parses without errors to
one `return` statement with the token literal `return`. -/
theorem parse_return_tests (pr : Int → Bool) (boolean : Token → Expression)
    (hb : boolean { Kind := TRUE, Literal := str "true" } ≠ Expression.nil) :
    parse pr boolean (str "return 5;") =
        .ok ({ Statements := [Statement.ReturnStatement
          { Kind := RETURN, Literal := str "return" }
          (Expression.IntegerLiteral { Kind := INT, Literal := str "5" } 5)] }, []) ∧
      parse pr boolean (str "return true;") =
        .ok ({ Statements := [Statement.ReturnStatement
          { Kind := RETURN, Literal := str "return" }
          (boolean { Kind := TRUE, Literal := str "true" })] }, []) ∧
      parse pr boolean (str "return foobar;") =
        .ok ({ Statements := [Statement.ReturnStatement
          { Kind := RETURN, Literal := str "return" }
          (Expression.Identifier { Kind := IDENT, Literal := str "foobar" }
            (str "foobar"))] }, []) := by
  refine ⟨?_, ?_, ?_⟩
  · unfold parse
    rw [stream_return_5 pr]
    rfl
  · unfold parse
    rw [stream_return_true pr]
    have hb1 : boolean { Kind := str "TRUE", Literal := str "true" } ≠ Expression.nil := hb
    simp +decide [New, Parser.nextToken, Parser.ParseProgram, Parser.ParseProgramLoop,
      Parser.parseStatement, Parser.parseReturnStatement, Parser.parseExpression,
      Parser.parseExpressionLoop, Parser.fuel, Parser.skipSemicolon, Parser.Errors, hb1]
    rfl
  · unfold parse
    rw [stream_return_foobar pr]
    rfl

/-- The renderings of the statements of a program are concatenated with no separator:
the two expression statements of `5; a` render as `5a`, which is no rendering of an
expression but a malformed number.  The round trip is a law of the sources of one
expression. -/
theorem render_two_statements (boolean : Token → Expression) :
    render (fun _ => true) boolean (str "5; a") = .ok (str "5a", []) ∧
      render (fun _ => true) boolean (str "5a") = .ok ([], [.noPrefixParseFn ILLEGAL]) := by
  refine ⟨?_, ?_⟩
  · unfold render parse
    rw [stream_two_statements]
    rfl
  · have h : tokenStream (fun _ => true) (str "5a") =
        .ok [{ Kind := ILLEGAL, Literal := str "bad number syntax: \"5a\"" }] := by decide
    unfold render parse
    rw [h]
    rfl

end parser

namespace parser

open token ast lexer

/-- C14: the parser resolves precedence and left-associativity. For all identifiers `a`,
`b`, `c` and binary operators `o1`, `o2` of the table (`==` `!=` below `<` `>` below
`+` `-` below `*` `/`, the rows of `operatorRows`), parsing `a o1 b o2 c` records no errors
and the program renders as `((a o1 b) o2 c)` when the row of `o2` is at most that of `o1`
and as `(a o1 (b o2 c))` when it is higher; a unary `-` or `!` binds tighter than any
binary operator (`u a o1 b` renders as `((ua) o1 b)`); and `a + b * c + d / e - f` renders
as `(((a + (b * c)) + (d / e)) - f)`.  This holds whatever node the parser builds for
`true` and `false`. -/
theorem C14_precedence_and_left_associativity (pr : Int → Bool)
    (boolean : Token → Expression) (a b c o1 o2 u : List Nat)
    (ha : identifierText a) (hb : identifierText b) (hc : identifierText c)
    (h1 : o1 ∈ binaryOperators) (h2 : o2 ∈ binaryOperators) (hu : u ∈ unaryOperators) :
    render pr boolean
          (a ++ str " " ++ o1 ++ str " " ++ b ++ str " " ++ o2 ++ str " " ++ c) =
        .ok (if operatorRow o2 ≤ operatorRow o1 then
            str "((" ++ a ++ str " " ++ o1 ++ str " " ++ b ++ str ") " ++ o2 ++ str " " ++ c
              ++ str ")"
          else
            str "(" ++ a ++ str " " ++ o1 ++ str " (" ++ b ++ str " " ++ o2 ++ str " " ++ c
              ++ str "))", []) ∧
      render pr boolean (u ++ a ++ str " " ++ o1 ++ str " " ++ b) =
        .ok (str "((" ++ u ++ a ++ str ") " ++ o1 ++ str " " ++ b ++ str ")", []) ∧
      render pr boolean (str "a + b * c + d / e - f") =
        .ok (str "(((a + (b * c)) + (d / e)) - f)", []) :=
  ⟨render_three pr boolean a b c o1 o2 ha hb hc h1 h2,
    render_unary_binary pr boolean u a o1 b hu ha hb h1, render_six pr boolean⟩

/-- C14 at `foo * bar + baz` and `-foo * bar`: `((foo * bar) + baz)` and
`((-foo) * bar)`. -/
theorem C14_precedence_and_left_associativity_witness :
    render (fun _ => true) (fun t => Expression.Identifier t t.Literal)
          (str "foo * bar + baz") = .ok (str "((foo * bar) + baz)", []) ∧
      render (fun _ => true) (fun t => Expression.Identifier t t.Literal)
          (str "-foo * bar") = .ok (str "((-foo) * bar)", []) ∧
      render (fun _ => true) (fun t => Expression.Identifier t t.Literal)
          (str "a + b * c + d / e - f") =
        .ok (str "(((a + (b * c)) + (d / e)) - f)", []) :=
  C14_precedence_and_left_associativity (fun _ => true)
    (fun t => Expression.Identifier t t.Literal) (str "foo") (str "bar") (str "baz")
    (str "*") (str "+") (str "-") ⟨by decide, by decide, by decide⟩
    ⟨by decide, by decide, by decide⟩ ⟨by decide, by decide, by decide⟩ (by decide) (by decide)
    (by decide)

/-- C15 as stated fails for an integer literal that does not fit a 64-bit signed integer:
in `let x = 9223372036854775808;` the conversion of the literal fails, which is a
recorded error (§4.2), so the error list is not empty; the statement cannot be completed
and is dropped. -/
theorem C15_let_statements_counterexample :
    parse (fun _ => true) (fun t => Expression.Identifier t t.Literal)
        (str "let x = 9223372036854775808;") =
      .ok ({ Statements := [] },
        [.badInteger (str "9223372036854775808"), .noPrefixParseFn (str ";")]) :=
  parse_let_big _ _

/-- C15 as amended: for every identifier `x` that is no keyword and every value `v` that
is an identifier that is no keyword, an integer literal of at most `2^63 - 1`, or `true`
(for which the parser builds a node, whichever it is), parsing `let x = v;` records no
errors and produces a program with exactly one statement, a `LetStatement` whose token
literal is `let`, whose `Name` has `Value` and token literal `x`, and whose `Value` is the
node of `v`, which renders as `v` for an identifier and an integer literal; for
`let x = 5;` the value is an `IntegerLiteral` of 5. -/
theorem C15_let_statement_of_value (pr : Int → Bool) (boolean : Token → Expression)
    (x v : List Nat) (tv : Token) (ev : Expression) (hx : identifierText x)
    (hv : Operand v tv ev)
    (hb : boolean { Kind := TRUE, Literal := str "true" } ≠ Expression.nil) :
    parse pr boolean (str "let " ++ x ++ str " = " ++ v ++ str ";") =
        .ok ({ Statements := [Statement.LetStatement { Kind := LET, Literal := str "let" }
          (some { Token := { Kind := IDENT, Literal := x }, Value := x }) ev] }, []) ∧
      parse pr boolean (str "let " ++ x ++ str " = true;") =
        .ok ({ Statements := [Statement.LetStatement { Kind := LET, Literal := str "let" }
          (some { Token := { Kind := IDENT, Literal := x }, Value := x })
          (boolean { Kind := TRUE, Literal := str "true" })] }, []) ∧
      (Statement.LetStatement { Kind := LET, Literal := str "let" }
        (some { Token := { Kind := IDENT, Literal := x }, Value := x }) ev).TokenLiteral =
          some (str "let") ∧
      ev.String = v ∧ ev ≠ Expression.nil ∧
      parse pr boolean (str "let x = 5;") =
        .ok ({ Statements := [Statement.LetStatement { Kind := LET, Literal := str "let" }
          (some { Token := { Kind := IDENT, Literal := str "x" }, Value := str "x" })
          (Expression.IntegerLiteral { Kind := INT, Literal := str "5" } 5)] }, []) :=
  ⟨parse_let pr boolean x v tv ev hx hv, parse_let_true pr boolean x hx hb, rfl,
    (operand_string v tv ev hv).1, (operand_string v tv ev hv).2,
    parse_let pr boolean (str "x") (str "5") _ _ ⟨by decide, by decide, by decide⟩
      (Operand.int (str "5") 5 ⟨by decide, by decide, by decide⟩ (by decide))⟩

/-- C15 as amended at `let foobar = y;` and `let foobar = true;`, the node of `true` being
an identifier node. -/
theorem C15_let_statement_of_value_witness :
    parse (fun _ => true) (fun t => Expression.Identifier t t.Literal)
          (str "let foobar = y;") =
        .ok ({ Statements := [Statement.LetStatement { Kind := LET, Literal := str "let" }
          (some { Token := { Kind := IDENT, Literal := str "foobar" }, Value := str "foobar" })
          (Expression.Identifier { Kind := IDENT, Literal := str "y" } (str "y"))] }, []) ∧
      parse (fun _ => true) (fun t => Expression.Identifier t t.Literal)
          (str "let foobar = true;") =
        .ok ({ Statements := [Statement.LetStatement { Kind := LET, Literal := str "let" }
          (some { Token := { Kind := IDENT, Literal := str "foobar" }, Value := str "foobar" })
          (Expression.Identifier { Kind := TRUE, Literal := str "true" } (str "true"))] },
          []) ∧
      (Statement.LetStatement { Kind := LET, Literal := str "let" }
        (some { Token := { Kind := IDENT, Literal := str "foobar" }, Value := str "foobar" })
        (Expression.Identifier { Kind := IDENT, Literal := str "y" } (str "y"))).TokenLiteral =
          some (str "let") ∧
      (Expression.Identifier { Kind := IDENT, Literal := str "y" } (str "y")).String = str "y" ∧
      Expression.Identifier { Kind := IDENT, Literal := str "y" } (str "y") ≠ Expression.nil ∧
      parse (fun _ => true) (fun t => Expression.Identifier t t.Literal) (str "let x = 5;") =
        .ok ({ Statements := [Statement.LetStatement { Kind := LET, Literal := str "let" }
          (some { Token := { Kind := IDENT, Literal := str "x" }, Value := str "x" })
          (Expression.IntegerLiteral { Kind := INT, Literal := str "5" } 5)] }, []) :=
  C15_let_statement_of_value (fun _ => true) (fun t => Expression.Identifier t t.Literal)
    (str "foobar") (str "y") _ _ ⟨by decide, by decide, by decide⟩
    (Operand.ident (str "y") ⟨by decide, by decide, by decide⟩) (by decide)

/-- C16: rendering is a fixed point of parse-then-render.  For every expression source,
that is every source whose program is one expression statement, with the expression `e`
(whatever errors the parse records, none in particular): the program renders as `e`
does, and parsing that string again and rendering the result yields the identical string,
the second parse recording no errors.  The node that the parser builds for `true` and
`false`, which `ast.go` does not declare, is taken to render as the literal of its
token. -/
theorem C16_rendering_fixed_point (pr : Int → Bool) (boolean : Token → Expression)
    (source : List Nat) (tok : Token) (e : Expression) (errors : List ParseError)
    (hb : ∀ t, boolean t ≠ Expression.nil ∧ (boolean t).String = t.Literal)
    (h : parse pr boolean source =
      .ok ({ Statements := [Statement.ExpressionStatement tok e] }, errors)) :
    render pr boolean source = .ok (e.String, errors) ∧
      render pr boolean e.String = .ok (e.String, []) :=
  ⟨(expression_round_trip pr boolean (fun t => (hb t).1) (fun t => (hb t).2) source tok e
      errors h).1,
    (expression_round_trip pr boolean (fun t => (hb t).1) (fun t => (hb t).2) source tok e
      errors h).2.2⟩

/-- C16 at the source `a + b * c + d / e - f`: it renders as
`(((a + (b * c)) + (d / e)) - f)`, and so does that string. -/
theorem C16_rendering_fixed_point_witness :
    render (fun _ => true) (fun t => Expression.Identifier t t.Literal)
        (str "a + b * c + d / e - f") = .ok (str "(((a + (b * c)) + (d / e)) - f)", []) ∧
      render (fun _ => true) (fun t => Expression.Identifier t t.Literal)
        (str "(((a + (b * c)) + (d / e)) - f)") =
          .ok (str "(((a + (b * c)) + (d / e)) - f)", []) :=
  C16_rendering_fixed_point (fun _ => true) (fun t => Expression.Identifier t t.Literal)
    (str "a + b * c + d / e - f") _ _ [] (fun _ => ⟨fun h => Expression.noConfusion h, rfl⟩)
    (parse_six _ _)

end parser

end Monkey
